import Mathlib

/-!
# TicTok: a timing-instrumentation pass over an LLVM-style module

Shallow embedding of `src/TicTok.cpp` (`CreateGlobalCounter`,
`TicTokCounter::runOnModule`) together with the part of the LLVM API the pass
calls (`getOrInsertFunction`, `getOrInsertGlobal`, `getNamedGlobal`,
`getFunction`, `getTerminator`, `getFirstInsertionPt`, `IRBuilder`).

Modelling conventions.
* A module is a list of global variables and a list of functions; a function
  is a declaration exactly when it has no basic block; a basic block is the
  list of its instructions.
* Every instruction carries an identity (`id`), the counterpart of its address
  in LLVM; operands refer to instructions through `Value.inst id`.  New objects
  take their identity from the counter `nextId` of the module.
* Pointers are untyped, so a symbol found by name is used as it is and a
  pointer cast of a constant is that constant.
* Where the source dereferences a null pointer or an end iterator the model
  stops with `Result.crashed`.
-/

namespace TicTok

/-! ## IR data model -/

/-- First-class types that occur in the pass. -/
inductive Ty where
  | Void | Int8 | Int32 | Int64 | Double | Ptr
  | Int8Array (n : Nat)
  | Other (k : Nat)
  deriving DecidableEq, Repr

/-- Signature of a function: `FunctionType::get(ret, params, isVarArg)`. -/
structure FunctionType where
  ret : Ty
  params : List Ty
  isVarArg : Bool
  deriving DecidableEq, Repr

/-- Instruction opcodes: all terminators, PHI and the exception-handling pads
(which decide the insertion points) and the opcodes the pass creates. -/
inductive Opcode where
  | Ret | Br | Switch | IndirectBr | Invoke | Resume | Unreachable
  | CleanupRet | CatchRet | CatchSwitch | CallBr
  | PHI | LandingPad | CatchPad | CleanupPad
  | Alloca | Load | Store | Call | Sub | UIToFP | FDiv | FAdd
  | Other (k : Nat)
  deriving DecidableEq, Repr

/-- Identity of a global value: its name, or an identity when it is unnamed. -/
inductive GlobalId where
  | named (name : String)
  | anon (id : Nat)
  deriving DecidableEq, Repr

/-- Operands. -/
inductive Value where
  | inst (id : Nat)
  | global (g : GlobalId)
  | constFP (n : Nat)
  | null
  | other (k : Nat)
  deriving DecidableEq, Repr

/-- An instruction; a call lists its arguments first and its callee last. -/
structure Instruction where
  id : Nat
  opcode : Opcode
  ty : Ty
  operands : List Value
  deriving DecidableEq, Repr

structure BasicBlock where
  name : String
  insts : List Instruction
  deriving DecidableEq, Repr

inductive AttrKind where
  | NoUnwind | NoCapture | ReadOnly
  | Other (k : Nat)
  deriving DecidableEq, Repr

/-- A function attribute or an attribute of the parameter with index `i`. -/
inductive Attr where
  | fn (a : AttrKind)
  | param (i : Nat) (a : AttrKind)
  deriving DecidableEq, Repr

structure Function where
  name : String
  ty : FunctionType
  attrs : List Attr
  blocks : List BasicBlock
  deriving DecidableEq, Repr

inductive Linkage where
  | External | Common | Private
  | Other (k : Nat)
  deriving DecidableEq, Repr

/-- Constant initial value of a global variable. -/
inductive Init where
  | fp (n : Nat)
  | str (s : String)
  | other (k : Nat)
  deriving DecidableEq, Repr

structure GlobalVariable where
  gid : GlobalId
  valueType : Ty
  isConstant : Bool
  linkage : Linkage
  align : Option Nat
  init : Option Init
  unnamedAddr : Bool
  deriving DecidableEq, Repr

structure Module where
  globals : List GlobalVariable
  functions : List Function
  nextId : Nat
  deriving DecidableEq, Repr

/-- The map `llvm::StringMap<Constant *>`, as an association list. -/
abbrev StringMap := List (String × Value)

/-- Assignment `Map[Key] = V`. -/
def StringMap.set : StringMap → String → Value → StringMap
  | [], k, v => [(k, v)]
  | (k0, v0) :: rest, k, v =>
    if k0 = k then (k0, v) :: rest else (k0, v0) :: StringMap.set rest k v

/-- Read `Map[Key]`; an absent key reads as the null constant. -/
def StringMap.get : StringMap → String → Value
  | [], _ => Value.null
  | (k0, v0) :: rest, k => if k0 = k then v0 else StringMap.get rest k

def StringMap.keys (m : StringMap) : List String := m.map Prod.fst

/-- Order in which a `StringMap` is iterated: some rearrangement of its
entries, fixed by the hash table and not by the pass. -/
def IterOrder := { f : StringMap → StringMap // ∀ m, (f m).Perm m }

/-- The iteration order that follows insertion. -/
def IterOrder.insertion : IterOrder := ⟨fun m => m, fun m => List.Perm.refl m⟩

/-! ## The LLVM API used by the pass -/

def Opcode.isTerminator : Opcode → Bool
  | .Ret | .Br | .Switch | .IndirectBr | .Invoke | .Resume | .Unreachable
  | .CleanupRet | .CatchRet | .CatchSwitch | .CallBr => true
  | _ => false

def Opcode.isEHPad : Opcode → Bool
  | .CatchSwitch | .CatchPad | .CleanupPad | .LandingPad => true
  | _ => false

def Function.isDeclaration (F : Function) : Bool := F.blocks.isEmpty

/-- The last instruction when it is a terminator: `BB.getTerminator()`. -/
def BasicBlock.getTerminator (BB : BasicBlock) : Option Instruction :=
  match BB.insts.getLast? with
  | some I => if I.opcode.isTerminator then some I else none
  | none => none

/-- The test `terminal != nullptr && terminal->getOpcode() == Instruction::Ret`. -/
def BasicBlock.endsInRet (BB : BasicBlock) : Bool :=
  match BB.getTerminator with
  | some terminal => terminal.opcode == Opcode.Ret
  | none => false

/-- Index given by `getFirstInsertionPt`: the first instruction that is not a
PHI, stepping over it when it is an exception-handling pad; `none` is the end
iterator. -/
def firstInsertionIdx : List Instruction → Option Nat
  | [] => none
  | I :: rest =>
    if I.opcode = Opcode.PHI then (firstInsertionIdx rest).map (· + 1)
    else if I.opcode.isEHPad then (if rest.isEmpty then none else some 1)
    else some 0

def BasicBlock.getFirstInsertionPt (BB : BasicBlock) : Option Nat :=
  firstInsertionIdx BB.insts

/-- What an `IRBuilder` positioned before the instruction at index `idx` does
when it creates the instructions `new` one after the other. -/
def BasicBlock.insertBefore (BB : BasicBlock) (idx : Nat) (new : List Instruction) :
    BasicBlock :=
  { BB with insts := BB.insts.take idx ++ new ++ BB.insts.drop idx }

def hasGlobal (gs : List GlobalVariable) (Name : String) : Bool :=
  gs.any (fun g => g.gid == GlobalId.named Name)

def hasFunction (fs : List Function) (Name : String) : Bool :=
  fs.any (fun F => F.name == Name)

/-- The lookup `M.getFunction(Name)`. -/
def getFunction (fs : List Function) (Name : String) : Option Function :=
  fs.find? (fun F => F.name == Name)

/-- The call `M.getOrInsertFunction(Name, Ty)`: a symbol of that name is used
as found, otherwise a declaration is appended to the function list. -/
def getOrInsertFunction (M : Module) (Name : String) (Ty : FunctionType) : Module :=
  if hasFunction M.functions Name || hasGlobal M.globals Name then M
  else { M with functions := M.functions ++ [⟨Name, Ty, [], []⟩] }

/-- The call `getOrInsertGlobal(Name, Ty)` on the global list, `fnNames` being
the names held by functions.  A variable of that name is reused; a free name
gets a new external declaration at the end of the list.  When a function
holds the name LLVM creates the variable under another name: that case is not
followed and yields `none`. -/
def getOrInsertGlobal (fnNames : List String) (gs : List GlobalVariable) (Name : String)
    (ty : Ty) : Option (List GlobalVariable) :=
  if hasGlobal gs Name then some gs
  else if fnNames.contains Name then none
  else some (gs ++ [⟨GlobalId.named Name, ty, false, Linkage.External, none, none, false⟩])

/-- Apply `f` to the variable `getNamedGlobal(Name)` returns. -/
def updateNamedGlobal (Name : String) (f : GlobalVariable → GlobalVariable) :
    List GlobalVariable → List GlobalVariable
  | [] => []
  | g :: rest =>
    if g.gid = GlobalId.named Name then f g :: rest
    else g :: updateNamedGlobal Name f rest

/-- Function `Function::addFnAttr` / `addParamAttr`. -/
def Function.addAttr (F : Function) (a : Attr) : Function :=
  if a ∈ F.attrs then F else { F with attrs := F.attrs ++ [a] }

/-- Apply `f` to the function `getFunction(Name)` returns. -/
def updateNamedFunction (Name : String) (f : Function → Function) :
    List Function → List Function
  | [] => []
  | F :: rest =>
    if F.name = Name then f F :: rest
    else F :: updateNamedFunction Name f rest

/-- The private constant made by `IRBuilder::CreateGlobalStringPtr(Str)`. -/
def globalString (id : Nat) (Str : String) : GlobalVariable :=
  ⟨GlobalId.anon id, Ty.Int8Array (Str.utf8ByteSize + 1), true, Linkage.Private, some 1,
    some (Init.str Str), true⟩

/-! ## `src/TicTok.cpp` -/

/-- Lines 20-22: `setLinkage(CommonLinkage)`, `setAlignment(MaybeAlign(4))`,
`setInitializer(0.0)`. -/
def defineCounter (NewGV : GlobalVariable) : GlobalVariable :=
  { NewGV with linkage := Linkage.Common, align := some 4, init := some (Init.fp 0) }

/-- The call `GV->setInitializer(Str)` of lines 120 and 134. -/
def setStringInit (Str : String) (GV : GlobalVariable) : GlobalVariable :=
  { GV with init := some (Init.str Str) }

/-- Function `CreateGlobalCounter` on the global list.  `none`: the name is held
by a function, `getNamedGlobal` returns null and `NewGV->setLinkage` faults. -/
def CreateGlobalCounter (fnNames : List String) (gs : List GlobalVariable)
    (GlobalVarName : String) : Option (List GlobalVariable × Value) :=
  match getOrInsertGlobal fnNames gs GlobalVarName Ty.Double with
  | none => none
  | some gs1 =>
    let NewGlobalVar := Value.global (GlobalId.named GlobalVarName)
    some (updateNamedGlobal GlobalVarName defineCounter gs1, NewGlobalVar)

/-- Line 55: `"TimeFor_" + std::string(F.getName())`. -/
def counterName (fn : String) : String := "TimeFor_" ++ fn

def ClockTy : FunctionType := ⟨Ty.Int64, [], false⟩

def Clock : Value := Value.global (GlobalId.named "clock")

/-- Instructions of lines 63-65, created at the top of the entry block; `n` is
the identity of the first. -/
def entrySeq (n : Nat) : List Instruction :=
  [ ⟨n, Opcode.Alloca, Ty.Int64, []⟩,                                -- ticCounterPtr
    ⟨n + 1, Opcode.Call, Ty.Int64, [Clock]⟩,                         -- ticCounter
    ⟨n + 2, Opcode.Store, Ty.Void, [Value.inst (n + 1), Value.inst n]⟩ ]

/-- Instructions of lines 71-83, created before a return; `ticCounterPtr` is the
identity of the timer slot, `Var` the accumulator, `n` the identity of the
first instruction. -/
def accumSeq (ticCounterPtr : Nat) (Var : Value) (n : Nat) : List Instruction :=
  [ ⟨n, Opcode.Load, Ty.Int64, [Value.inst ticCounterPtr]⟩,                     -- Begin
    ⟨n + 1, Opcode.Call, Ty.Int64, [Clock]⟩,                                    -- End
    ⟨n + 2, Opcode.Sub, Ty.Int64, [Value.inst (n + 1), Value.inst n]⟩,          -- TimeUsed
    ⟨n + 3, Opcode.UIToFP, Ty.Double, [Value.inst (n + 2)]⟩,                    -- TimeUsedShift
    ⟨n + 4, Opcode.FDiv, Ty.Double, [Value.inst (n + 3), Value.constFP 1000000]⟩, -- TimeSeconds
    ⟨n + 5, Opcode.Load, Ty.Double, [Var]⟩,                                     -- CurFuncTotal
    ⟨n + 6, Opcode.FAdd, Ty.Double, [Value.inst (n + 5), Value.inst (n + 4)]⟩,  -- Added
    ⟨n + 7, Opcode.Store, Ty.Void, [Value.inst (n + 6), Var]⟩ ]

/-- The loop `for (auto &BB : F)` of lines 67-85; the number threaded through
is the next free identity. -/
def instrumentReturns (ticCounterPtr : Nat) (Var : Value) :
    List BasicBlock → Nat → List BasicBlock × Nat
  | [], n => ([], n)
  | BB :: rest, n =>
    if BB.endsInRet then
      let BB1 := BB.insertBefore (BB.insts.length - 1) (accumSeq ticCounterPtr Var n)
      let r := instrumentReturns ticCounterPtr Var rest (n + 8)
      (BB1 :: r.1, r.2)
    else
      let r := instrumentReturns ticCounterPtr Var rest n
      (BB :: r.1, r.2)

/-- What the loop of STEP 1 carries from one function to the next. -/
structure LoopState where
  globals : List GlobalVariable
  nextId : Nat
  CallCounterMap : StringMap
  FuncNameMap : StringMap
  Instrumented : Bool
  deriving DecidableEq, Repr

/-- Body of the loop of STEP 1 (lines 51-86) for a function definition.
`none`: the entry block has no insertion point, or `CreateGlobalCounter`
faults. -/
def visitFunction (fnNames : List String) (F : Function) (s : LoopState) :
    Option (Function × LoopState) :=
  match F.blocks with
  | [] => none
  | entry :: others =>
    match entry.getFirstInsertionPt with
    | none => none
    | some ip =>
      let CounterName := counterName F.name
      match CreateGlobalCounter fnNames s.globals CounterName with
      | none => none
      | some (gs, Var) =>
        let FuncName := Value.global (GlobalId.anon s.nextId)
        let ticCounterPtr := s.nextId + 1
        let entry1 := entry.insertBefore ip (entrySeq ticCounterPtr)
        let r := instrumentReturns ticCounterPtr Var (entry1 :: others) (s.nextId + 4)
        some ({ F with blocks := r.1 },
              { globals := gs ++ [globalString s.nextId F.name],
                nextId := r.2,
                CallCounterMap := s.CallCounterMap.set F.name Var,
                FuncNameMap := s.FuncNameMap.set F.name FuncName,
                Instrumented := true })

/-- Outcome of the loop of STEP 1: the function list with the visited bodies
rewritten, the state, and whether the loop ran to its end. -/
structure LoopResult where
  functions : List Function
  state : LoopState
  completed : Bool
  deriving DecidableEq, Repr

/-- The loop `for (auto &F : M)` of STEP 1 (lines 47-87). -/
def forEachFunction (fnNames : List String) : List Function → LoopState → LoopResult
  | [], s => ⟨[], s, true⟩
  | F :: rest, s =>
    if F.isDeclaration then
      let r := forEachFunction fnNames rest s
      ⟨F :: r.functions, r.state, r.completed⟩
    else
      match visitFunction fnNames F s with
      | none => ⟨F :: rest, s, false⟩
      | some (F1, s1) =>
        let r := forEachFunction fnNames rest s1
        ⟨F1 :: r.functions, r.state, r.completed⟩

def PrintfTy : FunctionType := ⟨Ty.Int32, [Ty.Ptr], true⟩

def Printf : Value := Value.global (GlobalId.named "printf")

def PrintfWrapperTy : FunctionType := ⟨Ty.Void, [], false⟩

def PrintfWrapperF : Value := Value.global (GlobalId.named "printf_wrapper")

def ResultFormatStr : String := "%-20s %-10f\n"

/-- A line of 49 copies of the character `c`, as lines 123, 125 and 127 write
it out. -/
def headerRule (c : Char) : String := String.mk (List.replicate 49 c) ++ "\n"

/-- The string `out` of lines 122-127. -/
def ResultHeaderStr : String :=
  headerRule '=' ++
  "TIC-TOK: get function waste time\n" ++
  headerRule '=' ++
  "NAME                 #FUNC WASTE SECONDS\n" ++
  headerRule '-'

def ResultFormatStrPtr : Value := Value.global (GlobalId.named "ResultFormatStrIR")

def ResultHeaderStrPtr : Value := Value.global (GlobalId.named "ResultHeaderStrIR")

/-- Lines 115-120 and 129-134: `getOrInsertGlobal` followed by `setInitializer`. -/
def insertStringGlobal (fnNames : List String) (gs : List GlobalVariable) (Name : String)
    (Str : String) : Option (List GlobalVariable) :=
  match getOrInsertGlobal fnNames gs Name (Ty.Int8Array (Str.utf8ByteSize + 1)) with
  | none => none
  | some gs1 => some (updateNamedGlobal Name (setStringInit Str) gs1)

/-- The two instructions one round of the loop of lines 163-168 creates. -/
def dataLine (FuncNameMap : StringMap) (item : String × Value) (n : Nat) : List Instruction :=
  [ ⟨n, Opcode.Load, Ty.Double, [item.2]⟩,                                       -- LoadCounter
    ⟨n + 1, Opcode.Call, Ty.Int32,
      [ResultFormatStrPtr, FuncNameMap.get item.1, Value.inst n, Printf]⟩ ]

/-- The loop `for (auto &item : CallCounterMap)` of lines 163-168 over the
entries in iteration order. -/
def dataLines (FuncNameMap : StringMap) : List (String × Value) → Nat → List Instruction
  | [], _ => []
  | item :: rest, n => dataLine FuncNameMap item n ++ dataLines FuncNameMap rest (n + 2)

/-- Instructions of the block `enter` (lines 160-171). -/
def reportBody (ord : IterOrder) (CallCounterMap FuncNameMap : StringMap) (n : Nat) :
    List Instruction :=
  [⟨n, Opcode.Call, Ty.Int32, [ResultHeaderStrPtr, Printf]⟩] ++
  dataLines FuncNameMap (ord.1 CallCounterMap) (n + 1) ++
  [⟨n + 1 + 2 * CallCounterMap.length, Opcode.Ret, Ty.Void, []⟩]

/-- The call `Builder.CreateCall(PrintfWrapperF)` of line 179. -/
def reportCall (n : Nat) : Instruction := ⟨n, Opcode.Call, Ty.Void, [PrintfWrapperF]⟩

/-- The loop `for (auto &BB : *MainFunction)` of lines 174-181. -/
def hookReturns : List BasicBlock → Nat → List BasicBlock × Nat
  | [], n => ([], n)
  | BB :: rest, n =>
    if BB.endsInRet then
      let BB1 := BB.insertBefore (BB.insts.length - 1) [reportCall n]
      let r := hookReturns rest (n + 1)
      (BB1 :: r.1, r.2)
    else
      let r := hookReturns rest n
      (BB :: r.1, r.2)

/-- How a run of the pass ends. -/
inductive Result where
  /-- The pass returned `changed`, leaving the module `M`. -/
  | returned (changed : Bool) (M : Module)
  /-- The pass dereferenced a null pointer or an end iterator; `M` is the
  module in memory at that moment. -/
  | crashed (M : Module)
  /-- A string global had to be created under a name held by a function. -/
  | unsupported
  deriving DecidableEq, Repr

/-- Lines 109-111: `setDoesNotThrow`, `addParamAttr(0, NoCapture)`,
`addParamAttr(0, ReadOnly)`. -/
def setPrintfAttrs (PrintfF : Function) : Function :=
  ((PrintfF.addAttr (Attr.fn AttrKind.NoUnwind)).addAttr
    (Attr.param 0 AttrKind.NoCapture)).addAttr (Attr.param 0 AttrKind.ReadOnly)

/-- The call `BasicBlock::Create(CTX, "enter", F)`, the block then filled. -/
def Function.appendBlock (F : Function) (BB : BasicBlock) : Function :=
  { F with blocks := F.blocks ++ [BB] }

/-- STEP 2 to the end of `runOnModule` (lines 93-183), entered with the
function list and the state the loop of STEP 1 left. -/
def synthesizeReport (ord : IterOrder) (fs : List Function) (s : LoopState) : Result :=
  let M1 : Module := ⟨s.globals, fs, s.nextId⟩
  -- STEP 2
  let M2 := getOrInsertFunction M1 "printf" PrintfTy
  if !hasFunction M2.functions "printf" then Result.crashed M2 else
  let M3 : Module :=
    { M2 with functions := updateNamedFunction "printf" setPrintfAttrs M2.functions }
  -- STEP 3
  let fnNames := M3.functions.map Function.name
  match insertStringGlobal fnNames M3.globals "ResultFormatStrIR" ResultFormatStr with
  | none => Result.unsupported
  | some gs4 =>
  match insertStringGlobal fnNames gs4 "ResultHeaderStrIR" ResultHeaderStr with
  | none => Result.unsupported
  | some gs5 =>
  -- STEP 4
  let M6 := getOrInsertFunction { M3 with globals := gs5 } "printf_wrapper" PrintfWrapperTy
  let haveWrapper := hasFunction M6.functions "printf_wrapper"
  let RetBlock : BasicBlock := ⟨"enter", reportBody ord s.CallCounterMap s.FuncNameMap M6.nextId⟩
  let M7 : Module :=
    { M6 with
      functions := updateNamedFunction "printf_wrapper"
        (fun F => F.appendBlock RetBlock) M6.functions,
      nextId := M6.nextId + 2 + 2 * s.CallCounterMap.length }
  match getFunction M7.functions "main" with
  | none => Result.crashed M7
  | some MainFunction =>
    if !haveWrapper && MainFunction.blocks.any BasicBlock.endsInRet then Result.crashed M7 else
    let r := hookReturns MainFunction.blocks M7.nextId
    Result.returned true
      { M7 with
        functions := updateNamedFunction "main" (fun F => { F with blocks := r.1 }) M7.functions,
        nextId := r.2 }

/-- Line 43: `M.getOrInsertFunction("clock", ClockTy)`. -/
def declareClock (M : Module) : Module := getOrInsertFunction M "clock" ClockTy

/-- The loop of STEP 1 as `runOnModule` runs it: after line 43, over all the
functions of the module, from empty maps. -/
def perFunctionLoop (M : Module) : LoopResult :=
  let M0 := declareClock M
  forEachFunction (M0.functions.map Function.name) M0.functions
    ⟨M0.globals, M0.nextId, [], [], false⟩

/-- The pass `TicTokCounter::runOnModule`. -/
def runOnModule (ord : IterOrder) (M : Module) : Result :=
  -- STEP 1
  let r := perFunctionLoop M
  let M1 : Module := ⟨r.state.globals, r.functions, r.state.nextId⟩
  if !r.completed then Result.crashed M1
  else if r.state.Instrumented = false then Result.returned false M1
  else synthesizeReport ord r.functions r.state

/-! ## Vocabulary of the statements -/

/-- Whether a name starts with `TimeFor_`. -/
def isCounterName (s : String) : Bool := "TimeFor_".data.isPrefixOf s.data

/-- The accumulator of the function named `fn`, as an operand. -/
def counterVar (fn : String) : Value := Value.global (GlobalId.named (counterName fn))

/-- Whether the entry block of a definition has an insertion point. -/
def Function.entryInsertable (F : Function) : Bool :=
  match F.blocks with
  | [] => true
  | entry :: _ => entry.getFirstInsertionPt.isSome

/-- Modules on which the loop of STEP 1 meets no null pointer and no end
iterator: every entry block has an insertion point and no function holds a
name that starts with `TimeFor_`. -/
structure LoopSafe (M : Module) : Prop where
  entry : ∀ F ∈ M.functions, F.entryInsertable = true
  counter : ∀ F ∈ M.functions, isCounterName F.name = false

/-- Modules on which the pass is followed to its end: `LoopSafe`, function
names are unique, and none of the names the pass looks up is held by a symbol
of the other kind. -/
structure Supported (M : Module) extends LoopSafe M : Prop where
  names : (M.functions.map Function.name).Nodup
  printfFree : hasGlobal M.globals "printf" = false
  wrapperFree : hasGlobal M.globals "printf_wrapper" = false
  formatFree : hasFunction M.functions "ResultFormatStrIR" = false
  headerFree : hasFunction M.functions "ResultHeaderStrIR" = false

/-- The function `F` as the body of the loop of STEP 1 leaves it when it
starts with `nextId = k`; a declaration is left as it is. -/
def instrumented (F : Function) (k : Nat) : Function :=
  match F.blocks with
  | [] => F
  | entry :: others =>
    match entry.getFirstInsertionPt with
    | none => F
    | some ip =>
      { F with blocks := (instrumentReturns (k + 1) (counterVar F.name)
          (entry.insertBefore ip (entrySeq (k + 1)) :: others) (k + 4)).1 }

/-- What STEP 2 to the end do to a function, by its name: `printf` gets its
attributes, `printf_wrapper` the block `RetBlock`, `main` the report calls
(with identities from `n` on). -/
def finish (RetBlock : BasicBlock) (n : Nat) (F : Function) : Function :=
  let F1 := if F.name = "printf" then setPrintfAttrs F else F
  let F2 := if F1.name = "printf_wrapper" then F1.appendBlock RetBlock else F1
  if F2.name = "main" then { F2 with blocks := (hookReturns F2.blocks n).1 } else F2

/-- The declaration `getOrInsertFunction` appends when no function has the
name. -/
def declareIfMissing (fs : List Function) (Name : String) (Ty : FunctionType) : List Function :=
  if hasFunction fs Name then [] else [⟨Name, Ty, [], []⟩]

/-- The declarations the pass appends to the function list of `M`. -/
def newDeclarations (M : Module) : List Function :=
  (if hasGlobal M.globals "clock" then [] else declareIfMissing M.functions "clock" ClockTy) ++
  declareIfMissing M.functions "printf" PrintfTy ++
  declareIfMissing M.functions "printf_wrapper" PrintfWrapperTy

/-- The block `enter` that `runOnModule` builds for the module `M`. -/
def reportBlock (ord : IterOrder) (M : Module) : BasicBlock :=
  ⟨"enter", reportBody ord (perFunctionLoop M).state.CallCounterMap
    (perFunctionLoop M).state.FuncNameMap (perFunctionLoop M).state.nextId⟩

/-- Identity of the first report call `runOnModule` creates in `main`. -/
def hookStart (M : Module) : Nat :=
  (perFunctionLoop M).state.nextId + 2 + 2 * (perFunctionLoop M).state.CallCounterMap.length

/-- Block `B2` is block `B` with, between the instructions before its final
return and that return, one accumulation sequence on the timer slot `slot` and
the accumulator `Var`, followed by the instructions `hook`. -/
def AtReturn (slot : Nat) (Var : Value) (hook : List Instruction) (B B2 : BasicBlock) : Prop :=
  B2.name = B.name ∧
  ∃ init term n, B.insts = init ++ [term] ∧ term.opcode = Opcode.Ret ∧
    B2.insts = init ++ accumSeq slot Var n ++ hook ++ [term]

/-- The blocks `blocks` are those of the definition `F` after lines 63-85 (and,
when `hooked`, lines 174-181): the entry block has the entry sequence on the
timer slot `slot` at its first insertion point `ip`; then every block that
ends in a return has exactly one accumulation sequence on that slot and on the
accumulator of `F` (followed by one report call when `hooked`) between the
instructions before the return and the return, and every other block is as it
was. -/
def ReturnsInstrumented (F : Function) (blocks : List BasicBlock) (hooked : Bool) : Prop :=
  ∃ entry others ip slot, F.blocks = entry :: others ∧
    entry.getFirstInsertionPt = some ip ∧ ip < entry.insts.length ∧
    List.Forall₂ (fun B B1 =>
        (B.endsInRet = true → ∃ hook, AtReturn slot (counterVar F.name) hook B B1 ∧
          (if hooked = true then ∃ m, hook = [reportCall m] else hook = [])) ∧
        (B.endsInRet = false → B1 = B))
      (entry.insertBefore ip (entrySeq slot) :: others) blocks

/-- Block `B1` keeps block `B`: the same name, the same last instruction, and
the instructions of `B` in their order among those of `B1`. -/
def Keeps (B B1 : BasicBlock) : Prop :=
  B1.name = B.name ∧ B1.insts.getLast? = B.insts.getLast? ∧ B.insts.Sublist B1.insts

/-- Names of the function definitions of a function list, in order. -/
def definedNames (fs : List Function) : List String :=
  (fs.filter (fun F => !F.isDeclaration)).map Function.name

/-- Whether an instruction is a call whose callee is `printf_wrapper`. -/
def Instruction.isReportCall (I : Instruction) : Bool :=
  I.opcode == Opcode.Call && I.operands.getLast? == some PrintfWrapperF

def BasicBlock.reportCalls (BB : BasicBlock) : Nat := BB.insts.countP Instruction.isReportCall

def Function.reportCalls (F : Function) : Nat := (F.blocks.map BasicBlock.reportCalls).sum

/-! ## Execution of the inserted instructions -/

/-- Run-time values: a 64-bit integer, a double (taken as an exact rational),
the address of a stack slot, the address of a global. -/
inductive RVal where
  | int (n : Nat)
  | fp (q : ℚ)
  | stackPtr (slot : Nat)
  | globalPtr (g : GlobalId)

/-- Run-time state: the values of the executed instructions, the 64-bit
contents of the stack slots, the contents of the double globals, and the
readings the next calls of `clock` return. -/
structure Machine where
  regs : Nat → Option RVal
  stack : Nat → Option Nat
  doubles : GlobalId → Option ℚ
  clock : List Nat

def Machine.setReg (m : Machine) (id : Nat) (v : RVal) : Machine :=
  { m with regs := fun i => if i = id then some v else m.regs i }

def Machine.eval (m : Machine) : Value → Option RVal
  | Value.inst id => m.regs id
  | Value.global g => some (RVal.globalPtr g)
  | Value.constFP n => some (RVal.fp n)
  | _ => none

/-- Subtraction of 64-bit integers. -/
def sub64 (x y : Nat) : Nat := (((x : Int) - (y : Int)) % 2 ^ 64).toNat

/-- Execution of one instruction; `none` when the instruction is none of those
the pass inserts or its operands have the wrong kind. -/
def Machine.step (m : Machine) (I : Instruction) : Option Machine :=
  match I.opcode, I.operands with
  | Opcode.Alloca, [] =>
    some { m.setReg I.id (RVal.stackPtr I.id) with
           stack := fun a => if a = I.id then some 0 else m.stack a }
  | Opcode.Load, [p] =>
    match I.ty, m.eval p with
    | Ty.Int64, some (RVal.stackPtr a) => (m.stack a).map (fun v => m.setReg I.id (RVal.int v))
    | Ty.Double, some (RVal.globalPtr g) => (m.doubles g).map (fun v => m.setReg I.id (RVal.fp v))
    | _, _ => none
  | Opcode.Call, [callee] =>
    if callee = Clock then
      match m.clock with
      | t :: later => some { m.setReg I.id (RVal.int t) with clock := later }
      | [] => none
    else none
  | Opcode.Sub, [a, b] =>
    match m.eval a, m.eval b with
    | some (RVal.int x), some (RVal.int y) => some (m.setReg I.id (RVal.int (sub64 x y)))
    | _, _ => none
  | Opcode.UIToFP, [a] =>
    match m.eval a with
    | some (RVal.int x) => some (m.setReg I.id (RVal.fp (x : ℚ)))
    | _ => none
  | Opcode.FDiv, [a, b] =>
    match m.eval a, m.eval b with
    | some (RVal.fp x), some (RVal.fp y) => some (m.setReg I.id (RVal.fp (x / y)))
    | _, _ => none
  | Opcode.FAdd, [a, b] =>
    match m.eval a, m.eval b with
    | some (RVal.fp x), some (RVal.fp y) => some (m.setReg I.id (RVal.fp (x + y)))
    | _, _ => none
  | Opcode.Store, [v, p] =>
    match m.eval v, m.eval p with
    | some (RVal.int x), some (RVal.stackPtr a) =>
      some { m with stack := fun b => if b = a then some x else m.stack b }
    | some (RVal.fp x), some (RVal.globalPtr g) =>
      some { m with doubles := fun h => if h = g then some x else m.doubles h }
    | _, _ => none
  | _, _ => none

/-- Execution of a straight-line sequence of instructions. -/
def Machine.exec (m : Machine) : List Instruction → Option Machine
  | [] => some m
  | I :: rest => (m.step I).bind (fun m1 => m1.exec rest)

/-- A machine about to run the return sequence of the function named `fn`:
the timer slot `slot` holds `T0`, the accumulator holds `a` and the clock will
read `T1`. -/
def atReturn (slot : Nat) (fn : String) (T0 T1 : Nat) (a : ℚ) : Machine :=
  { regs := fun i => if i = slot then some (RVal.stackPtr slot) else none,
    stack := fun b => if b = slot then some T0 else none,
    doubles := fun g => if g = GlobalId.named (counterName fn) then some a else none,
    clock := [T1] }

/-- The accumulator of `fn` after one invocation that read the clock as `T0`
on entry and `T1` at the return. -/
def accumulate (fn : String) (a : ℚ) (T : Nat × Nat) : Option ℚ :=
  ((atReturn 0 fn T.1 T.2 a).exec (accumSeq 0 (counterVar fn) 1)).bind
    (fun m => m.doubles (GlobalId.named (counterName fn)))

/-- The successive values of the accumulator of `fn` over a series of
invocations, from the value `a`. -/
def accumulatorTrace (fn : String) : ℚ → List (Nat × Nat) → Option (List ℚ)
  | _, [] => some []
  | a, T :: later =>
    (accumulate fn a T).bind (fun a1 => (accumulatorTrace fn a1 later).map (fun t => a1 :: t))

/-! ## Sample modules -/

/-- The definition `foo`: an entry block that branches to a block that returns. -/
def demoFoo : Function :=
  ⟨"foo", ⟨Ty.Int32, [], false⟩, [],
    [ ⟨"entry", [⟨1, Opcode.Other 0, Ty.Int32, [Value.other 7]⟩,
                 ⟨2, Opcode.Br, Ty.Void, [Value.other 1]⟩]⟩,
      ⟨"exit", [⟨3, Opcode.Ret, Ty.Void, [Value.inst 1]⟩]⟩ ]⟩

/-- The definition `main`: one block that calls `foo` and returns. -/
def demoMain : Function :=
  ⟨"main", ⟨Ty.Int32, [], false⟩, [],
    [ ⟨"entry", [⟨4, Opcode.Call, Ty.Int32, [Value.global (GlobalId.named "foo")]⟩,
                 ⟨5, Opcode.Ret, Ty.Void, [Value.other 0]⟩]⟩ ]⟩

/-- A program with the definitions `foo` and `main`. -/
def demo : Module := ⟨[], [demoFoo, demoMain], 6⟩

/-- A program with one declaration and no definition. -/
def demoDeclarations : Module := ⟨[], [⟨"puts", ⟨Ty.Int32, [Ty.Ptr], false⟩, [], []⟩], 0⟩

/-- A program with the definition `foo` and no function `main`. -/
def demoNoMain : Module := ⟨[], [demoFoo], 6⟩

/-- The program `demo` with a declaration of `printf` that has no attribute. -/
def demoPrintf : Module := ⟨[], [⟨"printf", PrintfTy, [], []⟩, demoMain], 6⟩

/-- A program that defines `main` and a function `printf_wrapper` of its own. -/
def demoWrapper : Module :=
  ⟨[], [⟨"printf_wrapper", PrintfWrapperTy, [],
          [⟨"entry", [⟨1, Opcode.Ret, Ty.Void, []⟩]⟩]⟩, demoMain], 6⟩

/-- The module a run leaves when it returns. -/
def Result.module? : Result → Option Module
  | Result.returned _ M => some M
  | _ => none


/-! ## Vocabulary of the timer capture -/

/-- The instructions `new` of a block of the function named `fn` are the
instructions `old` it had, or `old` ends in a return and `new` has between
the instructions before that return and the return one accumulation sequence
whose begin load reads the timer slot `slot`, followed by nothing or by one
report call. -/
def OnlyAtReturn (slot : Nat) (fn : String) (old new : List Instruction) : Prop :=
  new = old ∨
  ∃ init term n hook, old = init ++ [term] ∧ term.opcode = Opcode.Ret ∧
    new = init ++ accumSeq slot (counterVar fn) n ++ hook ++ [term] ∧
    (hook = [] ∨ ∃ m, hook = [reportCall m])

/-- The blocks `blocks` are those of the definition `F` with the timer capture
of lines 63-65 in the entry block and nowhere else: the entry block is cut at
its first insertion point into `pre` (PHIs, then at most a leading
exception-handling pad) and `post`, and reads `pre`, the entry sequence on the
timer slot `slot` (allocation with identity `slot`, call of `clock`, store of
the reading to the slot), then `post`; in an entry block without
exception-handling pad `pre` holds PHIs only, so that the capture stands
before every other instruction; besides that the blocks differ from those of
`F` by what the returns get, which reads the same slot. -/
def TimerCaptured (F : Function) (blocks : List BasicBlock) : Prop :=
  ∃ entry others pre post slot entry1 others1,
    F.blocks = entry :: others ∧ blocks = entry1 :: others1 ∧
    entry.insts = pre ++ post ∧ post ≠ [] ∧
    entry.getFirstInsertionPt = some pre.length ∧
    (∀ I ∈ pre, I.opcode = Opcode.PHI ∨ I.opcode.isEHPad = true) ∧
    ((∀ I ∈ entry.insts, I.opcode.isEHPad = false) → ∀ I ∈ pre, I.opcode = Opcode.PHI) ∧
    entry1.name = entry.name ∧
    (∃ post1, entry1.insts = pre ++ entrySeq slot ++ post1 ∧
      OnlyAtReturn slot F.name post post1) ∧
    List.Forall₂ (fun B B1 => B1.name = B.name ∧ OnlyAtReturn slot F.name B.insts B1.insts)
      others others1

/-- Number of stack allocations in a list of blocks. -/
def allocas (bs : List BasicBlock) : Nat :=
  (bs.map (fun B => B.insts.countP (fun I => I.opcode == Opcode.Alloca))).sum

/-- Whether an instruction is a store whose address operand is `p`. -/
def Instruction.storesTo (I : Instruction) (p : Value) : Bool :=
  I.opcode == Opcode.Store && I.operands[1]? == some p

/-- The definition `spin`: one block that branches to itself, no return. -/
def demoSpin : Function :=
  ⟨"spin", ⟨Ty.Void, [], false⟩, [], [⟨"loop", [⟨1, Opcode.Br, Ty.Void, [Value.other 1]⟩]⟩]⟩

/-- A definition `main` that only returns. -/
def demoMainAlone : Function :=
  ⟨"main", ⟨Ty.Int32, [], false⟩, [], [⟨"entry", [⟨2, Opcode.Ret, Ty.Void, [Value.other 0]⟩]⟩]⟩

/-- A program with the definitions `spin`, which never returns, and `main`. -/
def demoNoReturn : Module := ⟨[], [demoSpin, demoMainAlone], 3⟩

/-- Whether the name of a global starts with `TimeFor_`. -/
def GlobalId.isCounter : GlobalId → Bool
  | GlobalId.named n => isCounterName n
  | GlobalId.anon _ => false

/-- Whether an operand that names a global names a global variable or a
function of the module. -/
def Value.resolves (M : Module) : Value → Bool
  | Value.global (GlobalId.named n) => hasGlobal M.globals n || hasFunction M.functions n
  | _ => true

/-- Every named global an instruction of the module has as an operand is a
symbol of the module.  In LLVM this holds of every module: an operand is a
pointer to the value it uses. -/
def OperandsResolve (M : Module) : Prop :=
  ∀ F ∈ M.functions, ∀ B ∈ F.blocks, ∀ I ∈ B.insts, ∀ v ∈ I.operands, v.resolves M = true

/-- The accumulator of the function named `fn` as `CreateGlobalCounter` makes
it: a double with common linkage, alignment 4 and the initial value 0. -/
def accumulatorGlobal (fn : String) : GlobalVariable :=
  ⟨GlobalId.named (counterName fn), Ty.Double, false, Linkage.Common, some 4,
    some (Init.fp 0), false⟩

/-- A string global as lines 115-120 and 129-134 make it. -/
def stringGlobal (Name Str : String) : GlobalVariable :=
  ⟨GlobalId.named Name, Ty.Int8Array (Str.utf8ByteSize + 1), false, Linkage.External, none,
    some (Init.str Str), false⟩

/-! ## The text of the report

The report is written by the C library function `printf`, which is not part
of the pass.  What follows reads the format string of the source the way
`printf` does, for the two conversions it uses. -/

/-- A piece of a `printf` format: a character written as it is, or one of the
conversions `%-Ns` and `%-Nf`, which write a string or a double left-justified
in a field of at least `N` columns. -/
inductive Directive where
  | lit (c : Char)
  | str (width : Nat)
  | float (width : Nat)
  deriving DecidableEq, Repr

/-- Where the reader of a format stands: in plain text, behind `%`, or in the
field width that follows `%-`. -/
inductive FormatState where
  | text
  | percent
  | width (w : Nat)

/-- Read a format made of plain characters and of the conversions `%-Ns` and
`%-Nf`; `none` for any other conversion. -/
def parseFormat : FormatState → List Char → Option (List Directive)
  | FormatState.text, [] => some []
  | FormatState.text, c :: rest =>
    if c = '%' then parseFormat FormatState.percent rest
    else (parseFormat FormatState.text rest).map (fun ds => Directive.lit c :: ds)
  | FormatState.percent, [] => none
  | FormatState.percent, c :: rest =>
    if c = '-' then parseFormat (FormatState.width 0) rest else none
  | FormatState.width _, [] => none
  | FormatState.width w, c :: rest =>
    if c = 's' then (parseFormat FormatState.text rest).map (fun ds => Directive.str w :: ds)
    else if c = 'f' then
      (parseFormat FormatState.text rest).map (fun ds => Directive.float w :: ds)
    else if c.isDigit then parseFormat (FormatState.width (10 * w + (c.toNat - '0'.toNat))) rest
    else none

/-- Number of columns `printf` has written on the current line when it comes
to the first `%-Nf` of the format, its string argument being `name`: a plain
character takes one column, a string left-justified in `N` columns takes `N`
columns, or its own length when it is longer. -/
def numericColumn (name : String) : List Directive → Nat
  | [] => 0
  | Directive.lit _ :: rest => 1 + numericColumn name rest
  | Directive.str w :: rest => max w name.length + numericColumn name rest
  | Directive.float _ :: _ => 0

/-- The lines of a text in which every line ends in a newline; `cur` is the
part of the current line already read. -/
def splitLines : List Char → List Char → Option (List (List Char))
  | cur, [] => if cur.isEmpty then some [] else none
  | cur, c :: rest =>
    if c = '\n' then (splitLines [] rest).map (fun ls => cur :: ls)
    else splitLines (cur ++ [c]) rest

/-- Column at which the text `pat` first starts in a line. -/
def columnOf (pat : List Char) : List Char → Option Nat
  | [] => none
  | c :: rest =>
    if pat.isPrefixOf (c :: rest) then some 0 else (columnOf pat rest).map (· + 1)

/-! # Theorems -/


/-! ## Blocks and insertion -/

theorem insertBefore_insts (BB : BasicBlock) (idx : Nat) (new : List Instruction) :
    (BB.insertBefore idx new).insts = BB.insts.take idx ++ new ++ BB.insts.drop idx := rfl

theorem insertBefore_sublist (BB : BasicBlock) (idx : Nat) (new : List Instruction) :
    BB.insts.Sublist (BB.insertBefore idx new).insts := by
  rw [insertBefore_insts]
  conv_lhs => rw [← List.take_append_drop idx BB.insts]
  exact List.Sublist.append ((List.sublist_append_left _ _)) (List.Sublist.refl _)

theorem insertBefore_getLast? (BB : BasicBlock) (idx : Nat) (new : List Instruction)
    (h : idx < BB.insts.length) :
    (BB.insertBefore idx new).insts.getLast? = BB.insts.getLast? := by
  rw [insertBefore_insts]
  have hne : BB.insts.drop idx ≠ [] := by
    intro h0
    have := congrArg List.length h0
    simp at this
    omega
  rw [List.getLast?_append_of_ne_nil _ hne]
  conv_rhs => rw [← List.take_append_drop idx BB.insts]
  rw [List.getLast?_append_of_ne_nil _ hne]

theorem insertBefore_reportCalls (BB : BasicBlock) (idx : Nat) (new : List Instruction) :
    (BB.insertBefore idx new).reportCalls
      = BB.reportCalls + new.countP Instruction.isReportCall := by
  unfold BasicBlock.reportCalls
  rw [insertBefore_insts]
  conv_rhs => rw [← List.take_append_drop idx BB.insts]
  simp only [List.countP_append]
  omega

theorem endsInRet_of_getLast? {B B1 : BasicBlock} (h : B1.insts.getLast? = B.insts.getLast?) :
    B1.endsInRet = B.endsInRet := by
  unfold BasicBlock.endsInRet BasicBlock.getTerminator
  rw [h]

theorem endsInRet_split {B : BasicBlock} (h : B.endsInRet = true) :
    ∃ init term, B.insts = init ++ [term] ∧ term.opcode = Opcode.Ret := by
  unfold BasicBlock.endsInRet BasicBlock.getTerminator at h
  cases hl : B.insts.getLast? with
  | none => rw [hl] at h; simp at h
  | some I =>
    rw [hl] at h
    have hne : B.insts ≠ [] := by
      intro h0; rw [h0] at hl; simp at hl
    refine ⟨B.insts.dropLast, I, ?_, ?_⟩
    · have h1 := List.dropLast_append_getLast? I (by simpa using hl)
      exact h1.symm
    · by_cases ht : I.opcode.isTerminator = true
      · simp [ht] at h; exact h
      · simp [ht] at h

theorem insertBefore_last (B : BasicBlock) (init : List Instruction) (term : Instruction)
    (new : List Instruction) (h : B.insts = init ++ [term]) :
    (B.insertBefore (B.insts.length - 1) new).insts = init ++ new ++ [term] := by
  rw [insertBefore_insts, h]
  simp

theorem insertBefore_last_getLast? (B : BasicBlock) (new : List Instruction)
    (h : B.endsInRet = true) :
    (B.insertBefore (B.insts.length - 1) new).insts.getLast? = B.insts.getLast? := by
  obtain ⟨init, term, hi, _⟩ := endsInRet_split h
  apply insertBefore_getLast?
  rw [hi]; simp


theorem Keeps.refl (B : BasicBlock) : Keeps B B := ⟨rfl, rfl, List.Sublist.refl _⟩

theorem Keeps.trans {B B1 B2 : BasicBlock} (h1 : Keeps B B1) (h2 : Keeps B1 B2) : Keeps B B2 :=
  ⟨h2.1.trans h1.1, h2.2.1.trans h1.2.1, h1.2.2.trans h2.2.2⟩

theorem Keeps.endsInRet {B B1 : BasicBlock} (h : Keeps B B1) : B1.endsInRet = B.endsInRet :=
  endsInRet_of_getLast? h.2.1

theorem keeps_insertBefore (B : BasicBlock) (idx : Nat) (new : List Instruction)
    (h : idx < B.insts.length) : Keeps B (B.insertBefore idx new) :=
  ⟨rfl, insertBefore_getLast? B idx new h, insertBefore_sublist B idx new⟩

theorem keeps_insertBefore_last (B : BasicBlock) (new : List Instruction)
    (h : B.endsInRet = true) : Keeps B (B.insertBefore (B.insts.length - 1) new) :=
  ⟨rfl, insertBefore_last_getLast? B new h, insertBefore_sublist B _ new⟩

theorem firstInsertionIdx_lt : ∀ (l : List Instruction) (k : Nat),
    firstInsertionIdx l = some k → k < l.length
  | [], k, h => by simp [firstInsertionIdx] at h
  | I :: rest, k, h => by
    unfold firstInsertionIdx at h
    by_cases h1 : I.opcode = Opcode.PHI
    · rw [if_pos h1] at h
      cases hr : firstInsertionIdx rest with
      | none => rw [hr] at h; simp at h
      | some k1 =>
        rw [hr] at h
        simp at h
        have := firstInsertionIdx_lt rest k1 hr
        simp; omega
    · rw [if_neg h1] at h
      by_cases h2 : I.opcode.isEHPad = true
      · rw [if_pos h2] at h
        cases rest with
        | nil => simp at h
        | cons a t => simp at h; subst h; simp
      · rw [if_neg h2] at h
        simp at h; subst h; simp

/-- Inserting, at or behind the insertion point, instructions whose first is
neither a PHI nor a pad leaves the insertion point where it was. -/
theorem firstInsertionIdx_insert (J : Instruction) (new : List Instruction)
    (hJ1 : J.opcode ≠ Opcode.PHI) (hJ2 : J.opcode.isEHPad = false) :
    ∀ (l : List Instruction) (k idx : Nat), firstInsertionIdx l = some k → k ≤ idx →
      firstInsertionIdx (l.take idx ++ (J :: new) ++ l.drop idx) = some k
  | [], k, idx, h, _ => by simp [firstInsertionIdx] at h
  | I :: rest, k, idx, h, hk => by
    unfold firstInsertionIdx at h
    by_cases h1 : I.opcode = Opcode.PHI
    · rw [if_pos h1] at h
      cases hr : firstInsertionIdx rest with
      | none => rw [hr] at h; simp at h
      | some k1 =>
        rw [hr] at h
        simp at h
        subst h
        cases idx with
        | zero => omega
        | succ i =>
          have ih := firstInsertionIdx_insert J new hJ1 hJ2 rest k1 i hr (by omega)
          simp only [List.take_succ_cons, List.drop_succ_cons, List.cons_append]
          unfold firstInsertionIdx
          rw [if_pos h1]
          simp only [List.append_assoc, List.cons_append] at ih ⊢
          rw [ih]; rfl
    · rw [if_neg h1] at h
      by_cases h2 : I.opcode.isEHPad = true
      · rw [if_pos h2] at h
        cases rest with
        | nil => simp at h
        | cons a t =>
          simp at h
          subst h
          cases idx with
          | zero => omega
          | succ i =>
            simp only [List.take_succ_cons, List.drop_succ_cons, List.cons_append]
            unfold firstInsertionIdx
            rw [if_neg h1, if_pos h2]
            cases i <;> simp
      · rw [if_neg h2] at h
        simp at h
        subst h
        cases idx with
        | zero =>
          simp only [List.take_zero, List.drop_zero, List.nil_append, List.cons_append]
          unfold firstInsertionIdx
          rw [if_neg hJ1]
          simp [hJ2]
        | succ i =>
          simp only [List.take_succ_cons, List.drop_succ_cons, List.cons_append]
          unfold firstInsertionIdx
          rw [if_neg h1, if_neg h2]

theorem instrumentReturns_forall₂ (slot : Nat) (Var : Value) :
    ∀ (bs : List BasicBlock) (n : Nat),
      List.Forall₂ (fun B B1 =>
          (B.endsInRet = true ∧
            ∃ m, B1 = B.insertBefore (B.insts.length - 1) (accumSeq slot Var m)) ∨
          (B.endsInRet = false ∧ B1 = B))
        bs (instrumentReturns slot Var bs n).1
  | [], n => by simp [instrumentReturns]
  | B :: rest, n => by
    unfold instrumentReturns
    by_cases h : B.endsInRet = true
    · rw [if_pos h]
      exact List.Forall₂.cons (Or.inl ⟨h, n, rfl⟩) (instrumentReturns_forall₂ slot Var rest _)
    · rw [if_neg h]
      exact List.Forall₂.cons (Or.inr ⟨by simpa using h, rfl⟩)
        (instrumentReturns_forall₂ slot Var rest _)

theorem hookReturns_forall₂ :
    ∀ (bs : List BasicBlock) (n : Nat),
      List.Forall₂ (fun B B1 =>
          (B.endsInRet = true ∧ ∃ m, B1 = B.insertBefore (B.insts.length - 1) [reportCall m]) ∨
          (B.endsInRet = false ∧ B1 = B))
        bs (hookReturns bs n).1
  | [], n => by simp [hookReturns]
  | B :: rest, n => by
    unfold hookReturns
    by_cases h : B.endsInRet = true
    · rw [if_pos h]
      exact List.Forall₂.cons (Or.inl ⟨h, n, rfl⟩) (hookReturns_forall₂ rest _)
    · rw [if_neg h]
      exact List.Forall₂.cons (Or.inr ⟨by simpa using h, rfl⟩) (hookReturns_forall₂ rest _)

theorem accumSeq_reportCalls (slot : Nat) (Var : Value) (n : Nat) :
    (accumSeq slot Var n).countP Instruction.isReportCall = 0 := by
  simp [accumSeq, Instruction.isReportCall, List.countP_cons, Clock, PrintfWrapperF]

theorem entrySeq_reportCalls (n : Nat) :
    (entrySeq n).countP Instruction.isReportCall = 0 := by
  simp [entrySeq, Instruction.isReportCall, List.countP_cons, Clock, PrintfWrapperF]

theorem reportCall_isReportCall (n : Nat) : (reportCall n).isReportCall = true := by
  simp [reportCall, Instruction.isReportCall]


/-! ## Names -/

theorem isCounterName_counterName (fn : String) : isCounterName (counterName fn) = true := by
  unfold isCounterName counterName
  rw [String.data_append, List.isPrefixOf_iff_prefix]
  exact List.prefix_append _ _

theorem counterName_ne {fn n : String} (h : isCounterName n = false) : counterName fn ≠ n := by
  intro h1
  rw [← h1, isCounterName_counterName] at h
  exact Bool.noConfusion h

theorem counterName_injective {a b : String} (h : counterName a = counterName b) : a = b := by
  unfold counterName at h
  have h1 := congrArg String.data h
  rw [String.data_append, String.data_append] at h1
  exact String.ext (List.append_cancel_left h1)

theorem hasFunction_iff (fs : List Function) (n : String) :
    hasFunction fs n = true ↔ n ∈ fs.map Function.name := by
  unfold hasFunction
  simp only [List.any_eq_true, beq_iff_eq, List.mem_map]

theorem hasGlobal_iff (gs : List GlobalVariable) (n : String) :
    hasGlobal gs n = true ↔ GlobalId.named n ∈ gs.map GlobalVariable.gid := by
  unfold hasGlobal
  simp only [List.any_eq_true, beq_iff_eq, List.mem_map]

theorem hasGlobal_congr {gs gs1 : List GlobalVariable} (n : String)
    (h : gs1.map GlobalVariable.gid = gs.map GlobalVariable.gid) :
    hasGlobal gs1 n = hasGlobal gs n := by
  rw [Bool.eq_iff_iff, hasGlobal_iff, hasGlobal_iff, h]

theorem hasGlobal_append (gs gs1 : List GlobalVariable) (n : String) :
    hasGlobal (gs ++ gs1) n = (hasGlobal gs n || hasGlobal gs1 n) := by
  unfold hasGlobal; simp

theorem hasFunction_append (fs fs1 : List Function) (n : String) :
    hasFunction (fs ++ fs1) n = (hasFunction fs n || hasFunction fs1 n) := by
  unfold hasFunction; simp

theorem updateNamedGlobal_gid (Name : String) (f : GlobalVariable → GlobalVariable)
    (hf : ∀ g, (f g).gid = g.gid) :
    ∀ gs, (updateNamedGlobal Name f gs).map GlobalVariable.gid = gs.map GlobalVariable.gid
  | [] => rfl
  | g :: rest => by
    unfold updateNamedGlobal
    by_cases h : g.gid = GlobalId.named Name
    · rw [if_pos h]; simp [hf]
    · rw [if_neg h]; simp [updateNamedGlobal_gid Name f hf rest]

theorem updateNamedFunction_name (Name : String) (f : Function → Function)
    (hf : ∀ F, (f F).name = F.name) :
    ∀ fs, (updateNamedFunction Name f fs).map Function.name = fs.map Function.name
  | [] => rfl
  | F :: rest => by
    unfold updateNamedFunction
    by_cases h : F.name = Name
    · rw [if_pos h]; simp [hf]
    · rw [if_neg h]; simp [updateNamedFunction_name Name f hf rest]

/-- With unique names, updating the function of a name is a map. -/
theorem updateNamedFunction_eq_map (Name : String) (f : Function → Function) :
    ∀ fs : List Function, (fs.map Function.name).Nodup →
      updateNamedFunction Name f fs = fs.map (fun F => if F.name = Name then f F else F)
  | [], _ => rfl
  | F :: rest, hnd => by
    have hnd1 : F.name ∉ rest.map Function.name ∧ (rest.map Function.name).Nodup :=
      List.nodup_cons.mp hnd
    unfold updateNamedFunction
    by_cases h : F.name = Name
    · rw [if_pos h]
      simp only [List.map_cons, if_pos h]
      congr 1
      symm
      conv_rhs => rw [← List.map_id rest]
      apply List.map_congr_left
      intro G hG
      have : G.name ≠ Name := by
        intro hGn
        apply hnd1.1
        rw [h, ← hGn]
        exact List.mem_map_of_mem _ hG
      simp [this]
    · rw [if_neg h]
      simp only [List.map_cons, if_neg h]
      rw [updateNamedFunction_eq_map Name f rest hnd1.2]

theorem getFunction_eq_some_of_mem {fs : List Function} {F : Function}
    (hnd : (fs.map Function.name).Nodup) (hF : F ∈ fs) : getFunction fs F.name = some F := by
  induction fs with
  | nil => simp at hF
  | cons G rest ih =>
    have hnd1 : G.name ∉ rest.map Function.name ∧ (rest.map Function.name).Nodup :=
      List.nodup_cons.mp hnd
    unfold getFunction
    rw [List.find?_cons]
    by_cases h : G.name = F.name
    · have hGF : F = G := by
        rcases List.mem_cons.mp hF with h1 | h1
        · exact h1
        · exfalso; apply hnd1.1; rw [h]; exact List.mem_map_of_mem _ h1
      simp [h, hGF]
    · have h1 : F ∈ rest := by
        rcases List.mem_cons.mp hF with h1 | h1
        · exact absurd (by rw [h1]) h
        · exact h1
      have hb : (G.name == F.name) = false := by simpa using h
      rw [hb]
      exact ih hnd1.2 h1


/-! ## The string maps -/

theorem StringMap.keys_set : ∀ (m : StringMap) (k : String) (v : Value),
    (m.set k v).keys = if k ∈ m.keys then m.keys else m.keys ++ [k]
  | [], k, v => by simp [StringMap.set, StringMap.keys]
  | (k0, v0) :: rest, k, v => by
    have ih := StringMap.keys_set rest k v
    unfold StringMap.keys at ih ⊢
    unfold StringMap.set
    by_cases h : k0 = k
    · rw [if_pos h]; simp [h]
    · rw [if_neg h]
      have h1 : ¬ k = k0 := fun e => h e.symm
      by_cases hm : k ∈ List.map Prod.fst rest
      · rw [if_pos hm] at ih
        simp [ih, hm]
      · rw [if_neg hm] at ih
        simp [ih, hm, h1]

theorem StringMap.mem_set {m : StringMap} {k : String} {v : Value} {e : String × Value}
    (h : e ∈ m.set k v) : e = (k, v) ∨ e ∈ m := by
  induction m with
  | nil => simp [StringMap.set] at h; exact Or.inl h
  | cons a rest ih =>
    obtain ⟨k0, v0⟩ := a
    unfold StringMap.set at h
    by_cases hk : k0 = k
    · rw [if_pos hk] at h
      rcases List.mem_cons.mp h with h1 | h1
      · left; rw [h1, hk]
      · right; exact List.mem_cons_of_mem _ h1
    · rw [if_neg hk] at h
      rcases List.mem_cons.mp h with h1 | h1
      · right; rw [h1]; exact List.mem_cons_self _ _
      · rcases ih h1 with h2 | h2
        · exact Or.inl h2
        · exact Or.inr (List.mem_cons_of_mem _ h2)

theorem StringMap.get_set_self : ∀ (m : StringMap) (k : String) (v : Value),
    (m.set k v).get k = v
  | [], k, v => by simp [StringMap.set, StringMap.get]
  | (k0, v0) :: rest, k, v => by
    unfold StringMap.set
    by_cases h : k0 = k
    · rw [if_pos h]; simp [StringMap.get, h]
    · rw [if_neg h]; simp [StringMap.get, h, StringMap.get_set_self rest k v]

theorem StringMap.get_set_ne : ∀ (m : StringMap) (k k1 : String) (v : Value), k ≠ k1 →
    (m.set k v).get k1 = m.get k1
  | [], k, k1, v, hne => by simp [StringMap.set, StringMap.get, hne]
  | (k0, v0) :: rest, k, k1, v, hne => by
    unfold StringMap.set
    by_cases h : k0 = k
    · rw [if_pos h]
      have : ¬ k0 = k1 := by rw [h]; exact hne
      simp [StringMap.get, this]
    · rw [if_neg h]
      by_cases h1 : k0 = k1
      · simp [StringMap.get, h1]
      · simp [StringMap.get, h1, StringMap.get_set_ne rest k k1 v hne]

/-- A key of the map reads as some value stored under it. -/
theorem StringMap.get_mem : ∀ (m : StringMap) (k : String), k ∈ m.keys → (k, m.get k) ∈ m
  | [], k, h => by simp [StringMap.keys] at h
  | (k0, v0) :: rest, k, h => by
    by_cases h1 : k0 = k
    · simp [StringMap.get, h1]
    · have h2 : k ∈ StringMap.keys rest := by
        unfold StringMap.keys at h ⊢
        simp only [List.map_cons, List.mem_cons] at h
        rcases h with h | h
        · exact absurd h.symm h1
        · exact h
      simp only [StringMap.get, if_neg h1]
      exact List.mem_cons_of_mem _ (StringMap.get_mem rest k h2)

/-! ## Global variables -/

theorem mem_updateNamedGlobal_of_ne (Name : String) (f : GlobalVariable → GlobalVariable)
    (g : GlobalVariable) (hg : g.gid ≠ GlobalId.named Name) :
    ∀ gs, g ∈ gs → g ∈ updateNamedGlobal Name f gs
  | [], h => by simp at h
  | g0 :: rest, h => by
    unfold updateNamedGlobal
    by_cases h0 : g0.gid = GlobalId.named Name
    · rw [if_pos h0]
      rcases List.mem_cons.mp h with h1 | h1
      · rw [h1] at hg; exact absurd h0 hg
      · exact List.mem_cons_of_mem _ h1
    · rw [if_neg h0]
      rcases List.mem_cons.mp h with h1 | h1
      · rw [h1]; exact List.mem_cons_self _ _
      · exact List.mem_cons_of_mem _ (mem_updateNamedGlobal_of_ne Name f g hg rest h1)

/-- After the update some variable of that name is the image of a variable of
that name. -/
theorem updateNamedGlobal_mem (Name : String) (f : GlobalVariable → GlobalVariable) :
    ∀ gs, hasGlobal gs Name = true →
      ∃ g, g.gid = GlobalId.named Name ∧ f g ∈ updateNamedGlobal Name f gs
  | [], h => by simp [hasGlobal] at h
  | g0 :: rest, h => by
    unfold updateNamedGlobal
    by_cases h0 : g0.gid = GlobalId.named Name
    · rw [if_pos h0]; exact ⟨g0, h0, List.mem_cons_self _ _⟩
    · rw [if_neg h0]
      have h1 : hasGlobal rest Name = true := by
        unfold hasGlobal at h ⊢
        simp only [List.any_cons, Bool.or_eq_true, beq_iff_eq] at h
        rcases h with h | h
        · exact absurd h h0
        · exact h
      obtain ⟨g, hg, hm⟩ := updateNamedGlobal_mem Name f rest h1
      exact ⟨g, hg, List.mem_cons_of_mem _ hm⟩

/-- What `getOrInsertGlobal` gives when it is followed. -/
theorem getOrInsertGlobal_spec {fnNames : List String} {gs gs1 : List GlobalVariable}
    {Name : String} {ty : Ty} (h : getOrInsertGlobal fnNames gs Name ty = some gs1) :
    hasGlobal gs1 Name = true ∧
    (gs1 = gs ∨ (hasGlobal gs Name = false ∧
      gs1 = gs ++ [⟨GlobalId.named Name, ty, false, Linkage.External, none, none, false⟩])) := by
  unfold getOrInsertGlobal at h
  by_cases h1 : hasGlobal gs Name = true
  · rw [if_pos h1] at h
    simp at h; subst h
    exact ⟨h1, Or.inl rfl⟩
  · rw [if_neg h1] at h
    by_cases h2 : fnNames.contains Name = true
    · rw [if_pos h2] at h; simp at h
    · rw [if_neg h2] at h
      simp at h; subst h
      refine ⟨?_, Or.inr ⟨by simpa using h1, rfl⟩⟩
      rw [hasGlobal_append]
      simp [hasGlobal]

theorem getOrInsertGlobal_isSome (fnNames : List String) (gs : List GlobalVariable)
    {Name : String} (ty : Ty) (h : Name ∉ fnNames) :
    ∃ gs1, getOrInsertGlobal fnNames gs Name ty = some gs1 := by
  unfold getOrInsertGlobal
  by_cases h1 : hasGlobal gs Name = true
  · rw [if_pos h1]; exact ⟨_, rfl⟩
  · rw [if_neg h1]
    have h2 : ¬ fnNames.contains Name = true := by simpa using h
    rw [if_neg h2]; exact ⟨_, rfl⟩

theorem getOrInsertGlobal_hasGlobal {fnNames : List String} {gs gs1 : List GlobalVariable}
    {Name : String} {ty : Ty} (h : getOrInsertGlobal fnNames gs Name ty = some gs1)
    (n : String) (hn : n ≠ Name) : hasGlobal gs1 n = hasGlobal gs n := by
  rcases (getOrInsertGlobal_spec h).2 with h1 | ⟨_, h1⟩
  · rw [h1]
  · rw [h1, hasGlobal_append]
    have : hasGlobal [⟨GlobalId.named Name, ty, false, Linkage.External, none, none, false⟩] n
        = false := by
      simp [hasGlobal]; exact fun e => hn e.symm
    rw [this]; simp

theorem getOrInsertGlobal_mem {fnNames : List String} {gs gs1 : List GlobalVariable}
    {Name : String} {ty : Ty} (h : getOrInsertGlobal fnNames gs Name ty = some gs1)
    {g : GlobalVariable} (hg : g ∈ gs) : g ∈ gs1 := by
  rcases (getOrInsertGlobal_spec h).2 with h1 | ⟨_, h1⟩
  · rw [h1]; exact hg
  · rw [h1]; exact List.mem_append_left _ hg


/-! ## `CreateGlobalCounter` and the body of the loop of STEP 1 -/

theorem CreateGlobalCounter_isSome {fnNames : List String} (gs : List GlobalVariable)
    {Name : String} (h : Name ∉ fnNames) :
    ∃ gs1, CreateGlobalCounter fnNames gs Name
      = some (gs1, Value.global (GlobalId.named Name)) := by
  obtain ⟨gs0, h0⟩ := getOrInsertGlobal_isSome fnNames gs Ty.Double h
  unfold CreateGlobalCounter
  rw [h0]
  exact ⟨_, rfl⟩

/-- What `CreateGlobalCounter` gives when it does not fault: the operand is
the variable of that name, which is in the list as a common variable
initialised to 0; the variables of other names stay as they are. -/
theorem CreateGlobalCounter_spec {fnNames : List String} {gs gs1 : List GlobalVariable}
    {Name : String} {Var : Value} (h : CreateGlobalCounter fnNames gs Name = some (gs1, Var)) :
    Var = Value.global (GlobalId.named Name) ∧
    (∃ g ∈ gs1, g.gid = GlobalId.named Name ∧ g.linkage = Linkage.Common ∧
      g.align = some 4 ∧ g.init = some (Init.fp 0)) ∧
    (∀ g ∈ gs, g.gid ≠ GlobalId.named Name → g ∈ gs1) ∧
    (∀ n, n ≠ Name → hasGlobal gs1 n = hasGlobal gs n) := by
  unfold CreateGlobalCounter at h
  cases h0 : getOrInsertGlobal fnNames gs Name Ty.Double with
  | none => rw [h0] at h; simp at h
  | some gs0 =>
    rw [h0] at h
    simp only [Option.some.injEq, Prod.mk.injEq] at h
    obtain ⟨hgs, hv⟩ := h
    subst hgs
    refine ⟨hv.symm, ?_, ?_, ?_⟩
    · obtain ⟨g, hg, hm⟩ := updateNamedGlobal_mem Name defineCounter gs0
        (getOrInsertGlobal_spec h0).1
      exact ⟨_, hm, hg, rfl, rfl, rfl⟩
    · intro g hg hne
      exact mem_updateNamedGlobal_of_ne Name _ g hne gs0 (getOrInsertGlobal_mem h0 hg)
    · intro n hn
      exact (hasGlobal_congr n (updateNamedGlobal_gid Name defineCounter (fun _ => rfl) gs0)).trans
        (getOrInsertGlobal_hasGlobal h0 n hn)

theorem instrumentReturns_nextId (slot : Nat) (Var : Value) :
    ∀ (bs : List BasicBlock) (n : Nat), n ≤ (instrumentReturns slot Var bs n).2
  | [], n => by simp [instrumentReturns]
  | B :: rest, n => by
    unfold instrumentReturns
    by_cases h : B.endsInRet = true
    · rw [if_pos h]
      have := instrumentReturns_nextId slot Var rest (n + 8)
      simp only; omega
    · rw [if_neg h]
      exact instrumentReturns_nextId slot Var rest n

theorem visitFunction_spec {fnNames : List String} {F F1 : Function} {s s1 : LoopState}
    (h : visitFunction fnNames F s = some (F1, s1)) :
    F1 = instrumented F s.nextId ∧
    ∃ gs1, CreateGlobalCounter fnNames s.globals (counterName F.name)
        = some (gs1, counterVar F.name) ∧
      s1.globals = gs1 ++ [globalString s.nextId F.name] ∧
      s1.CallCounterMap = s.CallCounterMap.set F.name (counterVar F.name) ∧
      s1.FuncNameMap = s.FuncNameMap.set F.name (Value.global (GlobalId.anon s.nextId)) ∧
      s1.Instrumented = true ∧ s.nextId < s1.nextId := by
  unfold visitFunction at h
  cases hb : F.blocks with
  | nil => rw [hb] at h; simp at h
  | cons entry others =>
    rw [hb] at h
    simp only at h
    cases hip : entry.getFirstInsertionPt with
    | none => rw [hip] at h; simp at h
    | some ip =>
      rw [hip] at h
      simp only at h
      cases hc : CreateGlobalCounter fnNames s.globals (counterName F.name) with
      | none => rw [hc] at h; simp at h
      | some p =>
        obtain ⟨gs1, Var⟩ := p
        rw [hc] at h
        simp only [Option.some.injEq, Prod.mk.injEq] at h
        obtain ⟨hF, hs⟩ := h
        have hv : Var = counterVar F.name := (CreateGlobalCounter_spec hc).1
        subst hv
        refine ⟨?_, gs1, rfl, ?_⟩
        · rw [← hF]
          unfold instrumented
          rw [hb]
          simp only [hip]
        · rw [← hs]
          refine ⟨rfl, rfl, rfl, rfl, ?_⟩
          have := instrumentReturns_nextId (s.nextId + 1) (counterVar F.name)
            (entry.insertBefore ip (entrySeq (s.nextId + 1)) :: others) (s.nextId + 4)
          simp only
          omega

theorem visitFunction_isSome {fnNames : List String} {F : Function} (s : LoopState)
    (hdef : F.isDeclaration = false) (hentry : F.entryInsertable = true)
    (hcn : counterName F.name ∉ fnNames) :
    ∃ p, visitFunction fnNames F s = some p := by
  unfold visitFunction
  cases hb : F.blocks with
  | nil => simp [Function.isDeclaration, hb] at hdef
  | cons entry others =>
    simp only
    cases hip : entry.getFirstInsertionPt with
    | none => simp [Function.entryInsertable, hb, hip] at hentry
    | some ip =>
      simp only
      obtain ⟨gs1, h1⟩ := CreateGlobalCounter_isSome s.globals hcn
      rw [h1]
      exact ⟨_, rfl⟩

/-! ## The function after the loop body -/

theorem instrumented_name (F : Function) (k : Nat) : (instrumented F k).name = F.name := by
  unfold instrumented
  cases F.blocks with
  | nil => rfl
  | cons entry others =>
    simp only
    cases entry.getFirstInsertionPt <;> rfl

theorem instrumented_ty (F : Function) (k : Nat) : (instrumented F k).ty = F.ty := by
  unfold instrumented
  cases F.blocks with
  | nil => rfl
  | cons entry others =>
    simp only
    cases entry.getFirstInsertionPt <;> rfl

theorem instrumented_attrs (F : Function) (k : Nat) : (instrumented F k).attrs = F.attrs := by
  unfold instrumented
  cases F.blocks with
  | nil => rfl
  | cons entry others =>
    simp only
    cases entry.getFirstInsertionPt <;> rfl

theorem instrumented_of_declaration (F : Function) (k : Nat) (h : F.isDeclaration = true) :
    instrumented F k = F := by
  unfold instrumented
  cases hb : F.blocks with
  | nil => rfl
  | cons entry others => simp [Function.isDeclaration, hb] at h

theorem instrumented_blocks (F : Function) (k : Nat) (entry : BasicBlock)
    (others : List BasicBlock) (ip : Nat) (hb : F.blocks = entry :: others)
    (hip : entry.getFirstInsertionPt = some ip) :
    (instrumented F k).blocks = (instrumentReturns (k + 1) (counterVar F.name)
      (entry.insertBefore ip (entrySeq (k + 1)) :: others) (k + 4)).1 := by
  unfold instrumented
  rw [hb]
  simp only [hip]


/-! ## The loop of STEP 1 -/

theorem forEachFunction_cons_declaration (fnNames : List String) (F : Function)
    (rest : List Function) (s : LoopState) (hd : F.isDeclaration = true) :
    forEachFunction fnNames (F :: rest) s
      = ⟨F :: (forEachFunction fnNames rest s).functions, (forEachFunction fnNames rest s).state,
          (forEachFunction fnNames rest s).completed⟩ := by
  rw [forEachFunction, if_pos hd]

theorem forEachFunction_cons_none (fnNames : List String) (F : Function)
    (rest : List Function) (s : LoopState) (hd : ¬ F.isDeclaration = true)
    (hv : visitFunction fnNames F s = none) :
    forEachFunction fnNames (F :: rest) s = ⟨F :: rest, s, false⟩ := by
  rw [forEachFunction, if_neg hd, hv]

theorem forEachFunction_cons_some (fnNames : List String) (F : Function)
    (rest : List Function) (s : LoopState) (hd : ¬ F.isDeclaration = true)
    (F1 : Function) (s1 : LoopState) (hv : visitFunction fnNames F s = some (F1, s1)) :
    forEachFunction fnNames (F :: rest) s
      = ⟨F1 :: (forEachFunction fnNames rest s1).functions,
          (forEachFunction fnNames rest s1).state,
          (forEachFunction fnNames rest s1).completed⟩ := by
  rw [forEachFunction, if_neg hd, hv]

theorem forEachFunction_completed (fnNames : List String)
    (hcn : ∀ n ∈ fnNames, isCounterName n = false) :
    ∀ (fs : List Function) (s : LoopState), (∀ F ∈ fs, F.entryInsertable = true) →
      (forEachFunction fnNames fs s).completed = true
  | [], s, _ => rfl
  | F :: rest, s, h => by
    have hrest : ∀ G ∈ rest, G.entryInsertable = true :=
      fun G hG => h G (List.mem_cons_of_mem _ hG)
    by_cases hd : F.isDeclaration = true
    · rw [forEachFunction_cons_declaration fnNames F rest s hd]
      exact forEachFunction_completed fnNames hcn rest s hrest
    · have hcn1 : counterName F.name ∉ fnNames := by
        intro hm
        have := hcn _ hm
        rw [isCounterName_counterName] at this
        exact Bool.noConfusion this
      obtain ⟨⟨F1, s1⟩, hp⟩ := visitFunction_isSome s (by simpa using hd)
        (h F (List.mem_cons_self _ _)) hcn1
      rw [forEachFunction_cons_some fnNames F rest s hd F1 s1 hp]
      exact forEachFunction_completed fnNames hcn rest s1 hrest

theorem forEachFunction_functions (fnNames : List String) :
    ∀ (fs : List Function) (s : LoopState),
      (forEachFunction fnNames fs s).completed = true →
      List.Forall₂ (fun F F1 => ∃ k, F1 = instrumented F k) fs
        (forEachFunction fnNames fs s).functions
  | [], s, _ => by simp [forEachFunction]
  | F :: rest, s, h => by
    by_cases hd : F.isDeclaration = true
    · rw [forEachFunction_cons_declaration fnNames F rest s hd] at h ⊢
      exact List.Forall₂.cons ⟨0, (instrumented_of_declaration F 0 hd).symm⟩
        (forEachFunction_functions fnNames rest s h)
    · cases hv : visitFunction fnNames F s with
      | none => rw [forEachFunction_cons_none fnNames F rest s hd hv] at h; simp at h
      | some p =>
        obtain ⟨F1, s1⟩ := p
        rw [forEachFunction_cons_some fnNames F rest s hd F1 s1 hv] at h ⊢
        exact List.Forall₂.cons ⟨s.nextId, (visitFunction_spec hv).1⟩
          (forEachFunction_functions fnNames rest s1 h)

/-- A property of the loop state that every round of the loop keeps holds
after the loop. -/
theorem forEachFunction_invariant (fnNames : List String) (P : LoopState → Prop)
    (hstep : ∀ F s F1 s1, visitFunction fnNames F s = some (F1, s1) → P s → P s1) :
    ∀ (fs : List Function) (s : LoopState), P s → P (forEachFunction fnNames fs s).state
  | [], s, h => h
  | F :: rest, s, h => by
    by_cases hd : F.isDeclaration = true
    · rw [forEachFunction_cons_declaration fnNames F rest s hd]
      exact forEachFunction_invariant fnNames P hstep rest s h
    · cases hv : visitFunction fnNames F s with
      | none => rw [forEachFunction_cons_none fnNames F rest s hd hv]; exact h
      | some p =>
        obtain ⟨F1, s1⟩ := p
        rw [forEachFunction_cons_some fnNames F rest s hd F1 s1 hv]
        exact forEachFunction_invariant fnNames P hstep rest s1 (hstep F s F1 s1 hv h)

theorem definedNames_cons (F : Function) (rest : List Function) :
    definedNames (F :: rest)
      = if F.isDeclaration then definedNames rest else F.name :: definedNames rest := by
  unfold definedNames
  by_cases h : F.isDeclaration = true
  · simp [h]
  · simp [h]

theorem forEachFunction_keys_mem (fnNames : List String) :
    ∀ (fs : List Function) (s : LoopState),
      (forEachFunction fnNames fs s).completed = true →
      ∀ k, k ∈ (forEachFunction fnNames fs s).state.CallCounterMap.keys
        ↔ k ∈ s.CallCounterMap.keys ∨ k ∈ definedNames fs
  | [], s, _, k => by simp [forEachFunction, definedNames]
  | F :: rest, s, h, k => by
    rw [definedNames_cons]
    by_cases hd : F.isDeclaration = true
    · rw [forEachFunction_cons_declaration fnNames F rest s hd] at h ⊢
      rw [if_pos hd]
      exact forEachFunction_keys_mem fnNames rest s h k
    · rw [if_neg hd]
      cases hv : visitFunction fnNames F s with
      | none => rw [forEachFunction_cons_none fnNames F rest s hd hv] at h; simp at h
      | some p =>
        obtain ⟨F1, s1⟩ := p
        rw [forEachFunction_cons_some fnNames F rest s hd F1 s1 hv] at h ⊢
        simp only at h ⊢
        rw [forEachFunction_keys_mem fnNames rest s1 h k]
        obtain ⟨_, gs1, _, _, hm, _⟩ := visitFunction_spec hv
        rw [hm, StringMap.keys_set]
        by_cases hin : F.name ∈ s.CallCounterMap.keys
        · rw [if_pos hin]
          simp only [List.mem_cons]
          constructor
          · rintro (h1 | h1)
            · exact Or.inl h1
            · exact Or.inr (Or.inr h1)
          · rintro (h1 | h1 | h1)
            · exact Or.inl h1
            · exact Or.inl (h1 ▸ hin)
            · exact Or.inr h1
        · rw [if_neg hin]
          simp only [List.mem_append, List.mem_singleton, List.mem_cons]
          tauto

theorem forEachFunction_keys (fnNames : List String) :
    ∀ (fs : List Function) (s : LoopState),
      (forEachFunction fnNames fs s).completed = true →
      (fs.map Function.name).Nodup →
      (∀ F ∈ fs, F.name ∉ s.CallCounterMap.keys) →
      (forEachFunction fnNames fs s).state.CallCounterMap.keys
        = s.CallCounterMap.keys ++ definedNames fs
  | [], s, _, _, _ => by simp [forEachFunction, definedNames]
  | F :: rest, s, h, hnd, hfresh => by
    have hnd1 : F.name ∉ rest.map Function.name ∧ (rest.map Function.name).Nodup :=
      List.nodup_cons.mp hnd
    have hfresh1 : ∀ G ∈ rest, G.name ∉ s.CallCounterMap.keys :=
      fun G hG => hfresh G (List.mem_cons_of_mem _ hG)
    rw [definedNames_cons]
    by_cases hd : F.isDeclaration = true
    · rw [forEachFunction_cons_declaration fnNames F rest s hd] at h ⊢
      rw [if_pos hd]
      exact forEachFunction_keys fnNames rest s h hnd1.2 hfresh1
    · rw [if_neg hd]
      cases hv : visitFunction fnNames F s with
      | none => rw [forEachFunction_cons_none fnNames F rest s hd hv] at h; simp at h
      | some p =>
        obtain ⟨F1, s1⟩ := p
        rw [forEachFunction_cons_some fnNames F rest s hd F1 s1 hv] at h ⊢
        simp only at h ⊢
        obtain ⟨_, gs1, _, _, hm, _⟩ := visitFunction_spec hv
        have hk : s1.CallCounterMap.keys = s.CallCounterMap.keys ++ [F.name] := by
          rw [hm, StringMap.keys_set, if_neg (hfresh F (List.mem_cons_self _ _))]
        rw [forEachFunction_keys fnNames rest s1 h hnd1.2, hk]
        · simp
        · intro G hG
          rw [hk]
          simp only [List.mem_append, List.mem_singleton, not_or]
          refine ⟨hfresh1 G hG, ?_⟩
          intro e
          apply hnd1.1
          rw [← e]
          exact List.mem_map_of_mem _ hG

theorem forEachFunction_instrumented (fnNames : List String) :
    ∀ (fs : List Function) (s : LoopState),
      (forEachFunction fnNames fs s).completed = true →
      (forEachFunction fnNames fs s).state.Instrumented
        = (s.Instrumented || fs.any (fun F => !F.isDeclaration))
  | [], s, _ => by simp [forEachFunction]
  | F :: rest, s, h => by
    by_cases hd : F.isDeclaration = true
    · rw [forEachFunction_cons_declaration fnNames F rest s hd] at h ⊢
      simp only at h ⊢
      rw [forEachFunction_instrumented fnNames rest s h]
      simp [hd]
    · cases hv : visitFunction fnNames F s with
      | none => rw [forEachFunction_cons_none fnNames F rest s hd hv] at h; simp at h
      | some p =>
        obtain ⟨F1, s1⟩ := p
        rw [forEachFunction_cons_some fnNames F rest s hd F1 s1 hv] at h ⊢
        simp only at h ⊢
        obtain ⟨_, gs1, _, _, _, _, hi, _⟩ := visitFunction_spec hv
        rw [forEachFunction_instrumented fnNames rest s1 h, hi]
        simp [hd]

theorem forEachFunction_keys_eq (fnNames : List String) (fs : List Function) (s : LoopState)
    (h : s.CallCounterMap.keys = s.FuncNameMap.keys) :
    (forEachFunction fnNames fs s).state.CallCounterMap.keys
      = (forEachFunction fnNames fs s).state.FuncNameMap.keys := by
  apply forEachFunction_invariant fnNames
    (fun s => s.CallCounterMap.keys = s.FuncNameMap.keys) _ fs s h
  intro F s F1 s1 hv hP
  obtain ⟨_, gs1, _, _, hm, hm1, _⟩ := visitFunction_spec hv
  rw [hm, hm1, StringMap.keys_set, StringMap.keys_set, hP]

theorem forall₂_instrumented_names {fs out : List Function}
    (h : List.Forall₂ (fun F F1 => ∃ k, F1 = instrumented F k) fs out) :
    out.map Function.name = fs.map Function.name := by
  induction h with
  | nil => rfl
  | cons hab _ ih =>
    obtain ⟨k, hk⟩ := hab
    simp [hk, instrumented_name, ih]


/-! ## STEP 2 to the end -/

theorem getOrInsertFunction_of_free (M : Module) (Name : String) (ty : FunctionType)
    (h : hasGlobal M.globals Name = false) :
    getOrInsertFunction M Name ty
      = ⟨M.globals, M.functions ++ declareIfMissing M.functions Name ty, M.nextId⟩ := by
  unfold getOrInsertFunction declareIfMissing
  by_cases hf : hasFunction M.functions Name = true
  · simp [hf]
  · simp [hf, h]

theorem declareIfMissing_of_has {fs : List Function} {Name : String} (ty : FunctionType)
    (h : hasFunction fs Name = true) : declareIfMissing fs Name ty = [] := by
  unfold declareIfMissing; rw [if_pos h]

theorem declareIfMissing_of_not {fs : List Function} {Name : String} (ty : FunctionType)
    (h : ¬ hasFunction fs Name = true) :
    declareIfMissing fs Name ty = [⟨Name, ty, [], []⟩] := by
  unfold declareIfMissing; rw [if_neg h]

theorem hasFunction_singleton (F : Function) (n : String) :
    hasFunction [F] n = (F.name == n) := by
  simp [hasFunction]

theorem hasFunction_declareIfMissing (fs : List Function) (Name : String) (ty : FunctionType) :
    hasFunction (fs ++ declareIfMissing fs Name ty) Name = true := by
  rw [hasFunction_append]
  by_cases hf : hasFunction fs Name = true
  · rw [hf]; rfl
  · rw [declareIfMissing_of_not ty hf, hasFunction_singleton]
    simp

theorem hasFunction_declareIfMissing_ne (fs : List Function) (Name : String)
    (ty : FunctionType) (n : String) (hn : n ≠ Name) :
    hasFunction (fs ++ declareIfMissing fs Name ty) n = hasFunction fs n := by
  rw [hasFunction_append]
  by_cases hf : hasFunction fs Name = true
  · rw [declareIfMissing_of_has ty hf]; simp [hasFunction]
  · rw [declareIfMissing_of_not ty hf, hasFunction_singleton]
    have : ¬ Name = n := fun e => hn e.symm
    simp [this]

theorem declareIfMissing_nodup (fs : List Function) (Name : String) (ty : FunctionType)
    (h : (fs.map Function.name).Nodup) :
    ((fs ++ declareIfMissing fs Name ty).map Function.name).Nodup := by
  by_cases hf : hasFunction fs Name = true
  · rw [declareIfMissing_of_has ty hf]; simpa using h
  · have hf1 : Name ∉ fs.map Function.name := by
      rw [← hasFunction_iff]; exact hf
    rw [declareIfMissing_of_not ty hf]
    simp only [List.map_append, List.map_cons, List.map_nil]
    rw [List.nodup_append]
    refine ⟨h, List.nodup_singleton _, ?_⟩
    intro a ha hb
    rw [List.mem_singleton] at hb
    exact hf1 (hb ▸ ha)

theorem declareIfMissing_congr (fs : List Function) {fs1 : List Function} (Name : String) (ty : FunctionType)
    (h : hasFunction fs1 Name = hasFunction fs Name) :
    declareIfMissing fs1 Name ty = declareIfMissing fs Name ty := by
  unfold declareIfMissing; rw [h]

theorem hasFunction_congr {fs fs1 : List Function} (n : String)
    (h : fs1.map Function.name = fs.map Function.name) :
    hasFunction fs1 n = hasFunction fs n := by
  rw [Bool.eq_iff_iff, hasFunction_iff, hasFunction_iff, h]

theorem insertStringGlobal_isSome {fnNames : List String} (gs : List GlobalVariable)
    {Name : String} (Str : String) (h : Name ∉ fnNames) :
    ∃ gs1, insertStringGlobal fnNames gs Name Str = some gs1 := by
  obtain ⟨gs0, h0⟩ := getOrInsertGlobal_isSome fnNames gs
    (Ty.Int8Array (Str.utf8ByteSize + 1)) h
  unfold insertStringGlobal
  rw [h0]
  exact ⟨_, rfl⟩

theorem insertStringGlobal_spec {fnNames : List String} {gs gs1 : List GlobalVariable}
    {Name Str : String} (h : insertStringGlobal fnNames gs Name Str = some gs1) :
    (∃ g ∈ gs1, g.gid = GlobalId.named Name ∧ g.init = some (Init.str Str)) ∧
    (∀ g ∈ gs, g.gid ≠ GlobalId.named Name → g ∈ gs1) ∧
    (∀ n, n ≠ Name → hasGlobal gs1 n = hasGlobal gs n) := by
  unfold insertStringGlobal at h
  cases h0 : getOrInsertGlobal fnNames gs Name (Ty.Int8Array (Str.utf8ByteSize + 1)) with
  | none => rw [h0] at h; simp at h
  | some gs0 =>
    rw [h0] at h
    simp only [Option.some.injEq] at h
    subst h
    refine ⟨?_, ?_, ?_⟩
    · obtain ⟨g, hg, hm⟩ := updateNamedGlobal_mem Name (setStringInit Str) gs0
        (getOrInsertGlobal_spec h0).1
      exact ⟨_, hm, hg, rfl⟩
    · intro g hg hne
      exact mem_updateNamedGlobal_of_ne Name _ g hne gs0 (getOrInsertGlobal_mem h0 hg)
    · intro n hn
      exact (hasGlobal_congr n
        (updateNamedGlobal_gid Name (setStringInit Str) (fun _ => rfl) gs0)).trans
        (getOrInsertGlobal_hasGlobal h0 n hn)

theorem getFunction_isSome {fs : List Function} {n : String} (h : hasFunction fs n = true) :
    ∃ F, getFunction fs n = some F := by
  unfold getFunction
  unfold hasFunction at h
  rw [List.any_eq_true] at h
  obtain ⟨F, hF, hn⟩ := h
  cases hfind : fs.find? (fun F => F.name == n) with
  | some G => exact ⟨G, rfl⟩
  | none =>
    rw [List.find?_eq_none] at hfind
    exact absurd hn (hfind F hF)

theorem updateNamedFunction_main (fs : List Function) (hnd : (fs.map Function.name).Nodup)
    (Fm : Function) (hg : getFunction fs "main" = some Fm) (n : Nat) :
    updateNamedFunction "main" (fun F => { F with blocks := (hookReturns Fm.blocks n).1 }) fs
      = fs.map (fun F =>
          if F.name = "main" then { F with blocks := (hookReturns F.blocks n).1 } else F) := by
  rw [updateNamedFunction_eq_map _ _ fs hnd]
  apply List.map_congr_left
  intro F hF
  by_cases h : F.name = "main"
  · have h1 := getFunction_eq_some_of_mem hnd hF
    rw [h, hg] at h1
    simp only [Option.some.injEq] at h1
    simp [h, h1]
  · simp [h]

theorem setPrintfAttrs_name (F : Function) : (setPrintfAttrs F).name = F.name := by
  unfold setPrintfAttrs Function.addAttr
  split_ifs <;> rfl

theorem setPrintfAttrs_blocks (F : Function) : (setPrintfAttrs F).blocks = F.blocks := by
  unfold setPrintfAttrs Function.addAttr
  split_ifs <;> rfl

theorem setPrintfAttrs_ty (F : Function) : (setPrintfAttrs F).ty = F.ty := by
  unfold setPrintfAttrs Function.addAttr
  split_ifs <;> rfl

theorem finish_name (RB : BasicBlock) (n : Nat) (F : Function) :
    (finish RB n F).name = F.name := by
  unfold finish
  simp only
  split_ifs <;> simp [Function.appendBlock, setPrintfAttrs_name]


theorem mem_declareIfMissing {fs : List Function} {Name : String} {ty : FunctionType}
    {F : Function} (h : F ∈ declareIfMissing fs Name ty) : F = ⟨Name, ty, [], []⟩ := by
  unfold declareIfMissing at h
  by_cases hf : hasFunction fs Name = true
  · rw [if_pos hf] at h; simp at h
  · rw [if_neg hf] at h; simpa using h

theorem hookReturns_nextId : ∀ (bs : List BasicBlock) (n : Nat), n ≤ (hookReturns bs n).2
  | [], n => by simp [hookReturns]
  | B :: rest, n => by
    unfold hookReturns
    by_cases h : B.endsInRet = true
    · rw [if_pos h]
      have := hookReturns_nextId rest (n + 1)
      simp only; omega
    · rw [if_neg h]
      exact hookReturns_nextId rest n

theorem getFunction_eq_none {fs : List Function} {n : String} (h : hasFunction fs n = false) :
    getFunction fs n = none := by
  unfold getFunction
  rw [List.find?_eq_none]
  intro F hF hn
  have : hasFunction fs n = true := by
    unfold hasFunction
    rw [List.any_eq_true]
    exact ⟨F, hF, hn⟩
  rw [h] at this
  exact Bool.noConfusion this

/-- Without the name `main` a function is rewritten by the steps before the
exit hook only. -/
theorem finish_of_not_main (RB : BasicBlock) (n : Nat) (F : Function) (h : F.name ≠ "main") :
    finish RB n F
      = (fun F => if F.name = "printf_wrapper" then F.appendBlock RB else F)
          ((fun F => if F.name = "printf" then setPrintfAttrs F else F) F) := by
  have h1 : (if F.name = "printf" then setPrintfAttrs F else F).name = F.name := by
    split_ifs
    · exact setPrintfAttrs_name F
    · rfl
  have h2 : (if (if F.name = "printf" then setPrintfAttrs F else F).name = "printf_wrapper"
      then (if F.name = "printf" then setPrintfAttrs F else F).appendBlock RB
      else (if F.name = "printf" then setPrintfAttrs F else F)).name = F.name := by
    split_ifs <;> first | exact setPrintfAttrs_name F | rfl
  unfold finish
  simp only
  rw [if_neg (by rw [h2]; exact h)]

/-- On a function list with unique names, in a state whose globals hold
neither `printf` nor `printf_wrapper`, and with no function named like the two
string globals, STEP 2 to the end return `true` when `main` is there and end
in the null dereference of line 174 when it is not; either way the function
list has got the two declarations it misses and every function is rewritten
by `finish`. -/
theorem synthesizeReport_outcome (ord : IterOrder) (fs : List Function) (s : LoopState)
    (hnd : (fs.map Function.name).Nodup)
    (hp : hasGlobal s.globals "printf" = false)
    (hw : hasGlobal s.globals "printf_wrapper" = false)
    (hf : hasFunction fs "ResultFormatStrIR" = false)
    (hh : hasFunction fs "ResultHeaderStrIR" = false) :
    ∃ gs4 gs5 nid,
      insertStringGlobal ((fs ++ declareIfMissing fs "printf" PrintfTy).map Function.name)
        s.globals "ResultFormatStrIR" ResultFormatStr = some gs4 ∧
      insertStringGlobal ((fs ++ declareIfMissing fs "printf" PrintfTy).map Function.name)
        gs4 "ResultHeaderStrIR" ResultHeaderStr = some gs5 ∧
      s.nextId + 2 + 2 * s.CallCounterMap.length ≤ nid ∧
      synthesizeReport ord fs s
        = (if hasFunction fs "main" = true then Result.returned true else Result.crashed)
        ⟨gs5,
         (fs ++ declareIfMissing fs "printf" PrintfTy ++
            declareIfMissing fs "printf_wrapper" PrintfWrapperTy).map
           (finish ⟨"enter", reportBody ord s.CallCounterMap s.FuncNameMap s.nextId⟩
             (s.nextId + 2 + 2 * s.CallCounterMap.length)),
         nid⟩ := by
  -- STEP 2
  have e2 : getOrInsertFunction ⟨s.globals, fs, s.nextId⟩ "printf" PrintfTy
      = ⟨s.globals, fs ++ declareIfMissing fs "printf" PrintfTy, s.nextId⟩ :=
    getOrInsertFunction_of_free _ _ _ hp
  have hnd1 := declareIfMissing_nodup fs "printf" PrintfTy hnd
  have hpf := hasFunction_declareIfMissing fs "printf" PrintfTy
  have e3 := updateNamedFunction_eq_map "printf" setPrintfAttrs _ hnd1
  have hn3 := updateNamedFunction_name "printf" setPrintfAttrs setPrintfAttrs_name
    (fs ++ declareIfMissing fs "printf" PrintfTy)
  -- STEP 3
  have hf1 : "ResultFormatStrIR" ∉ (fs ++ declareIfMissing fs "printf" PrintfTy).map Function.name := by
    rw [← hasFunction_iff, hasFunction_declareIfMissing_ne _ _ _ _ (by decide), hf]
    exact Bool.noConfusion
  have hh1 : "ResultHeaderStrIR" ∉ (fs ++ declareIfMissing fs "printf" PrintfTy).map Function.name := by
    rw [← hasFunction_iff, hasFunction_declareIfMissing_ne _ _ _ _ (by decide), hh]
    exact Bool.noConfusion
  obtain ⟨gs4, h4⟩ := insertStringGlobal_isSome s.globals ResultFormatStr hf1
  obtain ⟨gs5, h5⟩ := insertStringGlobal_isSome gs4 ResultHeaderStr hh1
  -- STEP 4
  have hw5 : hasGlobal gs5 "printf_wrapper" = false := by
    rw [(insertStringGlobal_spec h5).2.2 _ (by decide),
      (insertStringGlobal_spec h4).2.2 _ (by decide), hw]
  have e6 : getOrInsertFunction
      ⟨gs5, updateNamedFunction "printf" setPrintfAttrs
        (fs ++ declareIfMissing fs "printf" PrintfTy), s.nextId⟩ "printf_wrapper" PrintfWrapperTy
      = ⟨gs5, updateNamedFunction "printf" setPrintfAttrs
          (fs ++ declareIfMissing fs "printf" PrintfTy) ++
          declareIfMissing fs "printf_wrapper" PrintfWrapperTy, s.nextId⟩ := by
    rw [getOrInsertFunction_of_free _ _ _ hw5]
    congr 2
    apply declareIfMissing_congr fs
    rw [hasFunction_congr _ hn3, hasFunction_declareIfMissing_ne _ _ _ _ (by decide)]
  have hnd6 : ((updateNamedFunction "printf" setPrintfAttrs
      (fs ++ declareIfMissing fs "printf" PrintfTy) ++
      declareIfMissing fs "printf_wrapper" PrintfWrapperTy).map Function.name).Nodup := by
    have h0 := declareIfMissing_nodup (updateNamedFunction "printf" setPrintfAttrs
      (fs ++ declareIfMissing fs "printf" PrintfTy)) "printf_wrapper" PrintfWrapperTy
      (by rw [hn3]; exact hnd1)
    rw [declareIfMissing_congr fs "printf_wrapper" PrintfWrapperTy
      (by rw [hasFunction_congr _ hn3, hasFunction_declareIfMissing_ne _ _ _ _ (by decide)])] at h0
    exact h0
  have hwf : hasFunction (updateNamedFunction "printf" setPrintfAttrs
      (fs ++ declareIfMissing fs "printf" PrintfTy) ++
      declareIfMissing fs "printf_wrapper" PrintfWrapperTy) "printf_wrapper" = true := by
    have h0 := hasFunction_declareIfMissing (updateNamedFunction "printf" setPrintfAttrs
      (fs ++ declareIfMissing fs "printf" PrintfTy)) "printf_wrapper" PrintfWrapperTy
    rw [declareIfMissing_congr fs "printf_wrapper" PrintfWrapperTy
      (by rw [hasFunction_congr _ hn3, hasFunction_declareIfMissing_ne _ _ _ _ (by decide)])] at h0
    exact h0
  generalize hRB : (⟨"enter", reportBody ord s.CallCounterMap s.FuncNameMap s.nextId⟩ : BasicBlock)
    = RB
  have e7 := updateNamedFunction_eq_map "printf_wrapper" (fun F => F.appendBlock RB) _ hnd6
  have hn7 := updateNamedFunction_name "printf_wrapper" (fun F => F.appendBlock RB)
    (fun _ => rfl) (updateNamedFunction "printf" setPrintfAttrs
      (fs ++ declareIfMissing fs "printf" PrintfTy) ++
      declareIfMissing fs "printf_wrapper" PrintfWrapperTy)
  have hmain7 : hasFunction (updateNamedFunction "printf_wrapper" (fun F => F.appendBlock RB)
      (updateNamedFunction "printf" setPrintfAttrs
        (fs ++ declareIfMissing fs "printf" PrintfTy) ++
        declareIfMissing fs "printf_wrapper" PrintfWrapperTy)) "main" = hasFunction fs "main" := by
    rw [hasFunction_congr _ hn7, hasFunction_append, hasFunction_congr _ hn3,
      hasFunction_declareIfMissing_ne _ _ _ _ (by decide)]
    by_cases hwr : hasFunction fs "printf_wrapper" = true
    · rw [declareIfMissing_of_has _ hwr]; simp [hasFunction]
    · rw [declareIfMissing_of_not _ hwr, hasFunction_singleton]; simp
  by_cases hmain : hasFunction fs "main" = true
  · rw [hmain] at hmain7
    obtain ⟨Fm, hFm⟩ := getFunction_isSome hmain7
    have e8 := updateNamedFunction_main _ (by rw [hn7]; exact hnd6) Fm hFm
      (s.nextId + 2 + 2 * s.CallCounterMap.length)
    refine ⟨gs4, gs5, (hookReturns Fm.blocks (s.nextId + 2 + 2 * s.CallCounterMap.length)).2,
      h4, h5, hookReturns_nextId _ _, ?_⟩
    rw [if_pos hmain]
    unfold synthesizeReport
    simp only [e2, hpf, hn3, h4, h5, e6, hRB, hwf, hFm, Bool.not_true, Bool.false_and,
      Bool.false_eq_true, if_false]
    congr 2
    rw [e8, e7, e3]
    simp only [List.map_append, List.map_map]
    refine congrArg₂ _ (congrArg₂ _ ?_ ?_) ?_
    · apply List.map_congr_left
      intro F _
      rfl
    · apply List.map_congr_left
      intro F _
      rfl
    · apply List.map_congr_left
      intro F hF
      have hF1 := mem_declareIfMissing hF
      subst hF1
      rfl
  · have hmain0 : hasFunction fs "main" = false := by simpa using hmain
    rw [hmain0] at hmain7
    have hnone := getFunction_eq_none hmain7
    refine ⟨gs4, gs5, s.nextId + 2 + 2 * s.CallCounterMap.length, h4, h5, le_refl _, ?_⟩
    rw [if_neg hmain]
    unfold synthesizeReport
    simp only [e2, hpf, hn3, h4, h5, e6, hRB, hwf, hnone, Bool.not_true, Bool.false_and,
      Bool.false_eq_true, if_false]
    congr 2
    rw [e7, e3]
    simp only [List.map_append, List.map_map]
    have hfs : ∀ F ∈ fs, F.name ≠ "main" := by
      intro F hF e
      have := (hasFunction_iff fs "main").mpr (e ▸ List.mem_map_of_mem _ hF)
      rw [hmain0] at this
      exact Bool.noConfusion this
    refine congrArg₂ _ (congrArg₂ _ ?_ ?_) ?_
    · apply List.map_congr_left
      intro F hF
      exact (finish_of_not_main RB _ F (hfs F hF)).symm
    · apply List.map_congr_left
      intro F hF
      have hF1 := mem_declareIfMissing hF
      subst hF1
      rfl
    · apply List.map_congr_left
      intro F hF
      have hF1 := mem_declareIfMissing hF
      subst hF1
      rfl


/-! ## The whole pass -/

theorem forall₂_trans' {α β γ : Type} {R : α → β → Prop} {S : β → γ → Prop}
    {T : α → γ → Prop} (hT : ∀ a b c, R a b → S b c → T a c) :
    ∀ {l1 : List α} {l2 : List β} {l3 : List γ},
      List.Forall₂ R l1 l2 → List.Forall₂ S l2 l3 → List.Forall₂ T l1 l3
  | _, _, _, List.Forall₂.nil, List.Forall₂.nil => List.Forall₂.nil
  | _, _, _, List.Forall₂.cons h1 t1, List.Forall₂.cons h2 t2 =>
    List.Forall₂.cons (hT _ _ _ h1 h2) (forall₂_trans' hT t1 t2)

theorem forall₂_append' {α β : Type} {R : α → β → Prop} :
    ∀ {l1 l2 : List α} {m1 m2 : List β},
      List.Forall₂ R l1 m1 → List.Forall₂ R l2 m2 → List.Forall₂ R (l1 ++ l2) (m1 ++ m2)
  | _, _, _, _, List.Forall₂.nil, h2 => h2
  | _, _, _, _, List.Forall₂.cons h t, h2 => List.Forall₂.cons h (forall₂_append' t h2)

theorem forall₂_self {α : Type} {R : α → α → Prop} :
    ∀ (l : List α), (∀ a ∈ l, R a a) → List.Forall₂ R l l
  | [], _ => List.Forall₂.nil
  | a :: l, h => List.Forall₂.cons (h a (List.mem_cons_self _ _))
      (forall₂_self l (fun b hb => h b (List.mem_cons_of_mem _ hb)))

theorem forall₂_map_right' {α β γ : Type} {R : α → γ → Prop} (f : β → γ) :
    ∀ {l : List α} {m : List β},
      List.Forall₂ (fun a b => R a (f b)) l m → List.Forall₂ R l (m.map f)
  | _, _, List.Forall₂.nil => List.Forall₂.nil
  | _, _, List.Forall₂.cons h t => List.Forall₂.cons h (forall₂_map_right' f t)

/-- The declaration of `clock` that line 43 appends. -/
theorem declareClock_functions (M : Module) :
    (declareClock M).functions = M.functions ++
      (if hasGlobal M.globals "clock" then [] else declareIfMissing M.functions "clock" ClockTy)
    ∧ (declareClock M).globals = M.globals ∧ (declareClock M).nextId = M.nextId := by
  unfold declareClock getOrInsertFunction declareIfMissing
  by_cases hf : hasFunction M.functions "clock" = true
  · by_cases hg : hasGlobal M.globals "clock" = true <;> simp [hf, hg]
  · by_cases hg : hasGlobal M.globals "clock" = true <;> simp [hf, hg]

theorem mem_declareClock {M : Module} {F : Function} (h : F ∈ (declareClock M).functions) :
    F ∈ M.functions ∨ F = ⟨"clock", ClockTy, [], []⟩ := by
  rw [(declareClock_functions M).1] at h
  rcases List.mem_append.mp h with h1 | h1
  · exact Or.inl h1
  · right
    by_cases hg : hasGlobal M.globals "clock" = true
    · rw [if_pos hg] at h1; simp at h1
    · rw [if_neg hg] at h1; exact mem_declareIfMissing h1

theorem declareClock_definedNames (M : Module) :
    definedNames (declareClock M).functions = definedNames M.functions := by
  rw [(declareClock_functions M).1]
  unfold definedNames
  rw [List.filter_append, List.map_append]
  have : List.filter (fun F => !F.isDeclaration)
      (if hasGlobal M.globals "clock" then [] else declareIfMissing M.functions "clock" ClockTy)
      = [] := by
    rw [List.filter_eq_nil_iff]
    intro F hF
    have hF1 : F = ⟨"clock", ClockTy, [], []⟩ := by
      by_cases hg : hasGlobal M.globals "clock" = true
      · rw [if_pos hg] at hF; simp at hF
      · rw [if_neg hg] at hF; exact mem_declareIfMissing hF
    subst hF1
    simp [Function.isDeclaration]
  rw [this]; simp

theorem perFunctionLoop_completed (M : Module) (h : LoopSafe M) :
    (perFunctionLoop M).completed = true := by
  unfold perFunctionLoop
  apply forEachFunction_completed
  · intro n hn
    obtain ⟨F, hF, rfl⟩ := List.mem_map.mp hn
    rcases mem_declareClock hF with h1 | h1
    · exact h.counter F h1
    · subst h1; decide
  · intro F hF
    rcases mem_declareClock hF with h1 | h1
    · exact h.entry F h1
    · subst h1; rfl

theorem perFunctionLoop_functions (M : Module) (h : LoopSafe M) :
    List.Forall₂ (fun F F1 => ∃ k, F1 = instrumented F k) (declareClock M).functions
      (perFunctionLoop M).functions :=
  forEachFunction_functions _ _ _ (perFunctionLoop_completed M h)

theorem perFunctionLoop_hasGlobal (M : Module) (n : String) (hn : isCounterName n = false) :
    hasGlobal (perFunctionLoop M).state.globals n = hasGlobal M.globals n := by
  unfold perFunctionLoop
  have h0 := forEachFunction_invariant ((declareClock M).functions.map Function.name)
    (fun s => hasGlobal s.globals n = hasGlobal M.globals n) ?_ (declareClock M).functions
    ⟨(declareClock M).globals, (declareClock M).nextId, [], [], false⟩ ?_
  · exact h0
  · intro F s F1 s1 hv hP
    obtain ⟨_, gs1, hc, hg, _⟩ := visitFunction_spec hv
    rw [hg, hasGlobal_append, (CreateGlobalCounter_spec hc).2.2.2 n
      (fun e => counterName_ne hn e.symm), hP]
    simp [hasGlobal, globalString]
  · simp only
    rw [(declareClock_functions M).2.1]

theorem perFunctionLoop_instrumented (M : Module) (h : LoopSafe M)
    (hdef : ∃ F ∈ M.functions, F.isDeclaration = false) :
    (perFunctionLoop M).state.Instrumented = true := by
  have h1 := forEachFunction_instrumented _ _ _ (perFunctionLoop_completed M h)
  unfold perFunctionLoop
  rw [h1]
  simp only [Bool.false_or, List.any_eq_true]
  obtain ⟨F, hF, hd⟩ := hdef
  refine ⟨F, ?_, by simp [hd]⟩
  rw [(declareClock_functions M).1]
  exact List.mem_append_left _ hF


theorem hasFunction_declareClock (M : Module) (n : String) (hn : n ≠ "clock") :
    hasFunction (declareClock M).functions n = hasFunction M.functions n := by
  rw [(declareClock_functions M).1]
  by_cases hg : hasGlobal M.globals "clock" = true
  · rw [if_pos hg]; simp
  · rw [if_neg hg]; exact hasFunction_declareIfMissing_ne _ _ _ _ hn

theorem declareClock_nodup (M : Module) (h : (M.functions.map Function.name).Nodup) :
    ((declareClock M).functions.map Function.name).Nodup := by
  rw [(declareClock_functions M).1]
  by_cases hg : hasGlobal M.globals "clock" = true
  · rw [if_pos hg]; simpa using h
  · rw [if_neg hg]; exact declareIfMissing_nodup _ _ _ h

theorem perFunctionLoop_names (M : Module) (h : LoopSafe M) :
    (perFunctionLoop M).functions.map Function.name
      = (declareClock M).functions.map Function.name :=
  forall₂_instrumented_names (perFunctionLoop_functions M h)

theorem hasFunction_perFunctionLoop (M : Module) (h : LoopSafe M) (n : String)
    (hn : n ≠ "clock") :
    hasFunction (perFunctionLoop M).functions n = hasFunction M.functions n := by
  rw [hasFunction_congr n (perFunctionLoop_names M h), hasFunction_declareClock M n hn]

theorem runOnModule_eq_synthesizeReport (ord : IterOrder) (M : Module) (h : LoopSafe M)
    (hdef : ∃ F ∈ M.functions, F.isDeclaration = false) :
    runOnModule ord M
      = synthesizeReport ord (perFunctionLoop M).functions (perFunctionLoop M).state := by
  unfold runOnModule
  simp [perFunctionLoop_completed M h, perFunctionLoop_instrumented M h hdef]

theorem newDeclarations_eq (M : Module) :
    M.functions ++ newDeclarations M
      = (declareClock M).functions ++ declareIfMissing M.functions "printf" PrintfTy ++
          declareIfMissing M.functions "printf_wrapper" PrintfWrapperTy := by
  rw [(declareClock_functions M).1]
  unfold newDeclarations
  simp only [List.append_assoc]

/-- On a supported module with some definition the pass returns `true` when
there is a function `main` and ends in the null dereference of line 174 when
there is none; either way the function list it leaves is that of the input
followed by the declarations it misses, every function rewritten by the loop
of STEP 1 and then by `finish`; the global list is that of the loop with the
two string globals. -/
theorem runOnModule_outcome (ord : IterOrder) (M : Module) (hS : Supported M)
    (hdef : ∃ F ∈ M.functions, F.isDeclaration = false) :
    ∃ Mout, runOnModule ord M
        = (if hasFunction M.functions "main" = true then Result.returned true Mout
           else Result.crashed Mout) ∧
      List.Forall₂ (fun F F2 => ∃ k, F2 = finish (reportBlock ord M) (hookStart M)
        (instrumented F k)) (M.functions ++ newDeclarations M) Mout.functions ∧
      (∃ fnNames gs4,
        insertStringGlobal fnNames (perFunctionLoop M).state.globals "ResultFormatStrIR"
          ResultFormatStr = some gs4 ∧
        insertStringGlobal fnNames gs4 "ResultHeaderStrIR" ResultHeaderStr
          = some Mout.globals) ∧
      hookStart M ≤ Mout.nextId := by
  have hL := hS.toLoopSafe
  have hnd : ((perFunctionLoop M).functions.map Function.name).Nodup := by
    rw [perFunctionLoop_names M hL]; exact declareClock_nodup M hS.names
  obtain ⟨gs4, gs5, nid, h4, h5, hn, hr⟩ := synthesizeReport_outcome ord
    (perFunctionLoop M).functions (perFunctionLoop M).state hnd
    (by rw [perFunctionLoop_hasGlobal M _ (by decide)]; exact hS.printfFree)
    (by rw [perFunctionLoop_hasGlobal M _ (by decide)]; exact hS.wrapperFree)
    (by rw [hasFunction_perFunctionLoop M hL _ (by decide)]; exact hS.formatFree)
    (by rw [hasFunction_perFunctionLoop M hL _ (by decide)]; exact hS.headerFree)
  rw [hasFunction_perFunctionLoop M hL _ (by decide), declareIfMissing_congr M.functions "printf" PrintfTy
      (hasFunction_perFunctionLoop M hL _ (by decide)),
    declareIfMissing_congr M.functions "printf_wrapper" PrintfWrapperTy
      (hasFunction_perFunctionLoop M hL _ (by decide))] at hr
  refine ⟨⟨gs5, ((perFunctionLoop M).functions ++ declareIfMissing M.functions "printf" PrintfTy
      ++ declareIfMissing M.functions "printf_wrapper" PrintfWrapperTy).map
        (finish (reportBlock ord M) (hookStart M)), nid⟩, ?_, ?_, ⟨_, gs4, h4, h5⟩, hn⟩
  · rw [runOnModule_eq_synthesizeReport ord M hL hdef, hr]
    split_ifs <;> rfl
  simp only
  rw [newDeclarations_eq]
  apply forall₂_map_right'
  refine forall₂_append' (forall₂_append' ?_ ?_) ?_
  · exact (perFunctionLoop_functions M hL).imp (fun F G ⟨k, hk⟩ => ⟨k, by rw [hk]⟩)
  · apply forall₂_self
    intro F hF
    have := mem_declareIfMissing hF
    subst this
    exact ⟨0, rfl⟩
  · apply forall₂_self
    intro F hF
    have := mem_declareIfMissing hF
    subst this
    exact ⟨0, rfl⟩

/-- On a supported module with a function `main` and some definition the
pass returns `true`. -/
theorem runOnModule_returns (ord : IterOrder) (M : Module) (hS : Supported M)
    (hmain : hasFunction M.functions "main" = true)
    (hdef : ∃ F ∈ M.functions, F.isDeclaration = false) :
    ∃ Mout, runOnModule ord M = Result.returned true Mout ∧
      List.Forall₂ (fun F F2 => ∃ k, F2 = finish (reportBlock ord M) (hookStart M)
        (instrumented F k)) (M.functions ++ newDeclarations M) Mout.functions ∧
      (∃ fnNames gs4,
        insertStringGlobal fnNames (perFunctionLoop M).state.globals "ResultFormatStrIR"
          ResultFormatStr = some gs4 ∧
        insertStringGlobal fnNames gs4 "ResultHeaderStrIR" ResultHeaderStr
          = some Mout.globals) ∧
      hookStart M ≤ Mout.nextId := by
  obtain ⟨Mout, hr, h⟩ := runOnModule_outcome ord M hS hdef
  rw [if_pos hmain] at hr
  exact ⟨Mout, hr, h⟩


/-! ## Blocks of the rewritten functions -/

theorem instrumentReturns_shape (slot : Nat) (Var : Value) (bs : List BasicBlock) (n : Nat) :
    List.Forall₂ (fun B B1 =>
        (B.endsInRet = true → AtReturn slot Var [] B B1) ∧ (B.endsInRet = false → B1 = B))
      bs (instrumentReturns slot Var bs n).1 := by
  refine (instrumentReturns_forall₂ slot Var bs n).imp ?_
  rintro B B1 (⟨hr, m, hB1⟩ | ⟨hr, hB1⟩)
  · refine ⟨fun _ => ?_, fun h => by rw [hr] at h; exact Bool.noConfusion h⟩
    obtain ⟨init, term, hi, ht⟩ := endsInRet_split hr
    refine ⟨by rw [hB1]; rfl, init, term, m, hi, ht, ?_⟩
    rw [hB1, insertBefore_last B init term _ hi]
    simp
  · exact ⟨fun h => by rw [hr] at h; exact Bool.noConfusion h, fun _ => hB1⟩

theorem instrumentReturns_keeps (slot : Nat) (Var : Value) (bs : List BasicBlock) (n : Nat) :
    List.Forall₂ (fun B B1 => Keeps B B1 ∧ B1.reportCalls = B.reportCalls)
      bs (instrumentReturns slot Var bs n).1 := by
  refine (instrumentReturns_forall₂ slot Var bs n).imp ?_
  rintro B B1 (⟨hr, m, hB1⟩ | ⟨_, hB1⟩)
  · rw [hB1]
    exact ⟨keeps_insertBefore_last B _ hr,
      by rw [insertBefore_reportCalls, accumSeq_reportCalls]; rfl⟩
  · rw [hB1]; exact ⟨Keeps.refl B, rfl⟩

theorem hookReturns_shape (bs : List BasicBlock) (n : Nat) :
    List.Forall₂ (fun B B2 =>
        (B.endsInRet = true → B2.name = B.name ∧ ∃ init term m, B.insts = init ++ [term] ∧
          term.opcode = Opcode.Ret ∧ B2.insts = init ++ [reportCall m] ++ [term]) ∧
        (B.endsInRet = false → B2 = B))
      bs (hookReturns bs n).1 := by
  refine (hookReturns_forall₂ bs n).imp ?_
  rintro B B1 (⟨hr, m, hB1⟩ | ⟨hr, hB1⟩)
  · refine ⟨fun _ => ?_, fun h => by rw [hr] at h; exact Bool.noConfusion h⟩
    obtain ⟨init, term, hi, ht⟩ := endsInRet_split hr
    refine ⟨by rw [hB1]; rfl, init, term, m, hi, ht, ?_⟩
    rw [hB1, insertBefore_last B init term _ hi]
  · exact ⟨fun h => by rw [hr] at h; exact Bool.noConfusion h, fun _ => hB1⟩

theorem hookReturns_keeps (bs : List BasicBlock) (n : Nat) :
    List.Forall₂ (fun B B2 => Keeps B B2 ∧
        B2.reportCalls = B.reportCalls + (if B.endsInRet = true then 1 else 0))
      bs (hookReturns bs n).1 := by
  refine (hookReturns_forall₂ bs n).imp ?_
  rintro B B1 (⟨hr, m, hB1⟩ | ⟨hr, hB1⟩)
  · rw [hB1]
    refine ⟨keeps_insertBefore_last B _ hr, ?_⟩
    rw [insertBefore_reportCalls, if_pos hr]
    simp [List.countP_cons, reportCall_isReportCall]
  · rw [hB1]
    refine ⟨Keeps.refl B, ?_⟩
    rw [hr]; simp

/-- The blocks of a function after the body of the loop of STEP 1 keep the
blocks it had and hold as many report calls. -/
theorem instrumented_keeps (F : Function) (k : Nat) :
    List.Forall₂ (fun B B1 => Keeps B B1 ∧ B1.reportCalls = B.reportCalls)
      F.blocks (instrumented F k).blocks := by
  cases hb : F.blocks with
  | nil =>
    rw [instrumented_of_declaration F k (by simp [Function.isDeclaration, hb]), hb]
    exact List.Forall₂.nil
  | cons entry others =>
    cases hip : entry.getFirstInsertionPt with
    | none =>
      have : instrumented F k = F := by
        unfold instrumented; rw [hb]; simp only [hip]
      rw [this, hb]
      exact forall₂_self _ (fun B _ => ⟨Keeps.refl B, rfl⟩)
    | some ip =>
      rw [instrumented_blocks F k entry others ip hb hip]
      have h1 : List.Forall₂ (fun B B1 => Keeps B B1 ∧ B1.reportCalls = B.reportCalls)
          (entry :: others) (entry.insertBefore ip (entrySeq (k + 1)) :: others) := by
        refine List.Forall₂.cons ⟨keeps_insertBefore entry ip _
          (firstInsertionIdx_lt _ _ hip), ?_⟩ (forall₂_self _ (fun B _ => ⟨Keeps.refl B, rfl⟩))
        rw [insertBefore_reportCalls, entrySeq_reportCalls]; rfl
      exact forall₂_trans' (fun a b c hab hbc => ⟨hab.1.trans hbc.1, hbc.2.trans hab.2⟩) h1
        (instrumentReturns_keeps _ _ _ _)

theorem finish_blocks (RB : BasicBlock) (n : Nat) (F : Function) :
    (finish RB n F).blocks
      = (if F.name = "main" then (hookReturns F.blocks n).1 else F.blocks) ++
        (if F.name = "printf_wrapper" then [RB] else []) := by
  unfold finish
  by_cases h1 : F.name = "printf"
  · have h2 : ¬ (setPrintfAttrs F).name = "printf_wrapper" := by
      rw [setPrintfAttrs_name, h1]; decide
    have h3 : ¬ (setPrintfAttrs F).name = "main" := by
      rw [setPrintfAttrs_name, h1]; decide
    have h4 : ¬ F.name = "printf_wrapper" := by rw [h1]; decide
    have h5 : ¬ F.name = "main" := by rw [h1]; decide
    simp only [if_pos h1, if_neg h2, if_neg h3, if_neg h4, if_neg h5, setPrintfAttrs_blocks,
      List.append_nil]
  · simp only [if_neg h1]
    by_cases h2 : F.name = "printf_wrapper"
    · have h3 : ¬ (F.appendBlock RB).name = "main" := by
        show ¬ F.name = "main"
        rw [h2]; decide
      have h5 : ¬ F.name = "main" := by rw [h2]; decide
      simp only [if_pos h2, if_neg h3, if_neg h5]
      rfl
    · simp only [if_neg h2]
      by_cases h3 : F.name = "main"
      · simp only [if_pos h3, List.append_nil]
      · simp only [if_neg h3, List.append_nil]

theorem finish_ty (RB : BasicBlock) (n : Nat) (F : Function) :
    (finish RB n F).ty = F.ty := by
  unfold finish
  simp only
  split_ifs <;> simp [Function.appendBlock, setPrintfAttrs_ty]

theorem finish_attrs (RB : BasicBlock) (n : Nat) (F : Function) (h : F.name ≠ "printf") :
    (finish RB n F).attrs = F.attrs := by
  unfold finish
  simp only [if_neg h]
  split_ifs <;> rfl


theorem forall₂_split {α β : Type} {R : α → β → Prop} :
    ∀ (l1 l2 : List α) (m : List β), List.Forall₂ R (l1 ++ l2) m →
      ∃ m1 m2, m = m1 ++ m2 ∧ List.Forall₂ R l1 m1 ∧ List.Forall₂ R l2 m2
  | [], l2, m, h => ⟨[], m, rfl, List.Forall₂.nil, h⟩
  | a :: l1, l2, m, h => by
    cases h with
    | cons hab ht =>
      obtain ⟨m1, m2, hm, h1, h2⟩ := forall₂_split l1 l2 _ ht
      exact ⟨_ :: m1, m2, by rw [hm]; rfl, List.Forall₂.cons hab h1, h2⟩

theorem forall₂_and' {α β : Type} {R S : α → β → Prop} :
    ∀ {l : List α} {m : List β}, List.Forall₂ R l m → List.Forall₂ S l m →
      List.Forall₂ (fun a b => R a b ∧ S a b) l m
  | _, _, List.Forall₂.nil, List.Forall₂.nil => List.Forall₂.nil
  | _, _, List.Forall₂.cons h1 t1, List.Forall₂.cons h2 t2 =>
    List.Forall₂.cons ⟨h1, h2⟩ (forall₂_and' t1 t2)

theorem forall₂_mem_right {α β : Type} {R : α → β → Prop} :
    ∀ {l : List α} {m : List β}, List.Forall₂ R l m → ∀ b ∈ m, ∃ a ∈ l, R a b
  | _, _, List.Forall₂.nil, b, hb => by simp at hb
  | _, _, List.Forall₂.cons h t, b, hb => by
    rcases List.mem_cons.mp hb with h1 | h1
    · exact ⟨_, List.mem_cons_self _ _, h1 ▸ h⟩
    · obtain ⟨a, ha, hab⟩ := forall₂_mem_right t b h1
      exact ⟨a, List.mem_cons_of_mem _ ha, hab⟩

theorem endsInRet_of_split {B : BasicBlock} {init : List Instruction} {term : Instruction}
    (h : B.insts = init ++ [term]) (ht : term.opcode = Opcode.Ret) : B.endsInRet = true := by
  unfold BasicBlock.endsInRet BasicBlock.getTerminator
  rw [h, List.getLast?_append_of_ne_nil _ (by simp)]
  simp [ht, Opcode.isTerminator]

theorem atReturn_endsInRet {slot : Nat} {Var : Value} {hook : List Instruction}
    {B B1 : BasicBlock} (h : AtReturn slot Var hook B B1) : B1.endsInRet = true := by
  obtain ⟨_, init, term, n, _, ht, h1⟩ := h
  exact endsInRet_of_split h1 ht

/-- The shape of the blocks of a definition after the loop of STEP 1. -/
theorem instrumented_shape (F : Function) (k : Nat) (entry : BasicBlock)
    (others : List BasicBlock) (ip : Nat) (hb : F.blocks = entry :: others)
    (hip : entry.getFirstInsertionPt = some ip) :
    ReturnsInstrumented F (instrumented F k).blocks false := by
  refine ⟨entry, others, ip, k + 1, hb, hip, firstInsertionIdx_lt _ _ hip, ?_⟩
  rw [instrumented_blocks F k entry others ip hb hip]
  refine (instrumentReturns_shape _ _ _ _).imp ?_
  rintro B B1 ⟨h1, h2⟩
  exact ⟨fun hr => ⟨[], h1 hr, by simp⟩, h2⟩

/-- The shape of the blocks of a definition in the module the pass returns. -/
theorem finish_instrumented_shape (RB : BasicBlock) (n : Nat) (F : Function) (k : Nat)
    (entry : BasicBlock) (others : List BasicBlock) (ip : Nat) (hb : F.blocks = entry :: others)
    (hip : entry.getFirstInsertionPt = some ip) :
    ∃ body, (finish RB n (instrumented F k)).blocks
        = body ++ (if F.name = "printf_wrapper" then [RB] else []) ∧
      ReturnsInstrumented F body (decide (F.name = "main")) := by
  rw [finish_blocks, instrumented_name]
  refine ⟨_, rfl, ?_⟩
  obtain ⟨e, o, i, slot, h1, h2, h3, h4⟩ := instrumented_shape F k entry others ip hb hip
  refine ⟨e, o, i, slot, h1, h2, h3, ?_⟩
  by_cases hm : F.name = "main"
  · rw [if_pos hm]
    refine forall₂_trans' ?_ h4 (hookReturns_shape _ n)
    rintro B B1 B2 ⟨ha1, ha2⟩ ⟨hb1, hb2⟩
    constructor
    · intro hr
      obtain ⟨hook, hat, hh⟩ := ha1 hr
      have hh1 : hook = [] := by simpa using hh
      subst hh1
      obtain ⟨hn2, init2, term2, m, hi2, ht2, hins2⟩ := hb1 (atReturn_endsInRet hat)
      obtain ⟨hn1, init, term, a, hi, ht, hins⟩ := hat
      rw [hins] at hi2
      have hsplit := List.append_inj' hi2 rfl
      refine ⟨[reportCall m], ⟨hn2.trans hn1, init, term, a, hi, ht, ?_⟩, ?_⟩
      · rw [hins2, ← hsplit.1]
        have : term2 = term := by
          have := hsplit.2; simp at this; exact this.symm
        rw [this]; simp
      · simp [hm]
    · intro hr
      have := ha2 hr
      subst this
      exact hb2 hr
  · rw [if_neg hm]
    refine h4.imp ?_
    rintro B B1 ⟨ha1, ha2⟩
    refine ⟨fun hr => ?_, ha2⟩
    obtain ⟨hook, hat, hh⟩ := ha1 hr
    exact ⟨hook, hat, by simpa [hm] using hh⟩

/-- Every block of a function of the input is kept in the module the pass
returns, with one more report call exactly in the blocks of `main` that end in
a return, where that call stands right before the return. -/
theorem finish_instrumented_keeps (RB : BasicBlock) (n : Nat) (F : Function) (k : Nat) :
    ∃ body, (finish RB n (instrumented F k)).blocks
        = body ++ (if F.name = "printf_wrapper" then [RB] else []) ∧
      List.Forall₂ (fun B B2 => Keeps B B2 ∧
          B2.reportCalls = B.reportCalls
            + (if F.name = "main" ∧ B.endsInRet = true then 1 else 0) ∧
          (F.name = "main" → B.endsInRet = true →
            ∃ pre m term, B2.insts = pre ++ [reportCall m, term] ∧ term.opcode = Opcode.Ret))
        F.blocks body := by
  rw [finish_blocks, instrumented_name]
  refine ⟨_, rfl, ?_⟩
  by_cases hm : F.name = "main"
  · rw [if_pos hm]
    have h2 : List.Forall₂ (fun B B2 => (Keeps B B2 ∧
          B2.reportCalls = B.reportCalls + (if B.endsInRet = true then 1 else 0)) ∧
          ((B.endsInRet = true → B2.name = B.name ∧ ∃ init term m, B.insts = init ++ [term] ∧
            term.opcode = Opcode.Ret ∧ B2.insts = init ++ [reportCall m] ++ [term]) ∧
           (B.endsInRet = false → B2 = B)))
        (instrumented F k).blocks (hookReturns (instrumented F k).blocks n).1 :=
      forall₂_and' (hookReturns_keeps _ n) (hookReturns_shape _ n)
    · refine forall₂_trans' ?_ (instrumented_keeps F k) h2
      rintro B B1 B2 ⟨hk1, hc1⟩ ⟨⟨hk2, hc2⟩, hs, _⟩
      have hr := hk1.endsInRet
      refine ⟨hk1.trans hk2, ?_, ?_⟩
      · rw [hc2, hc1, hr]
        simp [hm]
      · intro _ hB
        obtain ⟨_, init, term, m, _, ht, hins⟩ := hs (hr.trans hB)
        exact ⟨init, m, term, by rw [hins]; simp, ht⟩
  · rw [if_neg hm]
    refine (instrumented_keeps F k).imp ?_
    rintro B B1 ⟨hk1, hc1⟩
    exact ⟨hk1, by simp [hm, hc1], fun h => absurd h hm⟩


theorem forall₂_imp_mem {α β : Type} {R S : α → β → Prop} :
    ∀ {l : List α} {m : List β}, List.Forall₂ R l m →
      (∀ a b, a ∈ l → R a b → S a b) → List.Forall₂ S l m
  | _, _, List.Forall₂.nil, _ => List.Forall₂.nil
  | _, _, List.Forall₂.cons h t, hS =>
    List.Forall₂.cons (hS _ _ (List.mem_cons_self _ _) h)
      (forall₂_imp_mem t (fun a b ha hab => hS a b (List.mem_cons_of_mem _ ha) hab))

theorem entry_of_definition {F : Function} (hd : F.isDeclaration = false)
    (he : F.entryInsertable = true) :
    ∃ entry others ip, F.blocks = entry :: others ∧ entry.getFirstInsertionPt = some ip := by
  cases hb : F.blocks with
  | nil => simp [Function.isDeclaration, hb] at hd
  | cons entry others =>
    cases hip : entry.getFirstInsertionPt with
    | none => simp [Function.entryInsertable, hb, hip] at he
    | some ip => exact ⟨entry, others, ip, rfl, hip⟩

theorem dataLines_reportCalls (fm : StringMap) :
    ∀ (items : List (String × Value)) (n : Nat),
      (dataLines fm items n).countP Instruction.isReportCall = 0
  | [], n => by simp [dataLines]
  | item :: rest, n => by
    unfold dataLines
    rw [List.countP_append, dataLines_reportCalls fm rest (n + 2)]
    simp [dataLine, Instruction.isReportCall, List.countP_cons, Printf, PrintfWrapperF]

theorem reportBody_reportCalls (ord : IterOrder) (cm fm : StringMap) (n : Nat) :
    (reportBody ord cm fm n).countP Instruction.isReportCall = 0 := by
  unfold reportBody
  rw [List.countP_append, List.countP_append, dataLines_reportCalls]
  simp [Instruction.isReportCall, List.countP_cons, Printf, PrintfWrapperF]

theorem reportBlock_reportCalls (ord : IterOrder) (M : Module) :
    (reportBlock ord M).reportCalls = 0 :=
  reportBody_reportCalls ord _ _ _

theorem sum_reportCalls_of_forall₂ {l m : List BasicBlock}
    (h : List.Forall₂ (fun B B2 => B2.reportCalls = B.reportCalls) l m) :
    (m.map BasicBlock.reportCalls).sum = (l.map BasicBlock.reportCalls).sum := by
  induction h with
  | nil => rfl
  | cons hab _ ih => simp [hab, ih]

theorem finish_of_declaration (RB : BasicBlock) (n : Nat) (F : Function)
    (hd : F.isDeclaration = true) (h1 : F.name ≠ "printf") (h2 : F.name ≠ "printf_wrapper") :
    finish RB n F = F := by
  have hb : F.blocks = [] := by
    cases hb : F.blocks with
    | nil => rfl
    | cons a t => simp [Function.isDeclaration, hb] at hd
  unfold finish
  simp only [if_neg h1, if_neg h2]
  by_cases h3 : F.name = "main"
  · rw [if_pos h3]
    obtain ⟨name, ty, attrs, blocks⟩ := F
    simp only at hb
    subst hb
    rfl
  · rw [if_neg h3]


/-! ## What the maps hold -/

theorem perFunctionLoop_counters (M : Module) :
    ∀ e ∈ (perFunctionLoop M).state.CallCounterMap,
      e.2 = counterVar e.1 ∧
      ∃ g ∈ (perFunctionLoop M).state.globals, g.gid = GlobalId.named (counterName e.1) ∧
        g.linkage = Linkage.Common ∧ g.init = some (Init.fp 0) := by
  unfold perFunctionLoop
  apply forEachFunction_invariant ((declareClock M).functions.map Function.name)
    (fun s => ∀ e ∈ s.CallCounterMap, e.2 = counterVar e.1 ∧
      ∃ g ∈ s.globals, g.gid = GlobalId.named (counterName e.1) ∧
        g.linkage = Linkage.Common ∧ g.init = some (Init.fp 0))
  · intro F s F1 s1 hv hP e he
    obtain ⟨_, gs1, hc, hg, hm, _⟩ := visitFunction_spec hv
    obtain ⟨_, ⟨g0, hg0, hgid0, hl0, _, hi0⟩, hkeep, _⟩ := CreateGlobalCounter_spec hc
    rw [hm] at he
    rw [hg]
    rcases StringMap.mem_set he with h1 | h1
    · subst h1
      exact ⟨rfl, g0, List.mem_append_left _ hg0, hgid0, hl0, hi0⟩
    · obtain ⟨hval, g, hgm, hgid, hl, hi⟩ := hP e h1
      refine ⟨hval, ?_⟩
      by_cases hsame : counterName e.1 = counterName F.name
      · exact ⟨g0, List.mem_append_left _ hg0, by rw [hsame]; exact hgid0, hl0, hi0⟩
      · refine ⟨g, List.mem_append_left _ (hkeep g hgm ?_), hgid, hl, hi⟩
        rw [hgid]
        intro hcontra
        exact hsame (GlobalId.named.inj hcontra)
  · intro e he
    simp at he

theorem perFunctionLoop_nameConstants (M : Module) :
    ∀ e ∈ (perFunctionLoop M).state.FuncNameMap,
      ∃ id, e.2 = Value.global (GlobalId.anon id) ∧
        globalString id e.1 ∈ (perFunctionLoop M).state.globals := by
  unfold perFunctionLoop
  apply forEachFunction_invariant ((declareClock M).functions.map Function.name)
    (fun s => ∀ e ∈ s.FuncNameMap, ∃ id, e.2 = Value.global (GlobalId.anon id) ∧
      globalString id e.1 ∈ s.globals)
  · intro F s F1 s1 hv hP e he
    obtain ⟨_, gs1, hc, hg, _, hm, _⟩ := visitFunction_spec hv
    obtain ⟨_, _, hkeep, _⟩ := CreateGlobalCounter_spec hc
    rw [hm] at he
    rw [hg]
    rcases StringMap.mem_set he with h1 | h1
    · subst h1
      exact ⟨s.nextId, rfl, List.mem_append_right _ (List.mem_singleton.mpr rfl)⟩
    · obtain ⟨id, hval, hmem⟩ := hP e h1
      refine ⟨id, hval, List.mem_append_left _ (hkeep _ hmem ?_)⟩
      simp [globalString]
  · intro e he
    simp at he

/-- The instructions of the loop of lines 163-168, one pair per entry. -/
theorem dataLines_eq_join (fm : StringMap) :
    ∀ (items : List (String × Value)) (n : Nat),
      ∃ lines : List (List Instruction), dataLines fm items n = lines.flatten ∧
        List.Forall₂ (fun item line => ∃ m, line = dataLine fm item m) items lines
  | [], n => ⟨[], by simp [dataLines], List.Forall₂.nil⟩
  | item :: rest, n => by
    obtain ⟨lines, h1, h2⟩ := dataLines_eq_join fm rest (n + 2)
    refine ⟨dataLine fm item n :: lines, ?_, List.Forall₂.cons ⟨n, rfl⟩ h2⟩
    unfold dataLines
    rw [h1]; simp

theorem forall₂_mem_left {α β : Type} {R : α → β → Prop} :
    ∀ {l : List α} {m : List β}, List.Forall₂ R l m → ∀ a ∈ l, ∃ b ∈ m, R a b
  | _, _, List.Forall₂.nil, a, ha => by simp at ha
  | _, _, List.Forall₂.cons h t, a, ha => by
    rcases List.mem_cons.mp ha with h1 | h1
    · exact ⟨_, List.mem_cons_self _ _, h1 ▸ h⟩
    · obtain ⟨b, hb, hab⟩ := forall₂_mem_left t a h1
      exact ⟨b, List.mem_cons_of_mem _ hb, hab⟩

theorem perFunctionLoop_keys_eq (M : Module) :
    (perFunctionLoop M).state.CallCounterMap.keys = (perFunctionLoop M).state.FuncNameMap.keys :=
  forEachFunction_keys_eq _ _ _ rfl

theorem perFunctionLoop_keys_mem (M : Module) (h : LoopSafe M) (k : String) :
    k ∈ (perFunctionLoop M).state.CallCounterMap.keys ↔
      ∃ F ∈ M.functions, F.isDeclaration = false ∧ F.name = k := by
  have h1 := forEachFunction_keys_mem _ _ _ (perFunctionLoop_completed M h) k
  have h2 : k ∈ (perFunctionLoop M).state.CallCounterMap.keys
      ↔ k ∈ definedNames (declareClock M).functions := by
    unfold perFunctionLoop
    rw [h1]
    simp [StringMap.keys]
  rw [h2, declareClock_definedNames]
  unfold definedNames
  simp only [List.mem_map, List.mem_filter, Bool.not_eq_true', and_assoc]

theorem perFunctionLoop_keys (M : Module) (h : LoopSafe M)
    (hnd : (M.functions.map Function.name).Nodup) :
    (perFunctionLoop M).state.CallCounterMap.keys = definedNames M.functions := by
  have h1 := forEachFunction_keys _ _ _ (perFunctionLoop_completed M h)
    (declareClock_nodup M hnd) (by intro F _; simp [StringMap.keys])
  unfold perFunctionLoop
  rw [h1, declareClock_definedNames]
  simp [StringMap.keys]

theorem perFunctionLoop_length (M : Module) (h : LoopSafe M)
    (hnd : (M.functions.map Function.name).Nodup) :
    (perFunctionLoop M).state.CallCounterMap.length
      = (M.functions.filter (fun F => !F.isDeclaration)).length := by
  have := congrArg List.length (perFunctionLoop_keys M h hnd)
  simpa [StringMap.keys, definedNames] using this

theorem hasFunction_newDeclarations (M : Module) :
    hasFunction (M.functions ++ newDeclarations M) "printf_wrapper" = true := by
  unfold newDeclarations
  rw [hasFunction_append, hasFunction_append]
  by_cases hw : hasFunction M.functions "printf_wrapper" = true
  · rw [hw]; rfl
  · rw [declareIfMissing_of_not _ hw, hasFunction_singleton]
    simp


/-! ## The pass on its own output -/

theorem insertBefore_firstInsertionPt (B : BasicBlock) (J : Instruction)
    (new : List Instruction) (k idx : Nat) (hJ1 : J.opcode ≠ Opcode.PHI)
    (hJ2 : J.opcode.isEHPad = false) (hk : B.getFirstInsertionPt = some k) (hle : k ≤ idx) :
    (B.insertBefore idx (J :: new)).getFirstInsertionPt = some k :=
  firstInsertionIdx_insert J new hJ1 hJ2 B.insts k idx hk hle

theorem insertBefore_last_firstInsertionPt (B : BasicBlock) (J : Instruction)
    (new : List Instruction) (k : Nat) (hJ1 : J.opcode ≠ Opcode.PHI)
    (hJ2 : J.opcode.isEHPad = false) (hk : B.getFirstInsertionPt = some k) :
    (B.insertBefore (B.insts.length - 1) (J :: new)).getFirstInsertionPt = some k := by
  apply insertBefore_firstInsertionPt B J new k _ hJ1 hJ2 hk
  have := firstInsertionIdx_lt _ _ hk
  omega

theorem accumSeq_eq_cons (slot : Nat) (Var : Value) (n : Nat) :
    ∃ J new, accumSeq slot Var n = J :: new ∧ J.opcode ≠ Opcode.PHI ∧
      J.opcode.isEHPad = false :=
  ⟨_, _, rfl, by simp, rfl⟩

theorem instrumented_entryInsertable (F : Function) (k : Nat) (h : F.entryInsertable = true) :
    (instrumented F k).entryInsertable = true := by
  cases hb : F.blocks with
  | nil => rw [instrumented_of_declaration F k (by simp [Function.isDeclaration, hb])]; exact h
  | cons entry others =>
    cases hip : entry.getFirstInsertionPt with
    | none => simp [Function.entryInsertable, hb, hip] at h
    | some ip =>
      have h1 : (entry.insertBefore ip (entrySeq (k + 1))).getFirstInsertionPt = some ip :=
        insertBefore_firstInsertionPt entry ⟨k + 1, Opcode.Alloca, Ty.Int64, []⟩ _ ip ip
          (by simp) rfl hip (le_refl _)
      have h2 := instrumentReturns_forall₂ (k + 1) (counterVar F.name)
        (entry.insertBefore ip (entrySeq (k + 1)) :: others) (k + 4)
      rw [← instrumented_blocks F k entry others ip hb hip] at h2
      unfold Function.entryInsertable
      generalize (instrumented F k).blocks = out at h2
      cases h2 with
      | cons hh _ =>
        simp only
        rcases hh with ⟨_, m, hm⟩ | ⟨_, hm⟩
        · obtain ⟨J, new, he, hJ1, hJ2⟩ := accumSeq_eq_cons (k + 1) (counterVar F.name) m
          rw [hm, he, insertBefore_last_firstInsertionPt _ J new ip hJ1 hJ2 h1]
          rfl
        · rw [hm, h1]; rfl

theorem reportBlock_firstInsertionPt (ord : IterOrder) (M : Module) :
    (reportBlock ord M).getFirstInsertionPt = some 0 := by
  unfold reportBlock reportBody BasicBlock.getFirstInsertionPt
  simp [firstInsertionIdx, Opcode.isEHPad]

theorem finish_entryInsertable (RB : BasicBlock) (n : Nat) (F : Function)
    (hRB : RB.getFirstInsertionPt = some 0) (h : F.entryInsertable = true) :
    (finish RB n F).entryInsertable = true := by
  unfold Function.entryInsertable
  rw [finish_blocks]
  cases hb : F.blocks with
  | nil =>
    have h0 : (hookReturns ([] : List BasicBlock) n).1 = [] := rfl
    by_cases hw : F.name = "printf_wrapper"
    · simp [hw, h0, hRB]
    · simp [hw, h0]
  | cons entry others =>
    cases hip : entry.getFirstInsertionPt with
    | none => simp [Function.entryInsertable, hb, hip] at h
    | some ip =>
      by_cases hm : F.name = "main"
      · rw [if_pos hm]
        have h2 := hookReturns_forall₂ (entry :: others) n
        generalize (hookReturns (entry :: others) n).1 = out at h2
        cases h2 with
        | cons hh _ =>
          simp only [List.cons_append]
          rcases hh with ⟨_, m, hm1⟩ | ⟨_, hm1⟩
          · rw [hm1, insertBefore_last_firstInsertionPt _ (reportCall m) [] ip
              (by simp [reportCall]) rfl hip]
            rfl
          · rw [hm1, hip]; rfl
      · rw [if_neg hm]
        simp [hip]

theorem newDeclarations_names (M : Module) :
    ∀ F ∈ newDeclarations M, F.blocks = [] ∧
      (F.name = "clock" ∨ F.name = "printf" ∨ F.name = "printf_wrapper") := by
  intro F hF
  unfold newDeclarations at hF
  rcases List.mem_append.mp hF with h | h
  · rcases List.mem_append.mp h with h | h
    · by_cases hg : hasGlobal M.globals "clock" = true
      · rw [if_pos hg] at h; simp at h
      · rw [if_neg hg] at h
        rw [mem_declareIfMissing h]
        exact ⟨rfl, Or.inl rfl⟩
    · rw [mem_declareIfMissing h]
      exact ⟨rfl, Or.inr (Or.inl rfl)⟩
  · rw [mem_declareIfMissing h]
    exact ⟨rfl, Or.inr (Or.inr rfl)⟩

theorem newDeclarations_nodup (M : Module) (h : (M.functions.map Function.name).Nodup) :
    ((M.functions ++ newDeclarations M).map Function.name).Nodup := by
  rw [newDeclarations_eq]
  have h0 := declareClock_nodup M h
  have h1 := declareIfMissing_nodup _ "printf" PrintfTy h0
  rw [declareIfMissing_congr M.functions "printf" PrintfTy
    (hasFunction_declareClock M _ (by decide))] at h1
  have h2 := declareIfMissing_nodup _ "printf_wrapper" PrintfWrapperTy h1
  rw [declareIfMissing_congr M.functions "printf_wrapper" PrintfWrapperTy (by
    rw [hasFunction_append, hasFunction_declareClock M _ (by decide)]
    by_cases hp : hasFunction M.functions "printf" = true
    · rw [declareIfMissing_of_has _ hp]; simp [hasFunction]
    · rw [declareIfMissing_of_not _ hp, hasFunction_singleton]
      simp)] at h2
  exact h2

theorem forall₂_finish_names {RB : BasicBlock} {n : Nat} {fs out : List Function}
    (h : List.Forall₂ (fun F F2 => ∃ k, F2 = finish RB n (instrumented F k)) fs out) :
    out.map Function.name = fs.map Function.name := by
  induction h with
  | nil => rfl
  | cons hab _ ih =>
    obtain ⟨k, hk⟩ := hab
    simp [hk, finish_name, instrumented_name, ih]


theorem mem_append_newDeclarations {M : Module} {F : Function}
    (h : F ∈ M.functions ++ newDeclarations M) :
    F ∈ M.functions ∨ (F.blocks = [] ∧
      (F.name = "clock" ∨ F.name = "printf" ∨ F.name = "printf_wrapper")) := by
  rcases List.mem_append.mp h with h1 | h1
  · exact Or.inl h1
  · exact Or.inr (newDeclarations_names M F h1)

theorem hasFunction_append_newDeclarations (M : Module) (n : String) (h1 : n ≠ "clock")
    (h2 : n ≠ "printf") (h3 : n ≠ "printf_wrapper") :
    hasFunction (M.functions ++ newDeclarations M) n = hasFunction M.functions n := by
  rw [Bool.eq_iff_iff, hasFunction_iff, hasFunction_iff, List.map_append, List.mem_append]
  constructor
  · rintro (h | h)
    · exact h
    · obtain ⟨F, hF, hn⟩ := List.mem_map.mp h
      rcases (newDeclarations_names M F hF).2 with e | e | e
      · exact absurd (hn ▸ e) h1
      · exact absurd (hn ▸ e) h2
      · exact absurd (hn ▸ e) h3
  · exact Or.inl

/-- The module the pass returns on a supported module is supported again, has
the function `main` and has a definition. -/
theorem runOnModule_supported (ord : IterOrder) (M : Module) (hS : Supported M)
    (hmain : hasFunction M.functions "main" = true)
    (hdef : ∃ F ∈ M.functions, F.isDeclaration = false) :
    ∃ Mout, runOnModule ord M = Result.returned true Mout ∧
      List.Forall₂ (fun F F2 => ∃ k, F2 = finish (reportBlock ord M) (hookStart M)
        (instrumented F k)) (M.functions ++ newDeclarations M) Mout.functions ∧
      Supported Mout ∧ hasFunction Mout.functions "main" = true ∧
      ∃ F ∈ Mout.functions, F.isDeclaration = false := by
  obtain ⟨Mout, hr, h1, ⟨fnNames, gs4, h4, h5⟩, _⟩ := runOnModule_returns ord M hS hmain hdef
  have hn := forall₂_finish_names h1
  have hglob : ∀ n, n ≠ "ResultFormatStrIR" → n ≠ "ResultHeaderStrIR" →
      isCounterName n = false → hasGlobal Mout.globals n = hasGlobal M.globals n := by
    intro n hn1 hn2 hn3
    rw [(insertStringGlobal_spec h5).2.2 n hn2, (insertStringGlobal_spec h4).2.2 n hn1,
      perFunctionLoop_hasGlobal M n hn3]
  refine ⟨Mout, hr, h1, ⟨⟨?_, ?_⟩, ?_, ?_, ?_, ?_, ?_⟩, ?_, ?_⟩
  · intro F2 hF2
    obtain ⟨F, hF, k, hk⟩ := forall₂_mem_right h1 F2 hF2
    rw [hk]
    apply finish_entryInsertable _ _ _ (reportBlock_firstInsertionPt ord M)
    apply instrumented_entryInsertable
    rcases mem_append_newDeclarations hF with h | ⟨hb, _⟩
    · exact hS.entry F h
    · unfold Function.entryInsertable; rw [hb]
  · intro F2 hF2
    obtain ⟨F, hF, k, hk⟩ := forall₂_mem_right h1 F2 hF2
    rw [hk, finish_name, instrumented_name]
    rcases mem_append_newDeclarations hF with h | ⟨_, e | e | e⟩
    · exact hS.counter F h
    · rw [e]; decide
    · rw [e]; decide
    · rw [e]; decide
  · rw [hn]; exact newDeclarations_nodup M hS.names
  · rw [hglob _ (by decide) (by decide) (by decide)]; exact hS.printfFree
  · rw [hglob _ (by decide) (by decide) (by decide)]; exact hS.wrapperFree
  · rw [hasFunction_congr _ hn,
      hasFunction_append_newDeclarations M _ (by decide) (by decide) (by decide)]
    exact hS.formatFree
  · rw [hasFunction_congr _ hn,
      hasFunction_append_newDeclarations M _ (by decide) (by decide) (by decide)]
    exact hS.headerFree
  · rw [hasFunction_congr _ hn,
      hasFunction_append_newDeclarations M _ (by decide) (by decide) (by decide)]
    exact hmain
  · obtain ⟨F, hF, hFn⟩ := List.mem_map.mp
      ((hasFunction_iff _ _).mp (hasFunction_newDeclarations M))
    obtain ⟨W, hW, k, hk⟩ := forall₂_mem_left h1 F hF
    refine ⟨W, hW, ?_⟩
    obtain ⟨body, hbody, _⟩ := finish_instrumented_keeps (reportBlock ord M) (hookStart M) F k
    unfold Function.isDeclaration
    rw [hk, hbody, if_pos hFn]
    simp


/-- The module a run returns, characterised from the run. -/
theorem runOnModule_spec (ord : IterOrder) (M : Module) (hS : Supported M)
    (hmain : hasFunction M.functions "main" = true)
    (hdef : ∃ F ∈ M.functions, F.isDeclaration = false)
    (Mout : Module) (hr : runOnModule ord M = Result.returned true Mout) :
    List.Forall₂ (fun F F2 => ∃ k, F2 = finish (reportBlock ord M) (hookStart M)
        (instrumented F k)) (M.functions ++ newDeclarations M) Mout.functions ∧
      Supported Mout ∧ hasFunction Mout.functions "main" = true ∧
      ∃ F ∈ Mout.functions, F.isDeclaration = false := by
  obtain ⟨Mout1, hr1, h⟩ := runOnModule_supported ord M hS hmain hdef
  rw [hr] at hr1
  have : Mout = Mout1 := by
    injection hr1
  subst this
  exact h

/-- Functions of the same name in a list with unique names are equal. -/
theorem eq_of_name_eq {fs : List Function} (hnd : (fs.map Function.name).Nodup)
    {F G : Function} (hF : F ∈ fs) (hG : G ∈ fs) (h : F.name = G.name) : F = G := by
  have h1 := getFunction_eq_some_of_mem hnd hF
  have h2 := getFunction_eq_some_of_mem hnd hG
  rw [h, h2] at h1
  exact (Option.some.inj h1).symm

/-- The blocks of a function of the input in the module a run returns. -/
theorem runOnModule_blocks (ord : IterOrder) (M : Module) (hS : Supported M)
    (hmain : hasFunction M.functions "main" = true)
    (hdef : ∃ F ∈ M.functions, F.isDeclaration = false)
    (Mout : Module) (hr : runOnModule ord M = Result.returned true Mout)
    (F : Function) (hF : F ∈ M.functions ++ newDeclarations M) :
    ∃ F2 ∈ Mout.functions, F2.name = F.name ∧
      ∃ body, F2.blocks
          = body ++ (if F.name = "printf_wrapper" then [reportBlock ord M] else []) ∧
        List.Forall₂ (fun B B2 => Keeps B B2 ∧
            B2.reportCalls = B.reportCalls
              + (if F.name = "main" ∧ B.endsInRet = true then 1 else 0))
          F.blocks body := by
  obtain ⟨h1, _⟩ := runOnModule_spec ord M hS hmain hdef Mout hr
  obtain ⟨F2, hF2, k, hk⟩ := forall₂_mem_left h1 F hF
  obtain ⟨body, hbody, hf⟩ := finish_instrumented_keeps (reportBlock ord M) (hookStart M) F k
  refine ⟨F2, hF2, by rw [hk, finish_name, instrumented_name], body, by rw [hk, hbody], ?_⟩
  exact hf.imp (fun _ _ h => ⟨h.1, h.2.1⟩)


/-! ## Claims -/

/-- C3.  On a module that is safe for the loop of STEP 1 the loop runs to its
end, and then the accumulator map `CallCounterMap` and the name-constant map
`FuncNameMap` have the same keys, which are exactly the names of the function
definitions (a declaration gives no key).  Every entry of `CallCounterMap` is
the accumulator `TimeFor_` + key, a global initialised to 0, and every entry
of `FuncNameMap` is a private string constant that holds the key.  When
function names are unique the keys are the names of the definitions in order,
so that both maps have as many entries as the module has function
definitions. -/
theorem C3_maps_hold_the_defined_functions (M : Module) (h : LoopSafe M) :
    (perFunctionLoop M).completed = true ∧
    (perFunctionLoop M).state.CallCounterMap.keys = (perFunctionLoop M).state.FuncNameMap.keys ∧
    (∀ k, k ∈ (perFunctionLoop M).state.CallCounterMap.keys ↔
      ∃ F ∈ M.functions, F.isDeclaration = false ∧ F.name = k) ∧
    (∀ e ∈ (perFunctionLoop M).state.CallCounterMap,
      e.2 = Value.global (GlobalId.named ("TimeFor_" ++ e.1)) ∧
      ∃ g ∈ (perFunctionLoop M).state.globals, g.gid = GlobalId.named ("TimeFor_" ++ e.1) ∧
        g.linkage = Linkage.Common ∧ g.init = some (Init.fp 0)) ∧
    (∀ e ∈ (perFunctionLoop M).state.FuncNameMap,
      ∃ id, e.2 = Value.global (GlobalId.anon id) ∧
        globalString id e.1 ∈ (perFunctionLoop M).state.globals) ∧
    ((M.functions.map Function.name).Nodup →
      (perFunctionLoop M).state.CallCounterMap.keys = definedNames M.functions ∧
      (perFunctionLoop M).state.CallCounterMap.length
        = (M.functions.filter (fun F => !F.isDeclaration)).length ∧
      (perFunctionLoop M).state.FuncNameMap.length
        = (M.functions.filter (fun F => !F.isDeclaration)).length) := by
  refine ⟨perFunctionLoop_completed M h, perFunctionLoop_keys_eq M,
    perFunctionLoop_keys_mem M h, perFunctionLoop_counters M, perFunctionLoop_nameConstants M,
    fun hnd => ⟨perFunctionLoop_keys M h hnd, perFunctionLoop_length M h hnd, ?_⟩⟩
  have := congrArg List.length (perFunctionLoop_keys_eq M)
  simp only [StringMap.keys, List.length_map] at this
  rw [← this, perFunctionLoop_length M h hnd]

theorem C3_witness :
    LoopSafe demo ∧ (perFunctionLoop demo).state.CallCounterMap.keys = ["foo", "main"] :=
  ⟨⟨by decide, by decide⟩,
    ((C3_maps_hold_the_defined_functions demo ⟨by decide, by decide⟩).2.2.2.2.2 (by decide)).1⟩

/-- C6.  On the program `demoDeclarations`, which has a declaration and no
definition, the pass returns `false` and leaves a module that is not the
input: the declaration of `clock` has been added. -/
theorem C6_clock_is_declared_without_definitions :
    runOnModule IterOrder.insertion demoDeclarations
      = Result.returned false
          ⟨[], [⟨"puts", ⟨Ty.Int32, [Ty.Ptr], false⟩, [], []⟩, ⟨"clock", ClockTy, [], []⟩], 0⟩ ∧
    (⟨[], [⟨"puts", ⟨Ty.Int32, [Ty.Ptr], false⟩, [], []⟩, ⟨"clock", ClockTy, [], []⟩], 0⟩ : Module)
      ≠ demoDeclarations := by
  constructor
  · rfl
  · decide

/-- C7.  On the program `demoNoMain`, which defines `foo` and has no `main`,
the pass ends in the null dereference of line 174, with the module in memory
already rewritten: it holds the accumulator of `foo` and the report routine,
and `foo` is no more the function of the input. -/
theorem C7_missing_main_crashes_after_rewriting :
    ∃ Mmem, runOnModule IterOrder.insertion demoNoMain = Result.crashed Mmem ∧
      hasGlobal Mmem.globals "TimeFor_foo" = true ∧
      hasFunction Mmem.functions "printf_wrapper" = true ∧
      demoFoo ∉ Mmem.functions := by
  refine ⟨_, rfl, ?_, ?_, ?_⟩ <;> decide


/-- C1.  On a module that is safe for the loop of STEP 1, the loop (lines
47-87) runs to its end and leaves every declaration as it was and every
definition `F` with, in each block that ends in a return, exactly one
accumulation sequence (load of the timer slot, call of `clock`, subtraction,
conversion, division by 1000000.0, load of the accumulator of `F`, addition,
store to the accumulator of `F`) between the instructions before the return
and the return, and with every other block unchanged, the entry sequence in
the entry block apart.  In the module the whole pass returns this is still
so, except that in `main` the report call stands between the sequence and the
return, and that a function `printf_wrapper` has the block `enter` behind its
blocks. -/
theorem C1_one_accumulation_sequence_per_return (M : Module) (hL : LoopSafe M) :
    (perFunctionLoop M).completed = true ∧
    (∃ fs1 added, (perFunctionLoop M).functions = fs1 ++ added ∧
      List.Forall₂ (fun F F1 => F1.name = F.name ∧
          (F.isDeclaration = true → F1 = F) ∧
          (F.isDeclaration = false → ReturnsInstrumented F F1.blocks false))
        M.functions fs1) ∧
    (∀ ord, Supported M → hasFunction M.functions "main" = true →
      (∃ F ∈ M.functions, F.isDeclaration = false) →
      ∃ Mout fs2 added, runOnModule ord M = Result.returned true Mout ∧
        Mout.functions = fs2 ++ added ∧
        List.Forall₂ (fun F F2 => F2.name = F.name ∧
            (F.isDeclaration = false →
              ∃ body, F2.blocks
                  = body ++ (if F.name = "printf_wrapper" then [reportBlock ord M] else []) ∧
                ReturnsInstrumented F body (decide (F.name = "main"))))
          M.functions fs2) := by
  refine ⟨perFunctionLoop_completed M hL, ?_, ?_⟩
  · have h1 := perFunctionLoop_functions M hL
    rw [(declareClock_functions M).1] at h1
    obtain ⟨fs1, added, he, h2, _⟩ := forall₂_split _ _ _ h1
    refine ⟨fs1, added, he, forall₂_imp_mem h2 ?_⟩
    rintro F F1 hF ⟨k, hk⟩
    subst hk
    refine ⟨instrumented_name F k, fun hd => instrumented_of_declaration F k hd, fun hd => ?_⟩
    obtain ⟨entry, others, ip, hb, hip⟩ := entry_of_definition hd (hL.entry F hF)
    exact instrumented_shape F k entry others ip hb hip
  · intro ord hS hmain hdef
    obtain ⟨Mout, hr, h1, _⟩ := runOnModule_returns ord M hS hmain hdef
    obtain ⟨fs2, added, he, h2, _⟩ := forall₂_split _ _ _ h1
    refine ⟨Mout, fs2, added, hr, he, forall₂_imp_mem h2 ?_⟩
    rintro F F2 hF ⟨k, hk⟩
    subst hk
    refine ⟨by rw [finish_name, instrumented_name], fun hd => ?_⟩
    obtain ⟨entry, others, ip, hb, hip⟩ := entry_of_definition hd (hL.entry F hF)
    exact finish_instrumented_shape _ _ F k entry others ip hb hip

theorem C1_witness : LoopSafe demo ∧ (perFunctionLoop demo).completed = true :=
  ⟨⟨by decide, by decide⟩,
    (C1_one_accumulation_sequence_per_return demo ⟨by decide, by decide⟩).1⟩

/-- C2.  On a supported module with a definition `main` the pass returns
`true`, and in the module it returns: every block of `main` that ends in a
return holds exactly one report call more than in the input, and that call
stands right before the return; every other block of `main` holds as many
report calls as in the input; every other function, among them the
declarations the pass adds and the report routine, holds as many report calls
as in the input (none when it is new). -/
theorem C2_report_call_before_every_return_of_main (ord : IterOrder) (M : Module)
    (hS : Supported M)
    (hmain : ∃ F ∈ M.functions, F.name = "main" ∧ F.isDeclaration = false) :
    ∃ Mout, runOnModule ord M = Result.returned true Mout ∧
      List.Forall₂ (fun F F2 => F2.name = F.name ∧
          (F.name = "main" →
            List.Forall₂ (fun B B2 =>
                (B.endsInRet = true → B2.reportCalls = B.reportCalls + 1 ∧
                  ∃ pre m term, B2.insts = pre ++ [reportCall m, term] ∧
                    term.opcode = Opcode.Ret) ∧
                (B.endsInRet = false → B2.reportCalls = B.reportCalls))
              F.blocks F2.blocks) ∧
          (F.name ≠ "main" → F2.reportCalls = F.reportCalls))
        (M.functions ++ newDeclarations M) Mout.functions := by
  obtain ⟨Fm, hFm, hn, hd⟩ := hmain
  obtain ⟨Mout, hr, h1, _⟩ := runOnModule_returns ord M hS
    ((hasFunction_iff _ _).mpr (hn ▸ List.mem_map_of_mem _ hFm)) ⟨Fm, hFm, hd⟩
  refine ⟨Mout, hr, h1.imp ?_⟩
  rintro F F2 ⟨k, hk⟩
  subst hk
  obtain ⟨body, hbody, hf⟩ := finish_instrumented_keeps (reportBlock ord M) (hookStart M) F k
  refine ⟨by rw [finish_name, instrumented_name], fun hm => ?_, fun hm => ?_⟩
  · have hw : ¬ F.name = "printf_wrapper" := by rw [hm]; decide
    rw [hbody, if_neg hw, List.append_nil]
    refine hf.imp ?_
    rintro B B2 ⟨_, hc, hp⟩
    refine ⟨fun hB => ⟨by rw [hc]; simp [hm, hB], hp hm hB⟩, fun hB => by rw [hc]; simp [hB]⟩
  · unfold Function.reportCalls
    rw [hbody, List.map_append, List.sum_append]
    have h2 : (body.map BasicBlock.reportCalls).sum = (F.blocks.map BasicBlock.reportCalls).sum :=
      sum_reportCalls_of_forall₂ (hf.imp (fun B B2 h => by rw [h.2.1]; simp [hm]))
    rw [h2]
    by_cases hw : F.name = "printf_wrapper"
    · rw [if_pos hw]
      simp [reportBlock_reportCalls]
    · rw [if_neg hw]; simp

theorem C2_witness :
    Supported demo ∧ (∃ F ∈ demo.functions, F.name = "main" ∧ F.isDeclaration = false) ∧
    ∃ Mout, runOnModule IterOrder.insertion demo = Result.returned true Mout ∧
      List.Forall₂ (fun F F2 => F2.name = F.name ∧
          (F.name = "main" →
            List.Forall₂ (fun B B2 =>
                (B.endsInRet = true → B2.reportCalls = B.reportCalls + 1 ∧
                  ∃ pre m term, B2.insts = pre ++ [reportCall m, term] ∧
                    term.opcode = Opcode.Ret) ∧
                (B.endsInRet = false → B2.reportCalls = B.reportCalls))
              F.blocks F2.blocks) ∧
          (F.name ≠ "main" → F2.reportCalls = F.reportCalls))
        (demo.functions ++ newDeclarations demo) Mout.functions :=
  ⟨⟨⟨by decide, by decide⟩, by decide, by decide, by decide, by decide, by decide⟩,
    ⟨demoMain, by decide, by decide, by decide⟩,
    C2_report_call_before_every_return_of_main IterOrder.insertion demo
      ⟨⟨by decide, by decide⟩, by decide, by decide, by decide, by decide, by decide⟩
      ⟨demoMain, by decide, by decide, by decide⟩⟩


/-- C5, the claim as it stands fails: a declaration of `printf` without
attributes is in the input `demoPrintf`, and the pass returns a module in which
the function `printf` has the attributes `nounwind`, `nocapture` and
`readonly`. -/
theorem C5_counterexample :
    (⟨"printf", PrintfTy, [], []⟩ : Function) ∈ demoPrintf.functions ∧
    (runOnModule IterOrder.insertion demoPrintf).module?.map
        (fun Mout => Mout.functions.filter (fun F => F.name == "printf"))
      = some [⟨"printf", PrintfTy,
          [Attr.fn AttrKind.NoUnwind, Attr.param 0 AttrKind.NoCapture,
            Attr.param 0 AttrKind.ReadOnly], []⟩] := by
  constructor <;> decide

/-- C5, amended.  On a supported module with a function `main` and some
definition the pass returns `true`, and the function list it returns starts
with the functions of the input, in order, each under its name and type, and
with its attributes unless it is `printf`.  The blocks of each are the blocks
of the input in order, each kept (same name, same last instruction, the
original instructions a subsequence of the new ones), followed for
`printf_wrapper` alone by the block `enter`.  A declaration that is neither
`printf` nor `printf_wrapper` is returned unchanged. -/
theorem C5_blocks_and_terminators_are_kept (ord : IterOrder) (M : Module) (hS : Supported M)
    (hmain : hasFunction M.functions "main" = true)
    (hdef : ∃ F ∈ M.functions, F.isDeclaration = false) :
    ∃ Mout fs2 added, runOnModule ord M = Result.returned true Mout ∧
      Mout.functions = fs2 ++ added ∧
      List.Forall₂ (fun F F2 => F2.name = F.name ∧ F2.ty = F.ty ∧
          (F.name ≠ "printf" → F2.attrs = F.attrs) ∧
          (∃ body, F2.blocks
              = body ++ (if F.name = "printf_wrapper" then [reportBlock ord M] else []) ∧
            List.Forall₂ Keeps F.blocks body) ∧
          (F.isDeclaration = true → F.name ≠ "printf" → F.name ≠ "printf_wrapper" → F2 = F))
        M.functions fs2 := by
  obtain ⟨Mout, hr, h1, _⟩ := runOnModule_returns ord M hS hmain hdef
  obtain ⟨fs2, added, he, h2, _⟩ := forall₂_split _ _ _ h1
  refine ⟨Mout, fs2, added, hr, he, h2.imp ?_⟩
  rintro F F2 ⟨k, hk⟩
  subst hk
  obtain ⟨body, hbody, hf⟩ := finish_instrumented_keeps (reportBlock ord M) (hookStart M) F k
  refine ⟨by rw [finish_name, instrumented_name], by rw [finish_ty, instrumented_ty],
    fun hp => ?_, ⟨body, hbody, hf.imp (fun _ _ h => h.1)⟩, fun hd hp hw => ?_⟩
  · rw [finish_attrs _ _ _ (by rw [instrumented_name]; exact hp), instrumented_attrs]
  · rw [instrumented_of_declaration F k hd]
    exact finish_of_declaration _ _ F hd hp hw

theorem C5_witness :
    Supported demo ∧ hasFunction demo.functions "main" = true ∧
    (∃ F ∈ demo.functions, F.isDeclaration = false) ∧
    ∃ Mout, runOnModule IterOrder.insertion demo = Result.returned true Mout :=
  ⟨⟨⟨by decide, by decide⟩, by decide, by decide, by decide, by decide, by decide⟩,
    by decide, ⟨demoMain, by decide, by decide⟩,
    match C5_blocks_and_terminators_are_kept IterOrder.insertion demo
      ⟨⟨by decide, by decide⟩, by decide, by decide, by decide, by decide, by decide⟩
      (by decide) ⟨demoMain, by decide, by decide⟩ with
    | ⟨Mout, _, _, hr, _⟩ => ⟨Mout, hr⟩⟩

/-- C8, the claim as it stands fails: on the input `demoWrapper`, which defines
`main` and a function `printf_wrapper`, the only functions of the returned
module that are not in the input are the declarations of `clock` and `printf`;
no routine is synthesized, the function `printf_wrapper` of the input gets a
second block. -/
theorem C8_counterexample :
    (runOnModule IterOrder.insertion demoWrapper).module?.map
        (fun Mout => (Mout.functions.filter (fun F =>
          !(demoWrapper.functions.map Function.name).contains F.name)).map Function.name)
      = some ["clock", "printf"] ∧
    (runOnModule IterOrder.insertion demoWrapper).module?.map
        (fun Mout => (Mout.functions.filter (fun F => F.name == "printf_wrapper")).map
          (fun F => F.blocks.length))
      = some [2] := by
  constructor <;> decide


/-- C4.  On a supported module with `n ≥ 1` definitions the pass builds the
report routine (and then returns `true` when there is a function `main`, and
ends in the null dereference of line 174 when there is none); the last block
of `printf_wrapper` in the module it leaves is the block `enter`, whose
instructions are one call of `printf` on
the header string, then one data line per definition, then a void return.  A
data line is a load of the accumulator `TimeFor_F` of a definition `F` and a
call of `printf` on the format global (initialised to `"%-20s %-10f\n"`), the
name constant of that same `F` and the loaded value; the functions of the
data lines are the definitions of the input, each once, in some order. -/
theorem C4_report_prints_one_line_per_definition (ord : IterOrder) (M : Module)
    (hS : Supported M) (hdef : ∃ F ∈ M.functions, F.isDeclaration = false) :
    ∃ Mout, runOnModule ord M
        = (if hasFunction M.functions "main" = true then Result.returned true Mout
           else Result.crashed Mout) ∧
      (∃ W ∈ Mout.functions, W.name = "printf_wrapper" ∧
        W.blocks.getLast? = some (reportBlock ord M)) ∧
      (∃ g ∈ Mout.globals, g.gid = GlobalId.named "ResultFormatStrIR" ∧
        g.init = some (Init.str "%-20s %-10f\n")) ∧
      (∃ g ∈ Mout.globals, g.gid = GlobalId.named "ResultHeaderStrIR" ∧
        g.init = some (Init.str ResultHeaderStr)) ∧
      ∃ (names : List String) (lines : List (List Instruction)) (n0 n1 : Nat),
        names.Perm (definedNames M.functions) ∧
        lines.length = (M.functions.filter (fun F => !F.isDeclaration)).length ∧
        (reportBlock ord M).insts
          = [⟨n0, Opcode.Call, Ty.Int32,
              [Value.global (GlobalId.named "ResultHeaderStrIR"), Printf]⟩] ++
            lines.flatten ++ [⟨n1, Opcode.Ret, Ty.Void, []⟩] ∧
        List.Forall₂ (fun name line => ∃ id m,
            line = [ ⟨m, Opcode.Load, Ty.Double, [counterVar name]⟩,
                     ⟨m + 1, Opcode.Call, Ty.Int32,
                       [Value.global (GlobalId.named "ResultFormatStrIR"),
                        Value.global (GlobalId.anon id), Value.inst m, Printf]⟩ ] ∧
            globalString id name ∈ Mout.globals ∧
            ∃ g ∈ Mout.globals, g.gid = GlobalId.named (counterName name) ∧
              g.init = some (Init.fp 0))
          names lines := by
  have hL := hS.toLoopSafe
  obtain ⟨Mout, hr, h1, ⟨fnNames, gs4, h4, h5⟩, _⟩ := runOnModule_outcome ord M hS hdef
  obtain ⟨⟨gf, hgf, hgfid, hgfi⟩, hkeep4, _⟩ := insertStringGlobal_spec h4
  obtain ⟨hhdr, hkeep5, _⟩ := insertStringGlobal_spec h5
  have hkeep : ∀ g ∈ (perFunctionLoop M).state.globals,
      g.gid ≠ GlobalId.named "ResultFormatStrIR" → g.gid ≠ GlobalId.named "ResultHeaderStrIR" →
      g ∈ Mout.globals := fun g hg hn1 hn2 => hkeep5 g (hkeep4 g hg hn1) hn2
  refine ⟨Mout, hr, ?_, ⟨gf, hkeep5 gf hgf (by rw [hgfid]; decide), hgfid, hgfi⟩, hhdr, ?_⟩
  · obtain ⟨F, hF, hFn⟩ := List.mem_map.mp
      ((hasFunction_iff _ _).mp (hasFunction_newDeclarations M))
    obtain ⟨W, hW, k, hk⟩ := forall₂_mem_left h1 F hF
    refine ⟨W, hW, by rw [hk, finish_name, instrumented_name, hFn], ?_⟩
    obtain ⟨body, hbody, _⟩ := finish_instrumented_keeps (reportBlock ord M) (hookStart M) F k
    rw [hk, hbody, if_pos hFn]
    simp
  · obtain ⟨lines, hl1, hl2⟩ := dataLines_eq_join (perFunctionLoop M).state.FuncNameMap
      (ord.1 (perFunctionLoop M).state.CallCounterMap) ((perFunctionLoop M).state.nextId + 1)
    have hperm := ord.2 (perFunctionLoop M).state.CallCounterMap
    refine ⟨(ord.1 (perFunctionLoop M).state.CallCounterMap).map Prod.fst, lines,
      (perFunctionLoop M).state.nextId,
      (perFunctionLoop M).state.nextId + 1 + 2 * (perFunctionLoop M).state.CallCounterMap.length,
      ?_, ?_, ?_, ?_⟩
    · have := perFunctionLoop_keys M hL hS.names
      unfold StringMap.keys at this
      rw [← this]
      exact hperm.map _
    · rw [← hl2.length_eq, hperm.length_eq]
      exact perFunctionLoop_length M hL hS.names
    · unfold reportBlock reportBody
      simp only
      rw [hl1]
      rfl
    · rw [List.forall₂_map_left_iff]
      refine forall₂_imp_mem hl2 ?_
      rintro item line hitem ⟨m, hm⟩
      have hmem : item ∈ (perFunctionLoop M).state.CallCounterMap := hperm.mem_iff.mp hitem
      obtain ⟨hval, g, hg, hgid, _, hgi⟩ := perFunctionLoop_counters M item hmem
      have hkey : item.1 ∈ (perFunctionLoop M).state.FuncNameMap.keys := by
        rw [← perFunctionLoop_keys_eq M]
        exact List.mem_map_of_mem _ hmem
      obtain ⟨id, hid, hstr⟩ := perFunctionLoop_nameConstants M _
        (StringMap.get_mem _ _ hkey)
      simp only at hid
      refine ⟨id, m, ?_, hkeep _ hstr (by simp [globalString]) (by simp [globalString]),
        g, hkeep g hg ?_ ?_, hgid, hgi⟩
      · rw [hm]
        unfold dataLine
        rw [hid, hval]
        rfl
      · rw [hgid]
        intro hc
        exact counterName_ne (by decide) (GlobalId.named.inj hc)
      · rw [hgid]
        intro hc
        exact counterName_ne (by decide) (GlobalId.named.inj hc)

theorem C4_witness :
    Supported demo ∧ (∃ F ∈ demo.functions, F.isDeclaration = false) ∧
    ∃ Mout, runOnModule IterOrder.insertion demo
      = (if hasFunction demo.functions "main" = true then Result.returned true Mout
         else Result.crashed Mout) :=
  ⟨⟨⟨by decide, by decide⟩, by decide, by decide, by decide, by decide, by decide⟩,
    ⟨demoMain, by decide, by decide⟩,
    match C4_report_prints_one_line_per_definition IterOrder.insertion demo
      ⟨⟨by decide, by decide⟩, by decide, by decide, by decide, by decide, by decide⟩
      ⟨demoMain, by decide, by decide⟩ with
    | ⟨Mout, hr, _⟩ => ⟨Mout, hr⟩⟩


theorem finish_wrapper_declaration (RB : BasicBlock) (n k : Nat) :
    finish RB n (instrumented ⟨"printf_wrapper", PrintfWrapperTy, [], []⟩ k)
      = ⟨"printf_wrapper", PrintfWrapperTy, [], [RB]⟩ := by
  rw [instrumented_of_declaration ⟨"printf_wrapper", PrintfWrapperTy, [], []⟩ k rfl]
  rfl

theorem dataLines_opcodes (fm : StringMap) :
    ∀ (items : List (String × Value)) (n : Nat),
      ∀ I ∈ dataLines fm items n, I.opcode = Opcode.Load ∨ I.opcode = Opcode.Call
  | [], n, I, hI => by simp [dataLines] at hI
  | item :: rest, n, I, hI => by
    unfold dataLines at hI
    rcases List.mem_append.mp hI with h | h
    · simp only [dataLine, List.mem_cons, List.mem_singleton, List.not_mem_nil, or_false] at h
      rcases h with h | h
      · left; rw [h]
      · right; rw [h]
    · exact dataLines_opcodes fm rest (n + 2) I h

/-- C8, amended.  On a supported module with a function `main`, some
definition and no function named `printf_wrapper`, the pass returns `true` and
the module it returns holds exactly one function of type `void ()` whose name
is not a name of the input: `printf_wrapper`, made of the single block
`enter`.  That block is the call of `printf` on the header string, then loads
and calls only, then a void return. -/
theorem C8_one_report_routine_is_synthesized (ord : IterOrder) (M : Module)
    (hS : Supported M) (hmain : hasFunction M.functions "main" = true)
    (hdef : ∃ F ∈ M.functions, F.isDeclaration = false)
    (hfree : hasFunction M.functions "printf_wrapper" = false) :
    ∃ Mout, runOnModule ord M = Result.returned true Mout ∧
      Mout.functions.filter (fun F =>
          !(M.functions.map Function.name).contains F.name && decide (F.ty = PrintfWrapperTy))
        = [⟨"printf_wrapper", PrintfWrapperTy, [], [reportBlock ord M]⟩] ∧
      ∃ n0 lines n1,
        (reportBlock ord M).insts
          = ⟨n0, Opcode.Call, Ty.Int32, [Value.global (GlobalId.named "ResultHeaderStrIR"), Printf]⟩
            :: (lines ++ [⟨n1, Opcode.Ret, Ty.Void, []⟩]) ∧
        ∀ I ∈ lines, I.opcode = Opcode.Load ∨ I.opcode = Opcode.Call := by
  obtain ⟨Mout, hr, h1, _, _⟩ := runOnModule_returns ord M hS hmain hdef
  refine ⟨Mout, hr, ?_, _, _, _, rfl, dataLines_opcodes _ _ _⟩
  have hC : declareIfMissing M.functions "printf_wrapper" PrintfWrapperTy
      = [⟨"printf_wrapper", PrintfWrapperTy, [], []⟩] :=
    declareIfMissing_of_not _ (by rw [hfree]; exact Bool.noConfusion)
  unfold newDeclarations at h1
  rw [hC, ← List.append_assoc] at h1
  obtain ⟨front, c, he, hfront, hc⟩ := forall₂_split _ _ _ h1
  obtain ⟨fs2, ab, he2, hfs2, hab⟩ := forall₂_split _ _ _ hfront
  have hc1 : c = [⟨"printf_wrapper", PrintfWrapperTy, [], [reportBlock ord M]⟩] := by
    cases hc with
    | cons hh ht =>
      cases ht
      obtain ⟨k, hk⟩ := hh
      rw [hk, finish_wrapper_declaration]
  have hf1 : fs2.filter (fun F =>
      !(M.functions.map Function.name).contains F.name && decide (F.ty = PrintfWrapperTy))
      = [] := by
    rw [List.filter_eq_nil_iff]
    intro F2 hF2
    obtain ⟨F, hF, k, hk⟩ := forall₂_mem_right hfs2 F2 hF2
    have hn : F2.name = F.name := by rw [hk, finish_name, instrumented_name]
    have : (M.functions.map Function.name).contains F2.name = true := by
      rw [List.contains_iff_exists_mem_beq]
      exact ⟨F.name, List.mem_map_of_mem _ hF, by simp [hn]⟩
    rw [this]
    simp
  have hf2 : ab.filter (fun F =>
      !(M.functions.map Function.name).contains F.name && decide (F.ty = PrintfWrapperTy))
      = [] := by
    rw [List.filter_eq_nil_iff]
    intro F2 hF2
    obtain ⟨F, hF, k, hk⟩ := forall₂_mem_right hab F2 hF2
    have ht : F2.ty = F.ty := by rw [hk, finish_ty, instrumented_ty]
    have hty : F.ty ≠ PrintfWrapperTy := by
      rcases List.mem_append.mp hF with h | h
      · have hF1 : F = ⟨"clock", ClockTy, [], []⟩ := by
          by_cases hg : hasGlobal M.globals "clock" = true
          · rw [if_pos hg] at h; simp at h
          · rw [if_neg hg] at h; exact mem_declareIfMissing h
        rw [hF1]; decide
      · rw [mem_declareIfMissing h]; decide
    simp [ht, hty]
  rw [he, he2, List.filter_append, List.filter_append, hf1, hf2, hc1]
  have hnot : (M.functions.map Function.name).contains "printf_wrapper" = false := by
    rw [Bool.eq_false_iff]
    intro hcon
    rw [List.contains_iff_exists_mem_beq] at hcon
    obtain ⟨a, ha, hab⟩ := hcon
    have : "printf_wrapper" ∈ M.functions.map Function.name := by
      rw [beq_iff_eq] at hab; rw [hab]; exact ha
    rw [← hasFunction_iff, hfree] at this
    exact Bool.noConfusion this
  rw [List.nil_append, List.nil_append]
  simp only [List.filter_cons, List.filter_nil]
  rw [hnot]
  rfl

theorem C8_witness :
    Supported demo ∧ hasFunction demo.functions "main" = true ∧
    (∃ F ∈ demo.functions, F.isDeclaration = false) ∧
    hasFunction demo.functions "printf_wrapper" = false ∧
    ∃ Mout, runOnModule IterOrder.insertion demo = Result.returned true Mout :=
  ⟨⟨⟨by decide, by decide⟩, by decide, by decide, by decide, by decide, by decide⟩,
    by decide, ⟨demoMain, by decide, by decide⟩, by decide,
    match C8_one_report_routine_is_synthesized IterOrder.insertion demo
      ⟨⟨by decide, by decide⟩, by decide, by decide, by decide, by decide, by decide⟩
      (by decide) ⟨demoMain, by decide, by decide⟩ (by decide) with
    | ⟨Mout, hr, _⟩ => ⟨Mout, hr⟩⟩


theorem exec_accumSeq_aux (m : Machine) (slot n : Nat) (fn : String) (p T0 T1 : Nat)
    (later : List Nat) (a : ℚ)
    (hslot : m.regs slot = some (RVal.stackPtr p)) (hT0 : m.stack p = some T0)
    (hclock : m.clock = T1 :: later)
    (hacc : m.doubles (GlobalId.named (counterName fn)) = some a) :
    (m.exec (accumSeq slot (counterVar fn) n)).map (fun m1 => (m1.doubles, m1.stack, m1.clock))
      = some (fun h => if h = GlobalId.named (counterName fn)
                then some (a + ((sub64 T1 T0 : Nat) : ℚ) / 1000000) else m.doubles h,
              m.stack, later) := by
  simp [accumSeq, Machine.exec, Machine.step, Machine.eval, Machine.setReg, hslot, hT0,
    hclock, hacc, Clock, counterVar]


/-- One run of the return sequence: it completes, and the accumulator is the
only double it changes. -/
theorem exec_accumSeq (m : Machine) (slot n : Nat) (fn : String) (p T0 T1 : Nat)
    (later : List Nat) (a : ℚ)
    (hslot : m.regs slot = some (RVal.stackPtr p)) (hT0 : m.stack p = some T0)
    (hclock : m.clock = T1 :: later)
    (hacc : m.doubles (GlobalId.named (counterName fn)) = some a) :
    ∃ m1, m.exec (accumSeq slot (counterVar fn) n) = some m1 ∧
      m1.doubles (GlobalId.named (counterName fn))
        = some (a + ((sub64 T1 T0 : Nat) : ℚ) / 1000000) ∧
      (∀ g, g ≠ GlobalId.named (counterName fn) → m1.doubles g = m.doubles g) ∧
      m1.stack = m.stack ∧ m1.clock = later := by
  have h := exec_accumSeq_aux m slot n fn p T0 T1 later a hslot hT0 hclock hacc
  cases hexec : m.exec (accumSeq slot (counterVar fn) n) with
  | none => rw [hexec] at h; simp at h
  | some m1 =>
    rw [hexec] at h
    simp only [Option.map_some', Option.some.injEq, Prod.mk.injEq] at h
    obtain ⟨hd, hs, hc⟩ := h
    refine ⟨m1, rfl, ?_, ?_, hs, hc⟩
    · rw [hd]; simp
    · intro g hg
      rw [hd]; simp [hg]

theorem accumulate_eq (fn : String) (a : ℚ) (T : Nat × Nat) :
    accumulate fn a T = some (a + ((sub64 T.2 T.1 : Nat) : ℚ) / 1000000) := by
  obtain ⟨m1, h1, h2, _⟩ := exec_accumSeq (atReturn 0 fn T.1 T.2 a) 0 1 fn 0 T.1 T.2 [] a
    (by simp [atReturn]) (by simp [atReturn]) rfl (by simp [atReturn])
  unfold accumulate
  rw [h1]
  exact h2

theorem elapsed_nonneg (T1 T0 : Nat) : (0 : ℚ) ≤ ((sub64 T1 T0 : Nat) : ℚ) / 1000000 :=
  div_nonneg (Nat.cast_nonneg _) (by norm_num)

theorem accumulatorTrace_chain (fn : String) :
    ∀ (Ts : List (Nat × Nat)) (a : ℚ),
      ∃ trace, accumulatorTrace fn a Ts = some trace ∧ trace.length = Ts.length ∧
        List.Chain (· ≤ ·) a trace
  | [], a => ⟨[], rfl, rfl, List.Chain.nil⟩
  | T :: later, a => by
    obtain ⟨trace, h1, h2, h3⟩ := accumulatorTrace_chain fn later
      (a + ((sub64 T.2 T.1 : Nat) : ℚ) / 1000000)
    refine ⟨(a + ((sub64 T.2 T.1 : Nat) : ℚ) / 1000000) :: trace, ?_, by simp [h2], ?_⟩
    · unfold accumulatorTrace
      rw [accumulate_eq, Option.some_bind, h1]
      rfl
    · exact List.Chain.cons (le_add_of_nonneg_right (elapsed_nonneg _ _)) h3

/-- C9.  Run from a state in which the timer slot holds `T0`, the accumulator
of the function holds `a ≥ 0` and the clock will read `T1`, the return
sequence completes and stores `a + ((T1 - T0) mod 2^64) / 1000000` into the
accumulator, a value that is at least `a` and not negative (doubles taken as
exact rationals).  Hence over any series of invocations, from the initial
value 0, the successive values of the accumulator never decrease, and none is
negative. -/
theorem C9_accumulator_never_decreases (m : Machine) (slot n : Nat) (fn : String)
    (p T0 T1 : Nat) (later : List Nat) (a : ℚ)
    (hslot : m.regs slot = some (RVal.stackPtr p)) (hT0 : m.stack p = some T0)
    (hclock : m.clock = T1 :: later)
    (hacc : m.doubles (GlobalId.named (counterName fn)) = some a) (ha : 0 ≤ a) :
    (∃ m1, m.exec (accumSeq slot (counterVar fn) n) = some m1 ∧
      m1.doubles (GlobalId.named (counterName fn))
        = some (a + (((((T1 : Int) - (T0 : Int)) % 2 ^ 64).toNat : Nat) : ℚ) / 1000000)) ∧
    a ≤ a + (((((T1 : Int) - (T0 : Int)) % 2 ^ 64).toNat : Nat) : ℚ) / 1000000 ∧
    0 ≤ a + (((((T1 : Int) - (T0 : Int)) % 2 ^ 64).toNat : Nat) : ℚ) / 1000000 ∧
    ∀ Ts : List (Nat × Nat), ∃ trace, accumulatorTrace fn 0 Ts = some trace ∧
      trace.length = Ts.length ∧ List.Chain (· ≤ ·) (0 : ℚ) trace ∧ ∀ x ∈ trace, 0 ≤ x := by
  obtain ⟨m1, h1, h2, _⟩ := exec_accumSeq m slot n fn p T0 T1 later a hslot hT0 hclock hacc
  refine ⟨⟨m1, h1, h2⟩, le_add_of_nonneg_right (elapsed_nonneg T1 T0),
    add_nonneg ha (elapsed_nonneg T1 T0), fun Ts => ?_⟩
  obtain ⟨trace, h3, h4, h5⟩ := accumulatorTrace_chain fn Ts 0
  refine ⟨trace, h3, h4, h5, fun x hx => ?_⟩
  exact (List.Chain.rel (l := trace) h5 hx)

theorem C9_witness :
    (0 : ℚ) ≤ 0 ∧
    ∃ m1, (atReturn 7 "foo" 10 25 0).exec (accumSeq 7 (counterVar "foo") 100) = some m1 ∧
      m1.doubles (GlobalId.named (counterName "foo"))
        = some (0 + (((((25 : Nat) : Int) - ((10 : Nat) : Int)) % 2 ^ 64).toNat : ℚ) / 1000000) :=
  ⟨le_refl 0,
    (C9_accumulator_never_decreases (atReturn 7 "foo" 10 25 0) 7 100 "foo" 7 10 25 [] 0
      (by simp [atReturn]) (by simp [atReturn]) rfl (by simp [atReturn]) (le_refl 0)).1⟩


/-- C10.  On a supported module whose function `main` has a block that ends
in a return, the pass returns `true`, and run on the module it returned it
returns `true` again with a module that differs from the first (already in
its function list): every block of `main` that ends in a return then holds
two report calls more than in the input (one more than after the first run),
and `printf_wrapper` ends with two report blocks, the block `enter` of the
first run (kept) and the block `enter` of the second run. -/
theorem C10_second_run_adds_a_second_report_call (ord1 ord2 : IterOrder) (M : Module)
    (hS : Supported M) (F : Function) (hF : F ∈ M.functions) (hFn : F.name = "main")
    (hret : ∃ B ∈ F.blocks, B.endsInRet = true) :
    ∃ M1 M2, runOnModule ord1 M = Result.returned true M1 ∧
      runOnModule ord2 M1 = Result.returned true M2 ∧
      M2.functions ≠ M1.functions ∧ M2 ≠ M1 ∧
      (∃ F1 ∈ M1.functions, ∃ F2 ∈ M2.functions, F1.name = "main" ∧ F2.name = "main" ∧
        List.Forall₂ (fun B B1 => B1.endsInRet = B.endsInRet ∧
            B1.reportCalls = B.reportCalls + (if B.endsInRet = true then 1 else 0))
          F.blocks F1.blocks ∧
        List.Forall₂ (fun B B2 => B2.endsInRet = B.endsInRet ∧
            B2.reportCalls = B.reportCalls + (if B.endsInRet = true then 2 else 0))
          F.blocks F2.blocks) ∧
      ∃ W2 ∈ M2.functions, W2.name = "printf_wrapper" ∧
        ∃ front B1, W2.blocks = front ++ [B1, reportBlock ord2 M1] ∧
          Keeps (reportBlock ord1 M) B1 := by
  have hmain : hasFunction M.functions "main" = true :=
    (hasFunction_iff _ _).mpr (hFn ▸ List.mem_map_of_mem _ hF)
  have hdef : ∃ G ∈ M.functions, G.isDeclaration = false := by
    obtain ⟨B, hB, _⟩ := hret
    refine ⟨F, hF, ?_⟩
    unfold Function.isDeclaration
    cases hb : F.blocks with
    | nil => rw [hb] at hB; simp at hB
    | cons a t => rfl
  obtain ⟨M1, hr1, _, hS1, hmain1, hdef1⟩ := runOnModule_supported ord1 M hS hmain hdef
  obtain ⟨M2, hr2, _, hS2, _, _⟩ := runOnModule_supported ord2 M1 hS1 hmain1 hdef1
  -- the function `main` through the two runs
  obtain ⟨F1, hF1, hF1n, body1, hb1, hf1⟩ := runOnModule_blocks ord1 M hS hmain hdef M1 hr1 F
    (List.mem_append_left _ hF)
  obtain ⟨F2, hF2, hF2n, body2, hb2, hf2⟩ := runOnModule_blocks ord2 M1 hS1 hmain1 hdef1 M2 hr2
    F1 (List.mem_append_left _ hF1)
  have hw : ¬ F.name = "printf_wrapper" := by rw [hFn]; decide
  have hw1 : ¬ F1.name = "printf_wrapper" := by rw [hF1n]; exact hw
  rw [if_neg hw, List.append_nil] at hb1
  rw [if_neg hw1, List.append_nil] at hb2
  rw [← hb1] at hf1
  rw [← hb2] at hf2
  have hm1 : F1.name = "main" := hF1n.trans hFn
  have hm2 : F2.name = "main" := hF2n.trans hm1
  have hfirst : List.Forall₂ (fun B B1 => B1.endsInRet = B.endsInRet ∧
      B1.reportCalls = B.reportCalls + (if B.endsInRet = true then 1 else 0))
      F.blocks F1.blocks :=
    hf1.imp (fun B B1 h => ⟨h.1.endsInRet, by rw [h.2]; simp [hFn]⟩)
  have hsecond : List.Forall₂ (fun B B2 => B2.endsInRet = B.endsInRet ∧
      B2.reportCalls = B.reportCalls + (if B.endsInRet = true then 2 else 0))
      F.blocks F2.blocks := by
    refine forall₂_trans' ?_ hfirst hf2
    rintro B B1 B2 ⟨he1, hc1⟩ ⟨hk2, hc2⟩
    refine ⟨hk2.endsInRet.trans he1, ?_⟩
    rw [hc2, hc1, he1]
    by_cases hB : B.endsInRet = true
    · simp [hB, hm1]
    · simp [hB]
  have hne : M2.functions ≠ M1.functions := by
    intro heq
    have hF2' : F2 ∈ M1.functions := heq ▸ hF2
    have hsame : F2 = F1 := eq_of_name_eq hS1.names hF2' hF1 (hm2.trans hm1.symm)
    rw [hsame] at hsecond
    obtain ⟨B, hB, hBr⟩ := hret
    obtain ⟨B1, _, ⟨_, hc1⟩, ⟨_, hc2⟩⟩ := forall₂_mem_left (forall₂_and' hfirst hsecond) B hB
    rw [hc1, if_pos hBr, if_pos hBr] at hc2
    omega
  refine ⟨M1, M2, hr1, hr2, hne, fun h => hne (by rw [h]),
    ⟨F1, hF1, F2, hF2, hm1, hm2, hfirst, hsecond⟩, ?_⟩
  -- the report routine through the two runs
  obtain ⟨W, hW, hWn⟩ := List.mem_map.mp
    ((hasFunction_iff _ _).mp (hasFunction_newDeclarations M))
  obtain ⟨W1, hW1, hW1n, wbody1, hwb1, _⟩ := runOnModule_blocks ord1 M hS hmain hdef M1 hr1 W hW
  obtain ⟨W2, hW2, hW2n, wbody2, hwb2, hwf2⟩ := runOnModule_blocks ord2 M1 hS1 hmain1 hdef1 M2
    hr2 W1 (List.mem_append_left _ hW1)
  have hn1 : W1.name = "printf_wrapper" := hW1n.trans hWn
  rw [if_pos hWn] at hwb1
  rw [if_pos hn1] at hwb2
  rw [hwb1] at hwf2
  obtain ⟨front, last, hsplit, _, hlast⟩ := forall₂_split _ _ _ hwf2
  cases hlast with
  | cons hh ht =>
    cases ht
    refine ⟨W2, hW2, hW2n.trans hn1, front, _, ?_, hh.1⟩
    rw [hwb2, hsplit]
    simp

theorem C10_witness :
    Supported demo ∧ demoMain ∈ demo.functions ∧ demoMain.name = "main" ∧
    (∃ B ∈ demoMain.blocks, B.endsInRet = true) ∧
    ∃ M1 M2, runOnModule IterOrder.insertion demo = Result.returned true M1 ∧
      runOnModule IterOrder.insertion M1 = Result.returned true M2 ∧ M2 ≠ M1 :=
  ⟨⟨⟨by decide, by decide⟩, by decide, by decide, by decide, by decide, by decide⟩,
    by decide, rfl, ⟨_, List.mem_singleton.mpr rfl, by decide⟩,
    match C10_second_run_adds_a_second_report_call IterOrder.insertion IterOrder.insertion demo
      ⟨⟨by decide, by decide⟩, by decide, by decide, by decide, by decide, by decide⟩
      demoMain (by decide) rfl ⟨_, List.mem_singleton.mpr rfl, by decide⟩ with
    | ⟨M1, M2, h1, h2, _, h3, _⟩ => ⟨M1, M2, h1, h2, h3⟩⟩

theorem firstInsertionIdx_take :
    ∀ (l : List Instruction) (i : Nat), firstInsertionIdx l = some i →
      ∀ I ∈ l.take i, I.opcode = Opcode.PHI ∨ I.opcode.isEHPad = true
  | [], i, h => by simp [firstInsertionIdx] at h
  | J :: rest, i, h => by
    unfold firstInsertionIdx at h
    by_cases hphi : J.opcode = Opcode.PHI
    · rw [if_pos hphi] at h
      cases hr : firstInsertionIdx rest with
      | none => rw [hr] at h; simp at h
      | some j =>
        rw [hr] at h
        simp only [Option.map_some', Option.some.injEq] at h
        subst h
        intro I hI
        rw [List.take_succ_cons, List.mem_cons] at hI
        rcases hI with rfl | hI
        · exact Or.inl hphi
        · exact firstInsertionIdx_take rest j hr I hI
    · rw [if_neg hphi] at h
      by_cases hpad : J.opcode.isEHPad = true
      · rw [if_pos hpad] at h
        by_cases hre : rest.isEmpty = true
        · rw [if_pos hre] at h; simp at h
        · rw [if_neg hre] at h
          simp only [Option.some.injEq] at h
          subst h
          intro I hI
          simp only [List.take_succ_cons, List.take_zero, List.mem_singleton] at hI
          subst hI
          exact Or.inr hpad
      · rw [if_neg hpad] at h
        simp only [Option.some.injEq] at h
        subst h
        intro I hI
        simp at hI

/-- From the shape of the blocks after lines 63-85 to the place of the timer
capture. -/
theorem timerCaptured_of_returnsInstrumented {F : Function} {blocks : List BasicBlock}
    {hooked : Bool} (h : ReturnsInstrumented F blocks hooked) : TimerCaptured F blocks := by
  obtain ⟨entry, others, ip, slot, hb, hip, hlt, hf⟩ := h
  cases hf with
  | cons he ho =>
    rename_i entry1 others1
    have hpost : entry.insts.drop ip ≠ [] := by
      intro hc
      have := congrArg List.length hc
      simp only [List.length_drop, List.length_nil] at this
      omega
    have hlen : (entry.insts.take ip).length = ip := by
      rw [List.length_take]; omega
    have hhook : ∀ hook : List Instruction,
        (if hooked = true then ∃ m, hook = [reportCall m] else hook = []) →
        (hook = [] ∨ ∃ m, hook = [reportCall m]) := by
      intro hook hh
      by_cases hk : hooked = true
      · rw [if_pos hk] at hh; exact Or.inr hh
      · rw [if_neg hk] at hh; exact Or.inl hh
    refine ⟨entry, others, entry.insts.take ip, entry.insts.drop ip, slot, entry1, others1,
      hb, rfl, (List.take_append_drop ip entry.insts).symm, hpost, by rw [hlen]; exact hip,
      firstInsertionIdx_take entry.insts ip hip, ?_, ?_, ?_, ?_⟩
    · intro hpad I hI
      rcases firstInsertionIdx_take entry.insts ip hip I hI with h | h
      · exact h
      · rw [hpad I (List.mem_of_mem_take hI)] at h
        exact absurd h (by decide)
    · by_cases hr : (entry.insertBefore ip (entrySeq slot)).endsInRet = true
      · obtain ⟨hook, hat, _⟩ := he.1 hr
        exact hat.1
      · rw [he.2 (by simpa using hr)]; rfl
    · by_cases hr : (entry.insertBefore ip (entrySeq slot)).endsInRet = true
      · obtain ⟨hook, ⟨_, init, term, n, hsplit, hterm, hnew⟩, hh⟩ := he.1 hr
        obtain ⟨post0, last, hpl⟩ : ∃ post0 last, entry.insts.drop ip = post0 ++ [last] :=
          ⟨_, _, (List.dropLast_append_getLast hpost).symm⟩
        have hins : (entry.insertBefore ip (entrySeq slot)).insts
            = (entry.insts.take ip ++ entrySeq slot ++ post0) ++ [last] := by
          simp only [BasicBlock.insertBefore, hpl, List.append_assoc]
        rw [hins] at hsplit
        have h1 := List.append_inj_left' hsplit rfl
        have h2 := List.append_inj_right' hsplit rfl
        simp only [List.cons.injEq, and_true] at h2
        subst h2
        refine ⟨post0 ++ accumSeq slot (counterVar F.name) n ++ hook ++ [last], ?_,
          Or.inr ⟨post0, last, n, hook, hpl, hterm, rfl, hhook hook hh⟩⟩
        rw [hnew, ← h1]
        simp only [List.append_assoc]
      · rw [he.2 (by simpa using hr)]
        exact ⟨entry.insts.drop ip, rfl, Or.inl rfl⟩
    · refine ho.imp ?_
      rintro B B1 ⟨h1, h2⟩
      by_cases hr : B.endsInRet = true
      · obtain ⟨hook, ⟨hname, init, term, n, hsplit, hterm, hnew⟩, hh⟩ := h1 hr
        exact ⟨hname, Or.inr ⟨init, term, n, hook, hsplit, hterm, hnew, hhook hook hh⟩⟩
      · rw [h2 (by simpa using hr)]
        exact ⟨rfl, Or.inl rfl⟩

theorem onlyAtReturn_allocas {slot : Nat} {fn : String} {old new : List Instruction}
    (h : OnlyAtReturn slot fn old new) :
    new.countP (fun I => I.opcode == Opcode.Alloca)
      = old.countP (fun I => I.opcode == Opcode.Alloca) := by
  rcases h with h | ⟨init, term, n, hook, h1, _, h2, h3 | ⟨m, h3⟩⟩
  · rw [h]
  · subst h1 h2 h3
    simp [List.countP_append, accumSeq, List.countP_cons]
  · subst h1 h2 h3
    simp [List.countP_append, accumSeq, List.countP_cons, reportCall]

/-- With the timer capture the function has one stack allocation more. -/
theorem timerCaptured_allocas {F : Function} {blocks : List BasicBlock}
    (h : TimerCaptured F blocks) : allocas blocks = allocas F.blocks + 1 := by
  obtain ⟨entry, others, pre, post, slot, entry1, others1, hb, hbl, hsplit, _, _, _, _, _,
    ⟨post1, he1, hpost⟩, ho⟩ := h
  have hsum : ∀ {l m : List BasicBlock},
      List.Forall₂ (fun B B1 => B1.name = B.name ∧ OnlyAtReturn slot F.name B.insts B1.insts)
        l m → allocas m = allocas l := by
    intro l m hlm
    induction hlm with
    | nil => rfl
    | cons hab _ ih =>
      unfold allocas at ih ⊢
      simp only [List.map_cons, List.sum_cons, ih, onlyAtReturn_allocas hab.2]
  rw [hb, hbl]
  have := hsum ho
  unfold allocas at this ⊢
  simp only [List.map_cons, List.sum_cons, this, he1, hsplit, List.countP_append,
    onlyAtReturn_allocas hpost]
  simp [entrySeq, List.countP_cons]
  omega

/-- C11.  On a module that is safe for the loop of STEP 1 the loop (lines
47-87) runs to its end and leaves every definition `F` with the timer capture
in its entry block and nowhere else: the entry block reads, in this order, the
instructions it had before its first insertion point (PHIs, and an
exception-handling pad when the block starts with one), the allocation of the
timer slot, a call of `clock`, the store of that reading to the slot, and the
instructions it had from the insertion point on; every other difference from
the input is an accumulation sequence before a return, whose begin load reads
that same slot; the function has exactly one stack allocation more than in
the input.  In an entry block without exception-handling pad the capture
stands before every instruction that is not a PHI (all this is the
definition `TimerCaptured`).  On a supported module
with some definition the same holds in the module the whole pass leaves (a
function `printf_wrapper` has the block `enter` behind its blocks). -/
theorem C11_timer_capture_at_first_insertion_point (M : Module) (hL : LoopSafe M) :
    (perFunctionLoop M).completed = true ∧
    (∃ fs1 added, (perFunctionLoop M).functions = fs1 ++ added ∧
      List.Forall₂ (fun F F1 => F1.name = F.name ∧
          (F.isDeclaration = false →
            TimerCaptured F F1.blocks ∧ allocas F1.blocks = allocas F.blocks + 1))
        M.functions fs1) ∧
    (∀ ord, Supported M → (∃ F ∈ M.functions, F.isDeclaration = false) →
      ∃ Mout fs2 added, runOnModule ord M
          = (if hasFunction M.functions "main" = true then Result.returned true Mout
             else Result.crashed Mout) ∧
        Mout.functions = fs2 ++ added ∧
        List.Forall₂ (fun F F2 => F2.name = F.name ∧
            (F.isDeclaration = false →
              ∃ body, F2.blocks
                  = body ++ (if F.name = "printf_wrapper" then [reportBlock ord M] else []) ∧
                TimerCaptured F body ∧ allocas body = allocas F.blocks + 1))
          M.functions fs2) := by
  refine ⟨perFunctionLoop_completed M hL, ?_, ?_⟩
  · have h1 := perFunctionLoop_functions M hL
    rw [(declareClock_functions M).1] at h1
    obtain ⟨fs1, added, he, h2, _⟩ := forall₂_split _ _ _ h1
    refine ⟨fs1, added, he, forall₂_imp_mem h2 ?_⟩
    rintro F F1 hF ⟨k, hk⟩
    subst hk
    refine ⟨instrumented_name F k, fun hd => ?_⟩
    obtain ⟨entry, others, ip, hb, hip⟩ := entry_of_definition hd (hL.entry F hF)
    have ht := timerCaptured_of_returnsInstrumented (instrumented_shape F k entry others ip hb hip)
    exact ⟨ht, timerCaptured_allocas ht⟩
  · intro ord hS hdef
    obtain ⟨Mout, hr, h1, _⟩ := runOnModule_outcome ord M hS hdef
    obtain ⟨fs2, added, he, h2, _⟩ := forall₂_split _ _ _ h1
    refine ⟨Mout, fs2, added, hr, he, forall₂_imp_mem h2 ?_⟩
    rintro F F2 hF ⟨k, hk⟩
    subst hk
    refine ⟨by rw [finish_name, instrumented_name], fun hd => ?_⟩
    obtain ⟨entry, others, ip, hb, hip⟩ := entry_of_definition hd (hL.entry F hF)
    obtain ⟨body, hbody, hshape⟩ := finish_instrumented_shape (reportBlock ord M) (hookStart M)
      F k entry others ip hb hip
    have ht := timerCaptured_of_returnsInstrumented hshape
    exact ⟨body, hbody, ht, timerCaptured_allocas ht⟩

theorem C11_witness :
    LoopSafe demo ∧ ∃ fs1 added, (perFunctionLoop demo).functions = fs1 ++ added ∧
      List.Forall₂ (fun F F1 => F1.name = F.name ∧
          (F.isDeclaration = false →
            TimerCaptured F F1.blocks ∧ allocas F1.blocks = allocas F.blocks + 1))
        demo.functions fs1 :=
  ⟨⟨by decide, by decide⟩,
    (C11_timer_capture_at_first_insertion_point demo ⟨by decide, by decide⟩).2.1⟩

/-! ## Stores to the accumulators -/

/-- An element of `l1 ++ l2` lies in `l1` or in `l2`, with what surrounds it. -/
theorem split_cons_append {α : Type} {p q l1 l2 : List α} {x : α}
    (h : p ++ x :: q = l1 ++ l2) :
    (∃ r, l1 = p ++ x :: r ∧ q = r ++ l2) ∨ (∃ r, p = l1 ++ r ∧ l2 = r ++ x :: q) := by
  rcases List.append_eq_append_iff.mp h with ⟨a, h1, h2⟩ | ⟨c, h1, h2⟩
  · cases a with
    | nil =>
      simp only [List.append_nil, List.nil_append] at h1 h2
      exact Or.inr ⟨[], by simp [h1], by simp [h2]⟩
    | cons y a =>
      simp only [List.cons_append, List.cons.injEq] at h2
      obtain ⟨hxy, hq⟩ := h2
      subst hxy
      exact Or.inl ⟨a, h1, hq⟩
  · exact Or.inr ⟨c, h1, h2⟩

theorem storesTo_iff (I : Instruction) (p : Value) :
    I.storesTo p = true ↔ I.opcode = Opcode.Store ∧ I.operands[1]? = some p := by
  simp [Instruction.storesTo]

/-- The only store of an accumulation sequence is its last instruction, and it
writes the accumulator. -/
theorem accumSeq_store_split {slot n : Nat} {Var : Value} {r q : List Instruction}
    {I : Instruction} (h : r ++ I :: q = accumSeq slot Var n) (hop : I.opcode = Opcode.Store) :
    q = [] ∧ I.operands[1]? = some Var := by
  have hfront : accumSeq slot Var n
      = (accumSeq slot Var n).dropLast ++ [⟨n + 7, Opcode.Store, Ty.Void, [Value.inst (n + 6), Var]⟩] :=
    rfl
  rw [hfront] at h
  rcases split_cons_append h with ⟨r1, h1, _⟩ | ⟨r1, _, h2⟩
  · have hmem : I ∈ (accumSeq slot Var n).dropLast := by rw [h1]; simp
    simp only [accumSeq, List.dropLast, List.mem_cons, List.mem_singleton] at hmem
    rcases hmem with e | e | e | e | e | e | e | e <;> first
      | (rw [e] at hop; simp at hop)
      | simp at e
  · cases r1 with
    | nil =>
      simp only [List.nil_append, List.cons.injEq] at h2
      obtain ⟨hI, hq⟩ := h2
      exact ⟨hq.symm, by rw [← hI]; rfl⟩
    | cons y r1 =>
      simp at h2

theorem entrySeq_storesTo (slot : Nat) (g : GlobalId) :
    ∀ J ∈ entrySeq slot, J.storesTo (Value.global g) = false := by
  intro J hJ
  simp only [entrySeq, List.mem_cons, List.mem_singleton, List.mem_nil_iff, or_false] at hJ
  rcases hJ with e | e | e <;> subst e <;> simp [Instruction.storesTo]

theorem dataLines_storesTo (fm : StringMap) (v : Value) :
    ∀ (items : List (String × Value)) (n : Nat), ∀ J ∈ dataLines fm items n,
      J.storesTo v = false
  | [], n, J, hJ => by simp [dataLines] at hJ
  | item :: rest, n, J, hJ => by
    unfold dataLines at hJ
    rcases List.mem_append.mp hJ with h | h
    · simp only [dataLine, List.mem_cons, List.mem_singleton, List.mem_nil_iff, or_false] at h
      rcases h with e | e <;> subst e <;> simp [Instruction.storesTo]
    · exact dataLines_storesTo fm v rest (n + 2) J h

/-- The block `enter` holds no store. -/
theorem reportBody_storesTo (ord : IterOrder) (cm fm : StringMap) (n : Nat) (v : Value) :
    ∀ J ∈ reportBody ord cm fm n, J.storesTo v = false := by
  intro J hJ
  unfold reportBody at hJ
  rcases List.mem_append.mp hJ with h | h
  · rcases List.mem_append.mp h with h | h
    · simp only [List.mem_singleton] at h
      subst h; simp [Instruction.storesTo]
    · exact dataLines_storesTo fm v _ _ J h
  · simp only [List.mem_singleton] at h
    subst h; simp [Instruction.storesTo]

theorem counterVar_injective {a b : String} (h : counterVar a = counterVar b) : a = b := by
  unfold counterVar at h
  injection h with h
  injection h with h
  exact counterName_injective h
/-- Where a definition holds a store to an accumulator after lines 63-85 (and
174-181) when it held none before: in the function the accumulator belongs to,
as the last instruction of an accumulation sequence, followed by the return,
the report call standing between the two when `hooked`. -/
theorem returnsInstrumented_store {F : Function} {body : List BasicBlock} {hooked : Bool}
    (h : ReturnsInstrumented F body hooked) {fn : String}
    (hold : ∀ B ∈ F.blocks, ∀ J ∈ B.insts, J.storesTo (counterVar fn) = false)
    {B2 : BasicBlock} (hB2 : B2 ∈ body) {p q : List Instruction} {I : Instruction}
    (hs : B2.insts = p ++ I :: q) (hst : I.storesTo (counterVar fn) = true) :
    F.name = fn ∧ (∃ B ∈ F.blocks, B.endsInRet = true) ∧
    ∃ term, term.opcode = Opcode.Ret ∧
      (if hooked = true then ∃ m, q = [reportCall m, term] else q = [term]) ∧
      ∃ init slot n, p ++ [I] = init ++ accumSeq slot (counterVar fn) n := by
  obtain ⟨entry, others, ip, slot, hb, hip, hlt, hf⟩ := h
  obtain ⟨B1, hB1, hR⟩ := forall₂_mem_right hf B2 hB2
  -- the block before the returns were rewritten holds no store to the accumulator
  have hB1old : (∀ J ∈ B1.insts, J.storesTo (counterVar fn) = false) ∧
      ∃ B ∈ F.blocks, B.endsInRet = B1.endsInRet := by
    rcases List.mem_cons.mp hB1 with e | e
    · subst e
      refine ⟨fun J hJ => ?_, entry, by rw [hb]; exact List.mem_cons_self _ _,
        (endsInRet_of_getLast? (insertBefore_getLast? entry ip _ hlt)).symm⟩
      rw [insertBefore_insts] at hJ
      rcases List.mem_append.mp hJ with hJ | hJ
      · rcases List.mem_append.mp hJ with hJ | hJ
        · exact hold entry (by rw [hb]; exact List.mem_cons_self _ _) J (List.mem_of_mem_take hJ)
        · exact entrySeq_storesTo slot _ J hJ
      · exact hold entry (by rw [hb]; exact List.mem_cons_self _ _) J (List.mem_of_mem_drop hJ)
    · exact ⟨hold B1 (by rw [hb]; exact List.mem_cons_of_mem _ e), B1,
        by rw [hb]; exact List.mem_cons_of_mem _ e, rfl⟩
  obtain ⟨hnone, B0, hB0, hB0r⟩ := hB1old
  by_cases hr : B1.endsInRet = true
  · obtain ⟨hook, ⟨_, init, term, n, hsplit, hterm, hnew⟩, hh⟩ := hR.1 hr
    rw [hnew, List.append_assoc, List.append_assoc] at hs
    rcases split_cons_append hs.symm with ⟨r, h1, _⟩ | ⟨r, h1, h2⟩
    · -- in the instructions before the return: these are old
      have hI : I ∈ B1.insts := by rw [hsplit, h1]; simp
      rw [hnone I hI] at hst
      exact absurd hst (by decide)
    · rcases split_cons_append h2.symm with ⟨r1, h3, h4⟩ | ⟨r1, h3, h4⟩
      · -- in the accumulation sequence
        obtain ⟨hr1, hop⟩ := accumSeq_store_split h3.symm ((storesTo_iff _ _).mp hst).1
        subst hr1
        have hvar : counterVar F.name = counterVar fn := by
          have := ((storesTo_iff _ _).mp hst).2
          rw [hop] at this
          exact Option.some.inj this
        have hname := counterVar_injective hvar
        refine ⟨hname, ⟨B0, hB0, by rw [hB0r, hr]⟩, term, hterm, ?_,
          init, slot, n, ?_⟩
        · simp only [List.nil_append] at h4
          by_cases hk : hooked = true
          · rw [if_pos hk] at hh ⊢
            obtain ⟨m, hm⟩ := hh
            exact ⟨m, by rw [h4, hm]; rfl⟩
          · rw [if_neg hk] at hh ⊢
            rw [h4, hh]; rfl
        · rw [h1, ← hvar, h3]
          simp
      · -- in the report call or the return
        exfalso
        by_cases hk : hooked = true
        · rw [if_pos hk] at hh
          obtain ⟨m, hm⟩ := hh
          subst hm
          have hI : I = reportCall m ∨ I = term := by
            have : I ∈ [reportCall m] ++ [term] := by rw [h4]; simp
            simpa using this
          rcases hI with e | e
          · rw [e] at hst; simp [Instruction.storesTo, reportCall] at hst
          · rw [hnone I (by rw [hsplit, e]; simp)] at hst
            exact absurd hst (by decide)
        · rw [if_neg hk] at hh
          subst hh
          have hI : I = term := by
            have : I ∈ [] ++ [term] := by rw [h4]; simp
            simpa using this
          rw [hnone I (by rw [hsplit, hI]; simp)] at hst
          exact absurd hst (by decide)
  · have hBeq := hR.2 (by simpa using hr)
    subst hBeq
    rw [hnone I (by rw [hs]; simp)] at hst
    exact absurd hst (by decide)
/-- Where the module the pass leaves holds a store to the accumulator of `fn`
when the input holds none. -/
theorem runOnModule_stores (ord : IterOrder) (M : Module) (hL : LoopSafe M) (fn : String)
    (hold : ∀ G ∈ M.functions, ∀ B ∈ G.blocks, ∀ J ∈ B.insts,
      J.storesTo (counterVar fn) = false)
    (out : List Function)
    (hout : List.Forall₂ (fun F F2 => ∃ k, F2 = finish (reportBlock ord M) (hookStart M)
      (instrumented F k)) (M.functions ++ newDeclarations M) out)
    {F2 : Function} (hF2 : F2 ∈ out) {B2 : BasicBlock} (hB2 : B2 ∈ F2.blocks)
    {p q : List Instruction} {I : Instruction}
    (hs : B2.insts = p ++ I :: q) (hst : I.storesTo (counterVar fn) = true) :
    F2.name = fn ∧
    (∃ F ∈ M.functions, F.name = fn ∧ ∃ B ∈ F.blocks, B.endsInRet = true) ∧
    ∃ term, term.opcode = Opcode.Ret ∧
      (if fn = "main" then ∃ m, q = [reportCall m, term] else q = [term]) ∧
      ∃ init slot n, p ++ [I] = init ++ accumSeq slot (counterVar fn) n := by
  obtain ⟨F, hF, k, hk⟩ := forall₂_mem_right hout F2 hF2
  have hRB : B2 = reportBlock ord M → False := by
    intro e
    have hI : I ∈ (reportBlock ord M).insts := by rw [← e, hs]; simp
    rw [reportBody_storesTo ord _ _ _ (counterVar fn) I hI] at hst
    exact absurd hst (by decide)
  by_cases hd : F.isDeclaration = true
  · exfalso
    have hb : F.blocks = [] := by
      unfold Function.isDeclaration at hd
      exact List.isEmpty_iff.mp hd
    rw [hk, instrumented_of_declaration F k hd, finish_blocks, hb] at hB2
    have hh : (hookReturns [] (hookStart M)).1 = [] := rfl
    rw [hh] at hB2
    simp only [ite_self, List.nil_append] at hB2
    by_cases hw : F.name = "printf_wrapper"
    · rw [if_pos hw] at hB2
      exact hRB (List.mem_singleton.mp hB2)
    · rw [if_neg hw] at hB2
      simp at hB2
  · have hd1 : F.isDeclaration = false := by simpa using hd
    have hFM : F ∈ M.functions := by
      rcases mem_append_newDeclarations hF with h | ⟨hb, _⟩
      · exact h
      · exfalso
        unfold Function.isDeclaration at hd1
        rw [hb] at hd1
        simp at hd1
    obtain ⟨entry, others, ip, hb, hip⟩ := entry_of_definition hd1 (hL.entry F hFM)
    obtain ⟨body, hbody, hshape⟩ := finish_instrumented_shape (reportBlock ord M) (hookStart M)
      F k entry others ip hb hip
    rw [hk, hbody] at hB2
    rcases List.mem_append.mp hB2 with hB | hB
    · obtain ⟨hname, hret, term, hterm, hq, hacc⟩ :=
        returnsInstrumented_store hshape (hold F hFM) hB hs hst
      refine ⟨by rw [hk, finish_name, instrumented_name, hname], ⟨F, hFM, hname, hret⟩,
        term, hterm, ?_, hacc⟩
      rw [hname] at hq
      simpa using hq
    · exfalso
      by_cases hw : F.name = "printf_wrapper"
      · rw [if_pos hw] at hB
        exact hRB (List.mem_singleton.mp hB)
      · rw [if_neg hw] at hB
        simp at hB
theorem forall₂_eq_right {α : Type} {l m : List α}
    (h : List.Forall₂ (fun a b => b = a) l m) : m = l := by
  induction h with
  | nil => rfl
  | cons hab _ ih => rw [hab, ih]

/-- A definition without a block that ends in a return leaves lines 63-85 (and
174-181) with the entry sequence in its entry block and nothing else. -/
theorem returnsInstrumented_no_return {F : Function} {body : List BasicBlock} {hooked : Bool}
    (h : ReturnsInstrumented F body hooked) (hnr : ∀ B ∈ F.blocks, B.endsInRet = false) :
    ∃ entry others ip slot, F.blocks = entry :: others ∧
      entry.getFirstInsertionPt = some ip ∧ ip < entry.insts.length ∧
      body = entry.insertBefore ip (entrySeq slot) :: others := by
  obtain ⟨entry, others, ip, slot, hb, hip, hlt, hf⟩ := h
  refine ⟨entry, others, ip, slot, hb, hip, hlt, forall₂_eq_right (forall₂_imp_mem hf ?_)⟩
  rintro B B1 hB ⟨_, h2⟩
  apply h2
  rcases List.mem_cons.mp hB with e | e
  · rw [e, endsInRet_of_getLast? (insertBefore_getLast? entry ip _ hlt)]
    exact hnr entry (by rw [hb]; exact List.mem_cons_self _ _)
  · exact hnr B (by rw [hb]; exact List.mem_cons_of_mem _ e)

/-- The accumulator of a definition is a global of the module the pass
leaves, with common linkage and the initial value 0. -/
theorem runOnModule_accumulator (M : Module) (hL : LoopSafe M) {F : Function}
    (hF : F ∈ M.functions) (hd : F.isDeclaration = false)
    {fnNames : List String} {gs4 gs5 : List GlobalVariable}
    (h4 : insertStringGlobal fnNames (perFunctionLoop M).state.globals "ResultFormatStrIR"
      ResultFormatStr = some gs4)
    (h5 : insertStringGlobal fnNames gs4 "ResultHeaderStrIR" ResultHeaderStr = some gs5) :
    ∃ g ∈ gs5, g.gid = GlobalId.named (counterName F.name) ∧
      g.linkage = Linkage.Common ∧ g.init = some (Init.fp 0) := by
  have hk := (perFunctionLoop_keys_mem M hL F.name).mpr ⟨F, hF, hd, rfl⟩
  obtain ⟨e, he, hen⟩ := List.mem_map.mp hk
  obtain ⟨_, g, hg, hgid, hlink, hinit⟩ := perFunctionLoop_counters M e he
  rw [hen] at hgid
  have hne : ∀ n, isCounterName n = false → g.gid ≠ GlobalId.named n := by
    intro n hn hc
    rw [hgid] at hc
    exact counterName_ne hn (GlobalId.named.inj hc)
  exact ⟨g, (insertStringGlobal_spec h5).2.1 g
    ((insertStringGlobal_spec h4).2.1 g hg (hne _ (by decide))) (hne _ (by decide)),
    hgid, hlink, hinit⟩

/-- C12, the claim as it stands fails: the definition `spin` of the program
`demoNoReturn` has no block that ends in a return, the pass returns `true`,
and the body of `spin` in the module it returns is not the body of the input:
the entry block starts with the allocation of the timer slot, a call of
`clock` and the store of the reading (lines 63-65). -/
theorem C12_counterexample :
    (∀ B ∈ demoSpin.blocks, B.endsInRet = false) ∧
    ∃ Mout, runOnModule IterOrder.insertion demoNoReturn = Result.returned true Mout ∧
      ∃ F2 ∈ Mout.functions, F2.name = "spin" ∧
        F2.blocks = [⟨"loop", [⟨4, Opcode.Alloca, Ty.Int64, []⟩,
                               ⟨5, Opcode.Call, Ty.Int64, [Clock]⟩,
                               ⟨6, Opcode.Store, Ty.Void, [Value.inst 5, Value.inst 4]⟩,
                               ⟨1, Opcode.Br, Ty.Void, [Value.other 1]⟩]⟩] ∧
        F2.blocks ≠ demoSpin.blocks := by
  refine ⟨by decide, _, rfl, _, List.mem_cons_self _ _, rfl, rfl, by decide⟩

/-- C12, amended.  On a supported module with a function `main`, for every
definition `F` without a block that ends in a return: the pass returns `true`;
the accumulator `TimeFor_` + name of `F` is a global of the module it
returns, with common linkage and the initial value 0; the blocks of `F` are
those of the input except that the entry block has the entry sequence
(allocation of the timer slot, call of `clock`, store of the reading) at its
first insertion point (a function `printf_wrapper` also has the block `enter`
behind its blocks); and when no instruction of the input stores to that
accumulator, no instruction of the returned module does. -/
theorem C12_function_without_return_keeps_its_accumulator (ord : IterOrder) (M : Module)
    (hS : Supported M) (hmain : hasFunction M.functions "main" = true)
    (F : Function) (hF : F ∈ M.functions) (hd : F.isDeclaration = false)
    (hnr : ∀ B ∈ F.blocks, B.endsInRet = false) :
    ∃ Mout, runOnModule ord M = Result.returned true Mout ∧
      (∃ g ∈ Mout.globals, g.gid = GlobalId.named ("TimeFor_" ++ F.name) ∧
        g.linkage = Linkage.Common ∧ g.init = some (Init.fp 0)) ∧
      (∃ F2 ∈ Mout.functions, F2.name = F.name ∧
        ∃ entry others ip slot, F.blocks = entry :: others ∧
          entry.getFirstInsertionPt = some ip ∧
          F2.blocks = entry.insertBefore ip (entrySeq slot) :: others
            ++ (if F.name = "printf_wrapper" then [reportBlock ord M] else [])) ∧
      ((∀ G ∈ M.functions, ∀ B ∈ G.blocks, ∀ J ∈ B.insts,
          J.storesTo (counterVar F.name) = false) →
        ∀ G2 ∈ Mout.functions, ∀ B ∈ G2.blocks, ∀ J ∈ B.insts,
          J.storesTo (counterVar F.name) = false) := by
  have hL := hS.toLoopSafe
  obtain ⟨Mout, hr, h1, ⟨fnNames, gs4, h4, h5⟩, _⟩ := runOnModule_returns ord M hS hmain
    ⟨F, hF, hd⟩
  refine ⟨Mout, hr, runOnModule_accumulator M hL hF hd h4 h5, ?_, ?_⟩
  · obtain ⟨F2, hF2, k, hk⟩ := forall₂_mem_left h1 F (List.mem_append_left _ hF)
    obtain ⟨entry, others, ip, hb, hip⟩ := entry_of_definition hd (hL.entry F hF)
    obtain ⟨body, hbody, hshape⟩ := finish_instrumented_shape (reportBlock ord M) (hookStart M)
      F k entry others ip hb hip
    obtain ⟨entry1, others1, ip1, slot, hb1, hip1, _, hbeq⟩ :=
      returnsInstrumented_no_return hshape hnr
    exact ⟨F2, hF2, by rw [hk, finish_name, instrumented_name], entry1, others1, ip1, slot,
      hb1, hip1, by rw [hk, hbody, hbeq]⟩
  · intro hold G2 hG2 B hB J hJ
    by_contra hc
    have hst : J.storesTo (counterVar F.name) = true := by simpa using hc
    obtain ⟨p, q, hs⟩ := List.append_of_mem hJ
    obtain ⟨_, ⟨F1, hF1, hname, B1, hB1, hret⟩, _⟩ :=
      runOnModule_stores ord M hL F.name hold Mout.functions h1 hG2 hB hs hst
    have heq : F1 = F := eq_of_name_eq hS.names hF1 hF hname
    rw [heq] at hB1
    rw [hnr B1 hB1] at hret
    exact absurd hret (by decide)

theorem C12_witness :
    Supported demoNoReturn ∧ (∀ B ∈ demoSpin.blocks, B.endsInRet = false) ∧
    ∃ Mout, runOnModule IterOrder.insertion demoNoReturn = Result.returned true Mout ∧
      ∃ g ∈ Mout.globals, g.gid = GlobalId.named ("TimeFor_" ++ demoSpin.name) ∧
        g.linkage = Linkage.Common ∧ g.init = some (Init.fp 0) :=
  ⟨⟨⟨by decide, by decide⟩, by decide, by decide, by decide, by decide, by decide⟩,
    by decide,
    match C12_function_without_return_keeps_its_accumulator IterOrder.insertion demoNoReturn
      ⟨⟨by decide, by decide⟩, by decide, by decide, by decide, by decide, by decide⟩
      (by decide) demoSpin (by decide) (by decide) (by decide) with
    | ⟨Mout, hr, hg, _⟩ => ⟨Mout, hr, hg⟩⟩

theorem hasGlobal_isCounter {gs : List GlobalVariable} {n : String}
    (hfresh : ∀ g ∈ gs, g.gid.isCounter = false) (hn : isCounterName n = true) :
    hasGlobal gs n = false := by
  rw [Bool.eq_false_iff]
  intro hc
  obtain ⟨g, hg, hgid⟩ := List.any_eq_true.mp hc
  have h1 := hfresh g hg
  rw [beq_iff_eq.mp hgid] at h1
  simp only [GlobalId.isCounter] at h1
  rw [hn] at h1
  exact absurd h1 (by decide)

/-- A module whose operands resolve and which has no symbol whose name starts with `TimeFor_`
holds no store to an accumulator. -/
theorem no_store_of_resolve (M : Module) (hL : LoopSafe M) (hres : OperandsResolve M)
    (hfresh : ∀ g ∈ M.globals, g.gid.isCounter = false) (fn : String) :
    ∀ G ∈ M.functions, ∀ B ∈ G.blocks, ∀ J ∈ B.insts, J.storesTo (counterVar fn) = false := by
  intro G hG B hB J hJ
  rw [Bool.eq_false_iff]
  intro hst
  have h1 := ((storesTo_iff _ _).mp hst).2
  have hmem : counterVar fn ∈ J.operands := List.getElem?_mem h1
  have h2 := hres G hG B hB J hJ _ hmem
  simp only [counterVar, Value.resolves, Bool.or_eq_true] at h2
  rcases h2 with h2 | h2
  · rw [hasGlobal_isCounter hfresh (isCounterName_counterName fn)] at h2
    exact absurd h2 (by decide)
  · obtain ⟨F, hF, hFn⟩ := List.mem_map.mp ((hasFunction_iff _ _).mp h2)
    have := hL.counter F hF
    rw [hFn, isCounterName_counterName] at this
    exact absurd this (by decide)

/-- The block `enter` holds loads, calls and its return, nothing else. -/
theorem reportBlock_opcodes (ord : IterOrder) (M : Module) :
    ∀ I ∈ (reportBlock ord M).insts,
      I.opcode = Opcode.Load ∨ I.opcode = Opcode.Call ∨ I.opcode = Opcode.Ret := by
  intro I hI
  unfold reportBlock reportBody at hI
  simp only at hI
  rcases List.mem_append.mp hI with h | h
  · rcases List.mem_append.mp h with h | h
    · simp only [List.mem_singleton] at h
      rw [h]; exact Or.inr (Or.inl rfl)
    · rcases dataLines_opcodes _ _ _ I h with e | e
      · exact Or.inl e
      · exact Or.inr (Or.inl e)
  · simp only [List.mem_singleton] at h
    rw [h]; exact Or.inr (Or.inr rfl)

/-! ## The symbols the pass adds -/

theorem updateNamedGlobal_append_fresh (Name : String) (f : GlobalVariable → GlobalVariable)
    (g : GlobalVariable) (hg : g.gid = GlobalId.named Name) :
    ∀ gs, hasGlobal gs Name = false → updateNamedGlobal Name f (gs ++ [g]) = gs ++ [f g]
  | [], _ => by simp [updateNamedGlobal, hg]
  | g0 :: rest, h => by
    have h0 : g0.gid ≠ GlobalId.named Name ∧ hasGlobal rest Name = false := by
      simpa [hasGlobal] using h
    rw [List.cons_append, updateNamedGlobal, if_neg h0.1,
      updateNamedGlobal_append_fresh Name f g hg rest h0.2]
    rfl

theorem getOrInsertGlobal_fresh {fnNames : List String} {gs gs1 : List GlobalVariable}
    {Name : String} {ty : Ty} (h : getOrInsertGlobal fnNames gs Name ty = some gs1)
    (hfree : hasGlobal gs Name = false) :
    gs1 = gs ++ [⟨GlobalId.named Name, ty, false, Linkage.External, none, none, false⟩] := by
  rcases (getOrInsertGlobal_spec h).2 with h1 | ⟨_, h1⟩
  · have := (getOrInsertGlobal_spec h).1
    rw [h1, hfree] at this
    exact absurd this (by decide)
  · exact h1

theorem CreateGlobalCounter_fresh {fnNames : List String} {gs gs1 : List GlobalVariable}
    {fn : String} {Var : Value}
    (h : CreateGlobalCounter fnNames gs (counterName fn) = some (gs1, Var))
    (hfree : hasGlobal gs (counterName fn) = false) :
    gs1 = gs ++ [accumulatorGlobal fn] := by
  unfold CreateGlobalCounter at h
  cases h0 : getOrInsertGlobal fnNames gs (counterName fn) Ty.Double with
  | none => rw [h0] at h; simp at h
  | some gs0 =>
    rw [h0] at h
    simp only [Option.some.injEq, Prod.mk.injEq] at h
    rw [← h.1, getOrInsertGlobal_fresh h0 hfree,
      updateNamedGlobal_append_fresh _ _ _ rfl gs hfree]
    rfl

theorem insertStringGlobal_fresh {fnNames : List String} {gs gs1 : List GlobalVariable}
    {Name Str : String} (h : insertStringGlobal fnNames gs Name Str = some gs1)
    (hfree : hasGlobal gs Name = false) :
    gs1 = gs ++ [stringGlobal Name Str] := by
  unfold insertStringGlobal at h
  cases h0 : getOrInsertGlobal fnNames gs Name (Ty.Int8Array (Str.utf8ByteSize + 1)) with
  | none => rw [h0] at h; simp at h
  | some gs0 =>
    rw [h0] at h
    simp only [Option.some.injEq] at h
    rw [← h, getOrInsertGlobal_fresh h0 hfree,
      updateNamedGlobal_append_fresh _ _ _ rfl gs hfree]
    rfl

/-- The globals the loop of STEP 1 appends when no accumulator name is taken:
for each definition, in order, its accumulator and its name constant. -/
theorem forEachFunction_globals (fnNames : List String) :
    ∀ (fs : List Function) (s : LoopState),
      (forEachFunction fnNames fs s).completed = true →
      (fs.map Function.name).Nodup →
      (∀ F ∈ fs, hasGlobal s.globals (counterName F.name) = false) →
      ∃ pairs : List (List GlobalVariable),
        (forEachFunction fnNames fs s).state.globals = s.globals ++ pairs.flatten ∧
        List.Forall₂ (fun fn pair => ∃ id, pair = [accumulatorGlobal fn, globalString id fn])
          (definedNames fs) pairs
  | [], s, _, _, _ => ⟨[], by simp [forEachFunction], by simp [definedNames]⟩
  | F :: rest, s, h, hnd, hfree => by
    have hnd1 : F.name ∉ rest.map Function.name ∧ (rest.map Function.name).Nodup :=
      List.nodup_cons.mp hnd
    rw [definedNames_cons]
    by_cases hd : F.isDeclaration = true
    · rw [forEachFunction_cons_declaration fnNames F rest s hd] at h ⊢
      rw [if_pos hd]
      exact forEachFunction_globals fnNames rest s h hnd1.2
        (fun G hG => hfree G (List.mem_cons_of_mem _ hG))
    · rw [if_neg hd]
      cases hv : visitFunction fnNames F s with
      | none =>
        rw [forEachFunction_cons_none fnNames F rest s hd hv] at h
        simp at h
      | some p =>
        obtain ⟨F1, s1⟩ := p
        rw [forEachFunction_cons_some fnNames F rest s hd F1 s1 hv] at h ⊢
        obtain ⟨_, gs1, hc, hg, _⟩ := visitFunction_spec hv
        have hgs1 := CreateGlobalCounter_fresh hc (hfree F (List.mem_cons_self _ _))
        have hfree1 : ∀ G ∈ rest, hasGlobal s1.globals (counterName G.name) = false := by
          intro G hG
          have hne : G.name ≠ F.name := by
            intro e
            exact hnd1.1 (e ▸ List.mem_map_of_mem _ hG)
          rw [hg, hgs1, hasGlobal_append, hasGlobal_append,
            hfree G (List.mem_cons_of_mem _ hG)]
          have hcn : counterName F.name ≠ counterName G.name :=
            fun e => hne (counterName_injective e).symm
          simp [hasGlobal, accumulatorGlobal, globalString, hcn]
        obtain ⟨pairs, hp, hf⟩ := forEachFunction_globals fnNames rest s1 h hnd1.2 hfree1
        refine ⟨[accumulatorGlobal F.name, globalString s.nextId F.name] :: pairs, ?_,
          List.Forall₂.cons ⟨s.nextId, rfl⟩ hf⟩
        simp only at hp ⊢
        rw [hp, hg, hgs1]
        simp

theorem perFunctionLoop_globals (M : Module) (h : LoopSafe M)
    (hnd : (M.functions.map Function.name).Nodup)
    (hfresh : ∀ g ∈ M.globals, g.gid.isCounter = false) :
    ∃ pairs : List (List GlobalVariable),
      (perFunctionLoop M).state.globals = M.globals ++ pairs.flatten ∧
      List.Forall₂ (fun fn pair => ∃ id, pair = [accumulatorGlobal fn, globalString id fn])
        (definedNames M.functions) pairs := by
  have h1 := forEachFunction_globals ((declareClock M).functions.map Function.name)
    (declareClock M).functions ⟨(declareClock M).globals, (declareClock M).nextId, [], [], false⟩
    (perFunctionLoop_completed M h) (declareClock_nodup M hnd) (by
      intro F _
      simp only [(declareClock_functions M).2.1]
      exact hasGlobal_isCounter hfresh (isCounterName_counterName F.name))
  obtain ⟨pairs, hp, hf⟩ := h1
  rw [declareClock_definedNames] at hf
  refine ⟨pairs, ?_, hf⟩
  unfold perFunctionLoop
  simp only
  rw [hp]
  simp only [(declareClock_functions M).2.1]

theorem newDeclarations_map_name (M : Module) :
    (newDeclarations M).map Function.name
      = (if hasGlobal M.globals "clock" = true ∨ hasFunction M.functions "clock" = true
          then [] else ["clock"]) ++
        (if hasFunction M.functions "printf" = true then [] else ["printf"]) ++
        (if hasFunction M.functions "printf_wrapper" = true then [] else ["printf_wrapper"]) := by
  unfold newDeclarations declareIfMissing
  by_cases h1 : hasGlobal M.globals "clock" = true <;>
  by_cases h2 : hasFunction M.functions "clock" = true <;>
  by_cases h3 : hasFunction M.functions "printf" = true <;>
  by_cases h4 : hasFunction M.functions "printf_wrapper" = true <;>
  simp [h1, h2, h3, h4]

/-- C13, the claim as it stands fails: on the program `demo`, which has the
definitions `foo` and `main` and no global, the pass also adds the function
`clock` and the global variables `ResultFormatStrIR` and `ResultHeaderStrIR`,
which are neither accumulators, name constants, `printf` nor the report
routine. -/
theorem C13_counterexample :
    demo.functions.map Function.name = ["foo", "main"] ∧ demo.globals = [] ∧
    ∃ Mout, runOnModule IterOrder.insertion demo = Result.returned true Mout ∧
      Mout.functions.map Function.name = ["foo", "main", "clock", "printf", "printf_wrapper"] ∧
      Mout.globals.map GlobalVariable.gid
        = [GlobalId.named "TimeFor_foo", GlobalId.anon 6,
           GlobalId.named "TimeFor_main", GlobalId.anon 18,
           GlobalId.named "ResultFormatStrIR", GlobalId.named "ResultHeaderStrIR"] :=
  ⟨rfl, rfl, _, rfl, rfl, rfl⟩

/-- C13, amended.  On a supported module with some definition and no global
variable whose name starts with `TimeFor_` or is `ResultFormatStrIR` or
`ResultHeaderStrIR`, the pass ends as on every supported module (it returns `true` when there is a
function `main`) and the symbols of the module it leaves are those of the
input, in their order, followed by what the pass adds.  Functions: `clock`
when the input has no symbol of that name, `printf` when it has no function
of that name, `printf_wrapper` when it has no function of that name, in this
order.  Global variables: for each definition, in order, its accumulator
`TimeFor_` + name (a double, common linkage, alignment 4, initial value 0)
and its private name constant, then the string globals `ResultFormatStrIR`
and `ResultHeaderStrIR`.  Nothing else is added. -/
theorem C13_symbols_added_by_the_pass (ord : IterOrder) (M : Module) (hS : Supported M)
    (hdef : ∃ F ∈ M.functions, F.isDeclaration = false)
    (hfresh : ∀ g ∈ M.globals, g.gid.isCounter = false)
    (hfmt : hasGlobal M.globals "ResultFormatStrIR" = false)
    (hhdr : hasGlobal M.globals "ResultHeaderStrIR" = false) :
    ∃ Mout, runOnModule ord M
        = (if hasFunction M.functions "main" = true then Result.returned true Mout
           else Result.crashed Mout) ∧
      Mout.functions.map Function.name
        = M.functions.map Function.name ++
          ((if hasGlobal M.globals "clock" = true ∨ hasFunction M.functions "clock" = true
              then [] else ["clock"]) ++
           (if hasFunction M.functions "printf" = true then [] else ["printf"]) ++
           (if hasFunction M.functions "printf_wrapper" = true then []
              else ["printf_wrapper"])) ∧
      ∃ pairs : List (List GlobalVariable),
        Mout.globals = M.globals ++ pairs.flatten ++
          [stringGlobal "ResultFormatStrIR" ResultFormatStr,
           stringGlobal "ResultHeaderStrIR" ResultHeaderStr] ∧
        List.Forall₂ (fun fn pair => ∃ id, pair = [accumulatorGlobal fn, globalString id fn])
          (definedNames M.functions) pairs := by
  have hL := hS.toLoopSafe
  obtain ⟨Mout, hr, h1, ⟨fnNames, gs4, h4, h5⟩, _⟩ := runOnModule_outcome ord M hS hdef
  obtain ⟨pairs, hp, hf⟩ := perFunctionLoop_globals M hL hS.names hfresh
  refine ⟨Mout, hr, ?_, pairs, ?_, hf⟩
  · rw [forall₂_finish_names h1, List.map_append, newDeclarations_map_name]
  · have e4 := insertStringGlobal_fresh h4
      (by rw [perFunctionLoop_hasGlobal M _ (by decide)]; exact hfmt)
    have e5 := insertStringGlobal_fresh h5 (by
      rw [e4, hasGlobal_append, perFunctionLoop_hasGlobal M _ (by decide), hhdr]
      rfl)
    rw [e5, e4, hp]
    simp

theorem C13_witness :
    Supported demo ∧ (∃ F ∈ demo.functions, F.isDeclaration = false) ∧
    (∀ g ∈ demo.globals, g.gid.isCounter = false) ∧
    hasGlobal demo.globals "ResultFormatStrIR" = false ∧
    hasGlobal demo.globals "ResultHeaderStrIR" = false ∧
    ∃ Mout, runOnModule IterOrder.insertion demo
        = (if hasFunction demo.functions "main" = true then Result.returned true Mout
           else Result.crashed Mout) ∧
      Mout.functions.map Function.name
        = demo.functions.map Function.name ++
          ((if hasGlobal demo.globals "clock" = true ∨ hasFunction demo.functions "clock" = true
              then [] else ["clock"]) ++
           (if hasFunction demo.functions "printf" = true then [] else ["printf"]) ++
           (if hasFunction demo.functions "printf_wrapper" = true then []
              else ["printf_wrapper"])) :=
  ⟨⟨⟨by decide, by decide⟩, by decide, by decide, by decide, by decide, by decide⟩,
    ⟨demoMain, by decide, by decide⟩, by decide, by decide, by decide,
    match C13_symbols_added_by_the_pass IterOrder.insertion demo
      ⟨⟨by decide, by decide⟩, by decide, by decide, by decide, by decide, by decide⟩
      ⟨demoMain, by decide, by decide⟩ (by decide) (by decide) (by decide) with
    | ⟨Mout, hr, hn, _⟩ => ⟨Mout, hr, hn⟩⟩

/-- C14, the claim as it stands fails: the program `demo` has no global at
all, and in the module the pass returns the store to the accumulator of `main`
is not immediately before the return of `main`: the call of `printf_wrapper`
follows it, and the return comes after that call. -/
theorem C14_counterexample :
    (∀ g ∈ demo.globals, g.gid.isCounter = false) ∧
    ∃ Mout, runOnModule IterOrder.insertion demo = Result.returned true Mout ∧
      ∃ F2 ∈ Mout.functions, F2.name = "main" ∧ ∃ B2 ∈ F2.blocks, ∃ I next,
        B2.insts.drop 11 = [I, next, ⟨5, Opcode.Ret, Ty.Void, [Value.other 0]⟩] ∧
        I.storesTo (Value.global (GlobalId.named "TimeFor_main")) = true ∧
        next = reportCall 36 ∧ next.opcode ≠ Opcode.Ret := by
  refine ⟨by decide, _, rfl, _, List.mem_cons_of_mem _ (List.mem_cons_self _ _), rfl,
    _, List.mem_cons_self _ _, _, _, rfl, by decide, rfl, by decide⟩

/-- C14, amended.  The name of the accumulator of a function is `TimeFor_`
followed by the name of the function, and different function names give
different accumulator names.  On a supported module with some definition, no
global whose name starts with `TimeFor_` and operands that resolve, in the
module the pass leaves: the accumulator of every definition `F` is the global
`TimeFor_` + name of `F`, and that is what the maps hold for `F`; every store
to the accumulator `TimeFor_` + `fn` lies in the function named `fn`, a
definition of the input with a block that ends in a return, and is the last
instruction of an accumulation sequence on that accumulator, followed
directly by a return, or, in `main`, directly by the report call and then the
return; the block `enter` of the report routine holds loads, calls and its
return, so no store. -/
theorem C14_accumulators_are_named_and_owned (ord : IterOrder) (M : Module)
    (hS : Supported M) (hdef : ∃ F ∈ M.functions, F.isDeclaration = false)
    (hfresh : ∀ g ∈ M.globals, g.gid.isCounter = false) (hres : OperandsResolve M) :
    (∀ fn, counterName fn = "TimeFor_" ++ fn) ∧
    (∀ a b, counterName a = counterName b → a = b) ∧
    ∃ Mout, runOnModule ord M
        = (if hasFunction M.functions "main" = true then Result.returned true Mout
           else Result.crashed Mout) ∧
      (∀ F ∈ M.functions, F.isDeclaration = false →
        (∃ e ∈ (perFunctionLoop M).state.CallCounterMap, e.1 = F.name ∧
          e.2 = Value.global (GlobalId.named (counterName F.name))) ∧
        ∃ g ∈ Mout.globals, g.gid = GlobalId.named (counterName F.name) ∧
          g.linkage = Linkage.Common ∧ g.init = some (Init.fp 0)) ∧
      (∀ F2 ∈ Mout.functions, ∀ B2 ∈ F2.blocks, ∀ fn p I q, B2.insts = p ++ I :: q →
        I.storesTo (Value.global (GlobalId.named (counterName fn))) = true →
        F2.name = fn ∧
        (∃ F ∈ M.functions, F.name = fn ∧ ∃ B ∈ F.blocks, B.endsInRet = true) ∧
        ∃ term, term.opcode = Opcode.Ret ∧
          (if fn = "main" then ∃ m, q = [reportCall m, term] else q = [term]) ∧
          ∃ init slot n, p ++ [I]
            = init ++ accumSeq slot (Value.global (GlobalId.named (counterName fn))) n) ∧
      (∀ I ∈ (reportBlock ord M).insts,
        I.opcode = Opcode.Load ∨ I.opcode = Opcode.Call ∨ I.opcode = Opcode.Ret) := by
  have hL := hS.toLoopSafe
  refine ⟨fun _ => rfl, fun a b h => counterName_injective h, ?_⟩
  obtain ⟨Mout, hr, h1, ⟨fnNames, gs4, h4, h5⟩, _⟩ := runOnModule_outcome ord M hS hdef
  refine ⟨Mout, hr, ?_, ?_, ?_⟩
  · intro F hF hd
    refine ⟨?_, runOnModule_accumulator M hL hF hd h4 h5⟩
    have hk := (perFunctionLoop_keys_mem M hL F.name).mpr ⟨F, hF, hd, rfl⟩
    obtain ⟨e, he, hen⟩ := List.mem_map.mp hk
    refine ⟨e, he, hen, ?_⟩
    rw [(perFunctionLoop_counters M e he).1, hen]
    rfl
  · intro F2 hF2 B2 hB2 fn p I q hs hst
    exact runOnModule_stores ord M hL fn (no_store_of_resolve M hL hres hfresh fn)
      Mout.functions h1 hF2 hB2 hs hst
  · exact reportBlock_opcodes ord M

theorem C14_witness :
    Supported demo ∧ (∃ F ∈ demo.functions, F.isDeclaration = false) ∧
    (∀ g ∈ demo.globals, g.gid.isCounter = false) ∧ OperandsResolve demo ∧
    ∀ a b, counterName a = counterName b → a = b :=
  ⟨⟨⟨by decide, by decide⟩, by decide, by decide, by decide, by decide, by decide⟩,
    ⟨demoMain, by decide, by decide⟩, by decide, by unfold OperandsResolve; decide,
    (C14_accumulators_are_named_and_owned IterOrder.insertion demo
      ⟨⟨by decide, by decide⟩, by decide, by decide, by decide, by decide, by decide⟩
      ⟨demoMain, by decide, by decide⟩ (by decide) (by unfold OperandsResolve; decide)).2.1⟩

/-! ## The header -/

set_option maxRecDepth 100000 in
theorem splitLines_header :
    splitLines [] ResultHeaderStr.data
      = some [ List.replicate 49 '=',
               "TIC-TOK: get function waste time".data,
               List.replicate 49 '=',
               "NAME".data ++ List.replicate 17 ' ' ++ "#FUNC WASTE SECONDS".data,
               List.replicate 49 '-' ] := by
  decide

theorem parseFormat_resultFormat :
    parseFormat FormatState.text ResultFormatStr.data
      = some [Directive.str 20, Directive.lit ' ', Directive.float 10, Directive.lit '\n'] := by
  decide

theorem columnOf_heading :
    columnOf "#FUNC".data
      ("NAME".data ++ List.replicate 17 ' ' ++ "#FUNC WASTE SECONDS".data) = some 21 := by
  decide

/-- The numeric field of a data line starts one column behind the name field,
which is 20 columns wide unless the name is longer. -/
theorem numericColumn_resultFormat (name : String) :
    (parseFormat FormatState.text ResultFormatStr.data).map (numericColumn name)
      = some (max 20 name.length + 1) := by
  rw [parseFormat_resultFormat]
  simp [numericColumn]

/-- The report routine of the module the pass leaves: a function
`printf_wrapper` whose last block is the block `enter`. -/
theorem wrapper_of_forall₂ (ord : IterOrder) (M : Module) {out : List Function}
    (h1 : List.Forall₂ (fun F F2 => ∃ k, F2 = finish (reportBlock ord M) (hookStart M)
      (instrumented F k)) (M.functions ++ newDeclarations M) out) :
    ∃ W ∈ out, W.name = "printf_wrapper" ∧ W.blocks.getLast? = some (reportBlock ord M) := by
  obtain ⟨F, hF, hFn⟩ := List.mem_map.mp
    ((hasFunction_iff _ _).mp (hasFunction_newDeclarations M))
  obtain ⟨W, hW, k, hk⟩ := forall₂_mem_left h1 F hF
  refine ⟨W, hW, by rw [hk, finish_name, instrumented_name, hFn], ?_⟩
  obtain ⟨body, hbody, _⟩ := finish_instrumented_keeps (reportBlock ord M) (hookStart M) F k
  rw [hk, hbody, if_pos hFn]
  simp

theorem reportBlock_head (ord : IterOrder) (M : Module) :
    ∃ n rest, (reportBlock ord M).insts
      = ⟨n, Opcode.Call, Ty.Int32, [Value.global (GlobalId.named "ResultHeaderStrIR"), Printf]⟩
          :: rest :=
  ⟨_, _, rfl⟩

/-- C15.  The header string `ResultHeaderStr` of lines 122-127 is made of five
lines, each ended by a newline: 49 times `=`, the title, 49 times `=`, the
column headings (`NAME`, 17 spaces, `#FUNC WASTE SECONDS`), 49 times `-`.  In
the line of the headings `#FUNC` starts at column 21, counted from 0.  The
data-line format is `%-20s %-10f` and a newline: a string left-justified in
20 columns, a space, a double left-justified in 10 columns; so the numeric
field starts at column `max 20 (length of the name) + 1`, which is column 21,
the column of `#FUNC`, for every name of at most 20 characters.  On a
supported module with some definition the block `enter`, the last block of
`printf_wrapper` in the module the pass leaves, starts with a call of `printf`
on the global `ResultHeaderStrIR`, whose initial value is that header
string. -/
theorem C15_header_text_and_numeric_column (ord : IterOrder) (M : Module) (hS : Supported M)
    (hdef : ∃ F ∈ M.functions, F.isDeclaration = false) :
    splitLines [] ResultHeaderStr.data
      = some [ List.replicate 49 '=',
               "TIC-TOK: get function waste time".data,
               List.replicate 49 '=',
               "NAME".data ++ List.replicate 17 ' ' ++ "#FUNC WASTE SECONDS".data,
               List.replicate 49 '-' ] ∧
    columnOf "#FUNC".data
      ("NAME".data ++ List.replicate 17 ' ' ++ "#FUNC WASTE SECONDS".data) = some 21 ∧
    ResultFormatStr = "%-20s %-10f\n" ∧
    parseFormat FormatState.text ResultFormatStr.data
      = some [Directive.str 20, Directive.lit ' ', Directive.float 10, Directive.lit '\n'] ∧
    (∀ name : String,
      (parseFormat FormatState.text ResultFormatStr.data).map (numericColumn name)
        = some (max 20 name.length + 1)) ∧
    (∀ name : String, name.length ≤ 20 →
      (parseFormat FormatState.text ResultFormatStr.data).map (numericColumn name)
        = columnOf "#FUNC".data
            ("NAME".data ++ List.replicate 17 ' ' ++ "#FUNC WASTE SECONDS".data)) ∧
    ∃ Mout, runOnModule ord M
        = (if hasFunction M.functions "main" = true then Result.returned true Mout
           else Result.crashed Mout) ∧
      (∃ W ∈ Mout.functions, W.name = "printf_wrapper" ∧
        W.blocks.getLast? = some (reportBlock ord M)) ∧
      (∃ n rest, (reportBlock ord M).insts
        = ⟨n, Opcode.Call, Ty.Int32, [Value.global (GlobalId.named "ResultHeaderStrIR"), Printf]⟩
            :: rest) ∧
      ∃ g ∈ Mout.globals, g.gid = GlobalId.named "ResultHeaderStrIR" ∧
        g.init = some (Init.str ResultHeaderStr) := by
  refine ⟨splitLines_header, columnOf_heading, rfl, parseFormat_resultFormat,
    numericColumn_resultFormat, ?_, ?_⟩
  · intro name hn
    rw [numericColumn_resultFormat, columnOf_heading, Nat.max_eq_left hn]
  · obtain ⟨Mout, hr, h1, ⟨fnNames, gs4, _, h5⟩, _⟩ := runOnModule_outcome ord M hS hdef
    exact ⟨Mout, hr, wrapper_of_forall₂ ord M h1, reportBlock_head ord M,
      (insertStringGlobal_spec h5).1⟩

theorem C15_witness :
    Supported demo ∧ (∃ F ∈ demo.functions, F.isDeclaration = false) ∧
    columnOf "#FUNC".data
      ("NAME".data ++ List.replicate 17 ' ' ++ "#FUNC WASTE SECONDS".data) = some 21 :=
  ⟨⟨⟨by decide, by decide⟩, by decide, by decide, by decide, by decide, by decide⟩,
    ⟨demoMain, by decide, by decide⟩,
    (C15_header_text_and_numeric_column IterOrder.insertion demo
      ⟨⟨by decide, by decide⟩, by decide, by decide, by decide, by decide, by decide⟩
      ⟨demoMain, by decide, by decide⟩).2.1⟩

/-! ## The return blocks of `main` -/

/-- With the report calls in, every block of the definition that ends in a
return reads: instructions, the accumulation sequence, the report call, the
return. -/
theorem returnsInstrumented_hooked {F : Function} {body : List BasicBlock}
    (h : ReturnsInstrumented F body true) :
    ∃ slot, ∀ B2 ∈ body, B2.endsInRet = true →
      ∃ init n m term, term.opcode = Opcode.Ret ∧
        B2.insts = init ++ accumSeq slot (counterVar F.name) n ++ [reportCall m] ++ [term] := by
  obtain ⟨entry, others, ip, slot, _, _, _, hf⟩ := h
  refine ⟨slot, fun B2 hB2 hret => ?_⟩
  obtain ⟨B1, _, hR⟩ := forall₂_mem_right hf B2 hB2
  by_cases hr : B1.endsInRet = true
  · obtain ⟨hook, ⟨_, init, term, n, _, hterm, hnew⟩, hh⟩ := hR.1 hr
    rw [if_pos rfl] at hh
    obtain ⟨m, hm⟩ := hh
    exact ⟨init, n, m, term, hterm, by rw [hnew, hm]⟩
  · have := hR.2 (by simpa using hr)
    rw [this] at hret
    exact absurd hret hr

/-- The function `main` of the module the pass leaves, when the input defines
it. -/
theorem finish_instrumented_main (RB : BasicBlock) (n : Nat) (F : Function) (k : Nat)
    (hname : F.name = "main") (hd : F.isDeclaration = false)
    (he : F.entryInsertable = true) :
    List.Forall₂ Keeps F.blocks (finish RB n (instrumented F k)).blocks ∧
    ReturnsInstrumented F (finish RB n (instrumented F k)).blocks true := by
  have hw : ¬ F.name = "printf_wrapper" := by rw [hname]; decide
  obtain ⟨entry, others, ip, hb, hip⟩ := entry_of_definition hd he
  obtain ⟨body, hbody, hshape⟩ := finish_instrumented_shape RB n F k entry others ip hb hip
  obtain ⟨body1, hbody1, hkeeps⟩ := finish_instrumented_keeps RB n F k
  rw [if_neg hw, List.append_nil] at hbody hbody1
  rw [hname] at hshape
  rw [← hbody1] at hkeeps
  rw [← hbody] at hshape
  exact ⟨hkeeps.imp (fun _ _ h => h.1), by simpa using hshape⟩

theorem dataLines_split (fm : StringMap) (item : String × Value) :
    ∀ (items : List (String × Value)) (n : Nat), item ∈ items →
      ∃ pre post m, dataLines fm items n = pre ++ dataLine fm item m ++ post
  | [], _, h => by simp at h
  | first :: rest, n, h => by
    unfold dataLines
    rcases List.mem_cons.mp h with e | e
    · subst e
      exact ⟨[], dataLines fm rest (n + 2), n, by simp⟩
    · obtain ⟨pre, post, m, hm⟩ := dataLines_split fm item rest (n + 2) e
      exact ⟨dataLine fm first n ++ pre, post, m, by rw [hm]; simp⟩

/-- The block `enter` loads the accumulator of every definition and hands the
loaded value to `printf`. -/
theorem reportBlock_loads (ord : IterOrder) (M : Module) (hL : LoopSafe M) {F : Function}
    (hF : F ∈ M.functions) (hd : F.isDeclaration = false) :
    ∃ pre post m id, (reportBlock ord M).insts
      = pre ++ [ ⟨m, Opcode.Load, Ty.Double, [counterVar F.name]⟩,
                 ⟨m + 1, Opcode.Call, Ty.Int32,
                   [ResultFormatStrPtr, Value.global (GlobalId.anon id), Value.inst m, Printf]⟩ ]
          ++ post := by
  have hk := (perFunctionLoop_keys_mem M hL F.name).mpr ⟨F, hF, hd, rfl⟩
  obtain ⟨e, he, hen⟩ := List.mem_map.mp hk
  have hval := (perFunctionLoop_counters M e he).1
  have hkey : e.1 ∈ (perFunctionLoop M).state.FuncNameMap.keys := by
    rw [← perFunctionLoop_keys_eq M]
    exact List.mem_map_of_mem _ he
  obtain ⟨id, hid, _⟩ := perFunctionLoop_nameConstants M _ (StringMap.get_mem _ _ hkey)
  simp only at hid
  have hmem : e ∈ ord.1 (perFunctionLoop M).state.CallCounterMap :=
    (ord.2 (perFunctionLoop M).state.CallCounterMap).mem_iff.mpr he
  obtain ⟨pre, post, m, hm⟩ := dataLines_split (perFunctionLoop M).state.FuncNameMap e _
    ((perFunctionLoop M).state.nextId + 1) hmem
  refine ⟨⟨(perFunctionLoop M).state.nextId, Opcode.Call, Ty.Int32,
      [ResultHeaderStrPtr, Printf]⟩ :: pre,
    post ++ [⟨(perFunctionLoop M).state.nextId + 1
      + 2 * (perFunctionLoop M).state.CallCounterMap.length, Opcode.Ret, Ty.Void, []⟩],
    m, id, ?_⟩
  unfold reportBlock reportBody
  simp only
  rw [hm]
  unfold dataLine
  rw [hid, hval, hen]
  simp

/-- A load of the accumulator right after the return sequence reads the value
the sequence has stored. -/
theorem load_after_accumSeq (mach : Machine) (slot n : Nat) (fn : String) (p T0 T1 : Nat)
    (later : List Nat) (a : ℚ)
    (hslot : mach.regs slot = some (RVal.stackPtr p)) (hT0 : mach.stack p = some T0)
    (hclock : mach.clock = T1 :: later)
    (hacc : mach.doubles (GlobalId.named (counterName fn)) = some a) :
    ∃ m1, mach.exec (accumSeq slot (counterVar fn) n) = some m1 ∧
      ∀ k, ∃ m2, m1.step ⟨k, Opcode.Load, Ty.Double, [counterVar fn]⟩ = some m2 ∧
        m2.regs k = some (RVal.fp (a + ((sub64 T1 T0 : Nat) : ℚ) / 1000000)) := by
  obtain ⟨m1, h1, h2, _⟩ := exec_accumSeq mach slot n fn p T0 T1 later a hslot hT0 hclock hacc
  refine ⟨m1, h1, fun k => ?_⟩
  simp [Machine.step, Machine.eval, counterVar, h2, Machine.setReg]

/-- C16.  On a supported module that defines `main` the pass returns `true`,
and in the module it returns the blocks of `main` keep those of the input
(same names, same last instruction, the original instructions in their
order), and every block of `main` that ends in a return reads: the
instructions before, then the accumulation sequence of `main` on one timer
slot, whose last instruction is the store to `TimeFor_main`, then the call of
`printf_wrapper`, then the return.  The block `enter` of the report routine
loads `TimeFor_main` and hands the loaded value to `printf`; and run from a
state in which the timer slot holds `T0`, the accumulator holds `a` and the
clock will read `T1`, the accumulation sequence completes and a load of
`TimeFor_main` after it reads `a + ((T1 - T0) mod 2^64) / 1000000`: the value
printed for `main` includes the time of the current invocation. -/
theorem C16_report_call_follows_the_accumulation_of_main (ord : IterOrder) (M : Module)
    (hS : Supported M) (Fm : Function) (hFm : Fm ∈ M.functions) (hname : Fm.name = "main")
    (hd : Fm.isDeclaration = false) :
    counterVar "main" = Value.global (GlobalId.named "TimeFor_main") ∧
    ∃ Mout, runOnModule ord M = Result.returned true Mout ∧
      (∃ main2 ∈ Mout.functions, main2.name = "main" ∧
        List.Forall₂ Keeps Fm.blocks main2.blocks ∧
        ∃ slot, ∀ B2 ∈ main2.blocks, B2.endsInRet = true →
          ∃ init n m term, term.opcode = Opcode.Ret ∧
            B2.insts = init ++ accumSeq slot (counterVar "main") n ++ [reportCall m] ++ [term] ∧
            (accumSeq slot (counterVar "main") n).getLast?
              = some ⟨n + 7, Opcode.Store, Ty.Void, [Value.inst (n + 6), counterVar "main"]⟩) ∧
      (∃ pre post m id, (reportBlock ord M).insts
        = pre ++ [ ⟨m, Opcode.Load, Ty.Double, [counterVar "main"]⟩,
                   ⟨m + 1, Opcode.Call, Ty.Int32,
                     [ResultFormatStrPtr, Value.global (GlobalId.anon id), Value.inst m,
                      Printf]⟩ ]
            ++ post) ∧
      ∀ (mach : Machine) (slot n p T0 T1 : Nat) (later : List Nat) (a : ℚ),
        mach.regs slot = some (RVal.stackPtr p) → mach.stack p = some T0 →
        mach.clock = T1 :: later →
        mach.doubles (GlobalId.named "TimeFor_main") = some a →
        ∃ m1, mach.exec (accumSeq slot (counterVar "main") n) = some m1 ∧
          ∀ k, ∃ m2, m1.step ⟨k, Opcode.Load, Ty.Double, [counterVar "main"]⟩ = some m2 ∧
            m2.regs k
              = some (RVal.fp (a + (((((T1 : Int) - (T0 : Int)) % 2 ^ 64).toNat : Nat) : ℚ)
                  / 1000000)) := by
  have hL := hS.toLoopSafe
  have hmain : hasFunction M.functions "main" = true :=
    (hasFunction_iff _ _).mpr (hname ▸ List.mem_map_of_mem _ hFm)
  obtain ⟨Mout, hr, h1, _⟩ := runOnModule_returns ord M hS hmain ⟨Fm, hFm, hd⟩
  refine ⟨rfl, Mout, hr, ?_, ?_, ?_⟩
  · obtain ⟨main2, hm2, k, hk⟩ := forall₂_mem_left h1 Fm (List.mem_append_left _ hFm)
    obtain ⟨hkeeps, hshape⟩ := finish_instrumented_main (reportBlock ord M) (hookStart M) Fm k
      hname hd (hL.entry Fm hFm)
    obtain ⟨slot, hslot⟩ := returnsInstrumented_hooked hshape
    rw [hname] at hslot
    refine ⟨main2, hm2, by rw [hk, finish_name, instrumented_name, hname],
      by rw [hk]; exact hkeeps, slot, fun B2 hB2 hret => ?_⟩
    rw [hk] at hB2
    obtain ⟨init, n, m, term, hterm, hinsts⟩ := hslot B2 hB2 hret
    exact ⟨init, n, m, term, hterm, hinsts, rfl⟩
  · have := reportBlock_loads ord M hL hFm hd
    rw [hname] at this
    exact this
  · intro mach slot n p T0 T1 later a hslot hT0 hclock hacc
    exact load_after_accumSeq mach slot n "main" p T0 T1 later a hslot hT0 hclock hacc

theorem C16_witness :
    Supported demo ∧ demoMain ∈ demo.functions ∧ demoMain.name = "main" ∧
    demoMain.isDeclaration = false ∧
    counterVar "main" = Value.global (GlobalId.named "TimeFor_main") :=
  ⟨⟨⟨by decide, by decide⟩, by decide, by decide, by decide, by decide, by decide⟩,
    by decide, rfl, rfl,
    (C16_report_call_follows_the_accumulation_of_main IterOrder.insertion demo
      ⟨⟨by decide, by decide⟩, by decide, by decide, by decide, by decide, by decide⟩
      demoMain (by decide) rfl rfl).1⟩

end TicTok
